import Mathlib

/-!
Verification of the OnChipDataCompression codec core against its
natural-language specification.

The C++ sources are shallowly embedded: `size_t` values are modelled as
unbounded naturals (`Nat`) — all quantities reachable in the verified
statements stay far below `2 ^ 64`; the 64-bit `Integer` type of `Package`
is a `Nat` constrained by `< 2 ^ 64` hypotheses where the width matters;
the signed 16-bit pixel coordinate (`RawCoordinate`) is an `Int` and the
narrowing conversion from wider values is modelled explicitly by `int16`.
Fallible operations (C++ `throw`) return `Option`/`none`.
-/

namespace PixelStudies

/-! ## Package: the bit-level data stream

Mirrors `struct Package` of AlphabetStatisticsCollection.h: a growing
vector of bytes (`data`), the current write position in bits (`endPos`,
the position of `end_iter`), and the list of readout-cycle positions. -/

/-- A data package.  Bytes are naturals below 256. -/
structure Package where
  data : List Nat
  endPos : Nat
  readout : List Nat
deriving Repr, DecidableEq

/-- A fresh package (default constructor). -/
def Package.empty : Package := ⟨[], 0, []⟩

/-- Bit `i` of the byte stream: `(bytes[i/8] >> (i%8)) & 1`, as a `Bool`.
Out-of-range bytes read as 0 (they are never touched by well-formed use). -/
def Package.bitAt (p : Package) (i : Nat) : Bool :=
  (p.data.getD (i / 8) 0).testBit (i % 8)

/-- The logical content of a package: its first `endPos` bits in stream order. -/
def Package.bits (p : Package) : List Bool :=
  (List.range p.endPos).map p.bitAt

/-- `Package::Mask`: the `n` low bits set (for `n = 64`, the full 64-bit mask). -/
def Package.Mask (n : Nat) : Nat := if n = 64 then 2 ^ 64 - 1 else 2 ^ n - 1

/-- Well-formedness invariant maintained by every `Package` the source can
build: the byte vector holds exactly the bytes the bit size requires, every
entry is a byte, and all bits at or past `endPos` are zero. -/
structure Package.WF (p : Package) : Prop where
  len : p.data.length = (p.endPos + 7) / 8
  bytes : ∀ i, p.data.getD i 0 < 256
  trail : ∀ i, p.endPos ≤ i → p.bitAt i = false

/-- Apply `f` to the last element of a list (models `data.back() |= ...`);
the empty list is left unchanged (the source never reaches that case). -/
def updLast (f : Nat → Nat) : List Nat → List Nat
  | [] => []
  | [b] => [f b]
  | b :: bs => b :: updLast f bs

/-- The write loop of `Package::write_ex`: `nw` of the requested `n` bits
of `v` have been written already; pack the rest LSB-first into the byte
vector, extending it whenever the write position is byte-aligned.  Each
iteration of the source loop writes at least one bit, so `n - nw` bounds
the iteration count; the explicit `fuel` argument (always instantiated
with `n`) makes the recursion structural.  The source's internal
`shifted value is too big` guard is kept (it can never fire). -/
def writeChunks : Nat → List Nat → Nat → Nat → Nat → Nat → Option (List Nat × Nat)
  | 0, data, e, _, n, nw => if nw < n then none else some (data, e)
  | fuel + 1, data, e, v, n, nw =>
    if nw < n then
      if 2 ^ min (8 - e % 8) (n - nw) - 1 <
          (v >>> nw) &&& Package.Mask (min (8 - e % 8) (n - nw)) then none
      else
        writeChunks fuel
          (updLast
            (fun b => b |||
              (((v >>> nw) &&& Package.Mask (min (8 - e % 8) (n - nw))) <<< (e % 8)))
            (if e % 8 = 0 then data ++ [0] else data))
          (e + min (8 - e % 8) (n - nw)) v n (nw + min (8 - e % 8) (n - nw))
    else some (data, e)

/-- `Package::write_ex(value, number_of_bits)`: append the `n` low bits of
`value` LSB-first.  Fails when `n > 64` or (for `n < 64`) the value exceeds
the `n`-bit maximum; for `n = 64` every 64-bit value is accepted. -/
def Package.write_ex (p : Package) (v n : Nat) : Option Package :=
  if 64 < n then none
  else if n < 64 ∧ Package.Mask n < v then none
  else
    match writeChunks n p.data p.endPos v n 0 with
    | none => none
    | some (d, e) => some ⟨d, e, p.readout⟩

/-- The loop of `Package::write`: emit bits `b_{n-1}, …, b_0` of `v`
(MSB first), each through the one-bit path of `write_ex`.  The source
indexes iterations by `n` ascending with shift `number_of_bits - n - 1`;
here the recursion is directly on the remaining shift count `rem`, so the
emitted shifts are `n - 1, …, 0` exactly as in the source. -/
def writeMsbLoop (v : Nat) : Nat → Package → Option Package
  | 0, p => some p
  | rem + 1, p =>
    match p.write_ex ((v >>> rem) &&& 1) 1 with
    | none => none
    | some p' => writeMsbLoop v rem p'

/-- `Package::write(value, number_of_bits)`: range checks, then the MSB-first
bit loop. -/
def Package.write (p : Package) (v n : Nat) : Option Package :=
  if 64 < n then none
  else if n < 64 ∧ Package.Mask n < v then none
  else writeMsbLoop v n p

/-- `Package::next_readout_cicle()`: record the current bit position. -/
def Package.nextReadoutCicle (p : Package) : Package :=
  ⟨p.data, p.endPos, p.readout ++ [p.endPos]⟩

/-- The copy constructor `Package(const Package&)`: copies the byte data and
the iterator positions but not the readout-position collection. -/
def Package.copy (p : Package) : Package :=
  ⟨p.data, p.endPos, []⟩

/-- `Package::operator==`: sizes in bits must agree, then the bytes are
compared element-wise; indexing `other` out of range (`data.at`) throws,
modelled by `none`. -/
def Package.eqOp (p q : Package) : Option Bool :=
  if p.endPos ≠ q.endPos then some false
  else if p.data.length ≤ q.data.length then
    some (decide (∀ i < p.data.length, p.data.getD i 0 = q.data.getD i 0))
  else none

/-- The read loop of `Package::iterator::read_ex`: consume `nb - nr` more
bits starting at bit position `pos`, accumulating LSB-first into `acc`.
Each iteration reads at least one bit, so `nb - nr` bounds the iteration
count; the `fuel` argument (always instantiated with `nb`) makes the
recursion structural. -/
def readChunks : Nat → List Nat → Nat → Nat → Nat → Nat → Nat × Nat
  | 0, _, pos, _, _, acc => (acc, pos)
  | fuel + 1, data, pos, nb, nr, acc =>
    if nr < nb then
      readChunks fuel data (pos + min (8 - pos % 8) (nb - nr)) nb
        (nr + min (8 - pos % 8) (nb - nr))
        (acc |||
          ((((data.getD (pos / 8) 0) >>> (pos % 8)) &&&
            Package.Mask (min (8 - pos % 8) (nb - nr))) <<< nr))
    else (acc, pos)

/-- `Package::iterator::read_ex(n, use_zeros_for_missing_data)` at bit
position `pos`: returns the value read and the new position.  With fewer
than `n` bits left it fails unless the zero-fill flag is set, in which case
the partial result is left-shifted by the number of missing bits. -/
def Package.read_ex (p : Package) (pos n : Nat) (zeros : Bool) : Option (Nat × Nat) :=
  if 64 < n then none
  else
    if p.endPos - pos < n ∧ ¬zeros then none
    else
      match readChunks (min n (p.endPos - pos)) p.data pos (min n (p.endPos - pos)) 0 0 with
      | (r, pos') => some (r <<< (n - min n (p.endPos - pos)), pos')

/-- The loop of `Package::iterator::read`: `nb` single-bit `read_ex` calls,
accumulating MSB-first. -/
def readMsbLoop (p : Package) (pos nb acc : Nat) : Option (Nat × Nat) :=
  match nb with
  | 0 => some (acc, pos)
  | nb' + 1 =>
    match p.read_ex pos 1 false with
    | none => none
    | some (b, pos') => readMsbLoop p pos' nb' (acc * 2 + b)

/-- `Package::iterator::read(n, use_zeros_for_missing_data)` at position
`pos`: MSB-first read of `min n (bits left)` bits, then a left shift by the
number of missing bits. -/
def Package.read (p : Package) (pos n : Nat) (zeros : Bool) : Option (Nat × Nat) :=
  if 64 < n then none
  else
    if p.endPos - pos < n ∧ ¬zeros then none
    else
      match readMsbLoop p pos (min n (p.endPos - pos)) 0 with
      | none => none
      | some (r, pos') => some (r <<< (n - min n (p.endPos - pos)), pos')

/-! ### Lemmas about the write path -/

theorem updLast_length (f : Nat → Nat) (l : List Nat) : (updLast f l).length = l.length := by
  induction l with
  | nil => rfl
  | cons b bs ih =>
    cases bs with
    | nil => rfl
    | cons c cs => simpa [updLast] using ih

theorem updLast_getD (f : Nat → Nat) (l : List Nat) (i : Nat) :
    (updLast f l).getD i 0 = if i + 1 = l.length then f (l.getD i 0) else l.getD i 0 := by
  induction l generalizing i with
  | nil => simp [updLast]
  | cons b bs ih =>
    cases bs with
    | nil =>
      cases i with
      | zero => simp [updLast]
      | succ j => simp [updLast]
    | cons c cs =>
      cases i with
      | zero => simp [updLast]
      | succ j =>
        simp only [updLast, List.getD_cons_succ, List.length_cons, ih j]
        by_cases hj : j + 1 = cs.length + 1
        · rw [if_pos hj, if_pos (by omega)]
        · rw [if_neg hj, if_neg (by omega)]

theorem appendZero_getD (data : List Nat) (i : Nat) :
    (data ++ [0]).getD i 0 = data.getD i 0 := by
  by_cases h : i < data.length
  · exact List.getD_append _ _ _ _ h
  · rw [List.getD_eq_default data _ (by omega)]
    by_cases h' : i < (data ++ [0]).length
    · rw [List.getD_append_right _ _ _ _ (by omega)]
      simp
    · rw [List.getD_eq_default _ _ (by omega)]

/-- Full functional specification of the `write_ex` loop: starting from a
well-formed byte vector it always succeeds, advances the end position by the
number of remaining bits, preserves old bits, writes the bits of `v`
LSB-first, and maintains well-formedness. -/
theorem writeChunks_spec (v n : Nat) :
    ∀ fuel data e nw, n - nw ≤ fuel →
    data.length = (e + 7) / 8 →
    (∀ i, data.getD i 0 < 256) →
    (∀ i, e ≤ i → (data.getD (i / 8) 0).testBit (i % 8) = false) →
    ∃ d',
      writeChunks fuel data e v n nw = some (d', e + (n - nw)) ∧
      d'.length = (e + (n - nw) + 7) / 8 ∧
      (∀ i, d'.getD i 0 < 256) ∧
      (∀ i, e + (n - nw) ≤ i → (d'.getD (i / 8) 0).testBit (i % 8) = false) ∧
      (∀ i, i < e → (d'.getD (i / 8) 0).testBit (i % 8) = (data.getD (i / 8) 0).testBit (i % 8)) ∧
      (∀ j, j < n - nw → (d'.getD ((e + j) / 8) 0).testBit ((e + j) % 8) = v.testBit (nw + j)) := by
  intro fuel
  induction fuel with
  | zero =>
    intro data e nw hfuel hlen hbytes htrail
    have h : ¬ nw < n := by omega
    have h0 : n - nw = 0 := by omega
    refine ⟨data, ?_, by rw [h0, hlen], hbytes, ?_, ?_, ?_⟩
    · simp only [writeChunks, if_neg h, h0, Nat.add_zero]
    · intro i hi; exact htrail i (by omega)
    · intro i _; rfl
    · intro j hj; omega
  | succ fuel ih =>
    intro data e nw hfuel hlen hbytes htrail
    by_cases h : nw < n
    · have hs8 : e % 8 < 8 := Nat.mod_lt _ (by omega)
      rw [writeChunks, if_pos h]
      set s := e % 8 with hs
      set k := min (8 - s) (n - nw) with hk
      have hk1 : 1 ≤ k := by omega
      have hks : k + s ≤ 8 := by omega
      have hkn : k ≤ n - nw := by omega
      have hmask : Package.Mask k = 2 ^ k - 1 := by
        rw [Package.Mask, if_neg (by omega)]
      set mv := (v >>> nw) &&& Package.Mask k with hmv
      have hmvle : mv ≤ 2 ^ k - 1 := by
        rw [hmv, hmask]; exact Nat.and_le_right
      rw [if_neg (by omega)]
      set d1 := (if s = 0 then data ++ [0] else data) with hd1
      set d2 := updLast (fun b => b ||| (mv <<< s)) d1 with hd2
      -- byte-level facts
      have hd1len : d1.length = e / 8 + 1 := by
        rw [hd1]
        by_cases h0 : s = 0
        · rw [if_pos h0]; simp [hlen]; omega
        · rw [if_neg h0]; rw [hlen]; omega
      have hd1getD : ∀ i, i ≠ e / 8 → d1.getD i 0 = data.getD i 0 := by
        intro i hi
        rw [hd1]
        by_cases h0 : s = 0
        · rw [if_pos h0, appendZero_getD]
        · rw [if_neg h0]
      have hd1active : ∀ t, s ≤ t → (d1.getD (e / 8) 0).testBit t = false := by
        intro t ht
        by_cases h0 : s = 0
        · have hdlen : data.length = e / 8 := by rw [hlen]; omega
          have hz : d1.getD (e / 8) 0 = 0 := by
            rw [hd1, if_pos h0, List.getD_append_right _ _ _ _ (by omega)]
            simp [hdlen]
          rw [hz, Nat.zero_testBit]
        · have hgd : d1.getD (e / 8) 0 = data.getD (e / 8) 0 := by
            rw [hd1, if_neg h0]
          by_cases ht8 : t < 8
          · have hbit := htrail (8 * (e / 8) + t) (by omega)
            have hdiv : (8 * (e / 8) + t) / 8 = e / 8 := by omega
            have hmod : (8 * (e / 8) + t) % 8 = t := by omega
            rw [hdiv, hmod] at hbit
            rw [hgd]; exact hbit
          · have h28 : (256:Nat) ≤ 2 ^ t := by
              calc (256:Nat) = 2 ^ 8 := by norm_num
              _ ≤ 2 ^ t := Nat.pow_le_pow_right (by omega) (by omega)
            rw [hgd]
            exact Nat.testBit_lt_two_pow (lt_of_lt_of_le (hbytes (e / 8)) h28)
      have hd2len : d2.length = d1.length := updLast_length _ _
      have hd2getD : ∀ i, d2.getD i 0 =
          if i = e / 8 then d1.getD i 0 ||| (mv <<< s) else d1.getD i 0 := by
        intro i
        rw [hd2, updLast_getD, hd1len]
        by_cases hi : i = e / 8
        · rw [if_pos (by omega), if_pos hi]
        · rw [if_neg (by omega), if_neg hi]
      -- bits of the modified byte
      have hnbbit : ∀ t, (d2.getD (e / 8) 0).testBit t =
          ((d1.getD (e / 8) 0).testBit t ||
            (decide (s ≤ t) && (v.testBit (nw + (t - s)) && decide (t - s < k)))) := by
        intro t
        rw [hd2getD, if_pos rfl, Nat.testBit_or, Nat.testBit_shiftLeft, hmv, hmask,
          Nat.testBit_and, Nat.testBit_shiftRight, Nat.testBit_two_pow_sub_one]
      have hd1bytes : ∀ i, d1.getD i 0 < 256 := by
        intro i
        rw [hd1]
        by_cases h0 : s = 0
        · rw [if_pos h0, appendZero_getD]; exact hbytes i
        · rw [if_neg h0]; exact hbytes i
      have hpk : (1:Nat) ≤ 2 ^ k := Nat.one_le_two_pow
      have hd2bytes : ∀ i, d2.getD i 0 < 256 := by
        intro i
        rw [hd2getD]
        by_cases hi : i = e / 8
        · rw [if_pos hi]
          have hm : mv <<< s < 2 ^ 8 := by
            calc mv <<< s = mv * 2 ^ s := Nat.shiftLeft_eq _ _
            _ < 2 ^ k * 2 ^ s := by
                have : mv < 2 ^ k := by omega
                exact Nat.mul_lt_mul_of_lt_of_le this (le_refl _) (by positivity)
            _ = 2 ^ (k + s) := (pow_add 2 k s).symm
            _ ≤ 2 ^ 8 := Nat.pow_le_pow_right (by omega) hks
          have h256 : (256:Nat) = 2 ^ 8 := by norm_num
          rw [h256]
          exact Nat.or_lt_two_pow (by rw [← h256]; exact hd1bytes i) hm
        · rw [if_neg hi]; exact hd1bytes i
      have hd2trail : ∀ i, e + k ≤ i → (d2.getD (i / 8) 0).testBit (i % 8) = false := by
        intro i hi
        by_cases hib : i / 8 = e / 8
        · rw [hib, hnbbit]
          rw [hd1active _ (by omega)]
          have : ¬ (i % 8 - s < k) := by omega
          simp [this]
        · have hib' : e / 8 < i / 8 := by omega
          rw [hd2getD, if_neg hib, hd1getD _ (by omega)]
          exact htrail i (by omega)
      have hd2pres : ∀ i, i < e →
          (d2.getD (i / 8) 0).testBit (i % 8) = (data.getD (i / 8) 0).testBit (i % 8) := by
        intro i hi
        by_cases hib : i / 8 = e / 8
        · have h0 : s ≠ 0 := by omega
          have hts : ¬ (s ≤ i % 8) := by omega
          rw [hib, hnbbit]
          rw [show d1.getD (e / 8) 0 = data.getD (e / 8) 0 from by rw [hd1, if_neg h0]]
          simp [hts]
        · rw [hd2getD, if_neg hib, hd1getD _ hib]
      have hd2new : ∀ j, j < k →
          (d2.getD ((e + j) / 8) 0).testBit ((e + j) % 8) = v.testBit (nw + j) := by
        intro j hj
        have hdiv : (e + j) / 8 = e / 8 := by omega
        have hmod : (e + j) % 8 = s + j := by omega
        rw [hdiv, hmod, hnbbit]
        rw [hd1active _ (by omega)]
        have h1 : s ≤ s + j := by omega
        have h2 : s + j - s = j := by omega
        simp [h1, h2, hj]
      have hd2len' : d2.length = (e + k + 7) / 8 := by
        rw [hd2len, hd1len]; omega
      obtain ⟨d', hrec, hlen', hbytes', htrail', hpres', hnew'⟩ :=
        ih d2 (e + k) (nw + k) (by omega) hd2len' hd2bytes hd2trail
      have h3 : e + k + (n - (nw + k)) = e + (n - nw) := by omega
      refine ⟨d', ?_, ?_, hbytes', ?_, ?_, ?_⟩
      · rw [hrec, h3]
      · rw [hlen', h3]
      · intro i hi
        exact htrail' i (by omega)
      · intro i hi
        rw [hpres' i (by omega), hd2pres i hi]
      · intro j hj
        by_cases hjk : j < k
        · rw [hpres' (e + j) (by omega), hd2new j hjk]
        · have hh := hnew' (j - k) (by omega)
          have h4 : e + k + (j - k) = e + j := by omega
          have h5 : nw + k + (j - k) = nw + j := by omega
          rw [h4, h5] at hh
          exact hh
    · have h0 : n - nw = 0 := by omega
      refine ⟨data, ?_, by rw [h0, hlen], hbytes, ?_, ?_, ?_⟩
      · simp only [writeChunks, if_neg h, h0, Nat.add_zero]
      · intro i hi; exact htrail i (by omega)
      · intro i _; rfl
      · intro j hj; omega

/-- `Package::write_ex` on a well-formed package: it succeeds exactly under
the source's range checks, appends the `n` low bits of `v` LSB-first, and
preserves everything else. -/
theorem write_ex_spec (p : Package) (v n : Nat) (hwf : p.WF) (hn : n ≤ 64)
    (hv : ¬ (n < 64 ∧ Package.Mask n < v)) :
    ∃ p', p.write_ex v n = some p' ∧ p'.WF ∧ p'.endPos = p.endPos + n ∧
      p'.readout = p.readout ∧
      (∀ i, i < p.endPos → p'.bitAt i = p.bitAt i) ∧
      (∀ j, j < n → p'.bitAt (p.endPos + j) = v.testBit j) := by
  obtain ⟨d', hrec, hlen, hbytes, htrail, hpres, hnew⟩ :=
    writeChunks_spec v n n p.data p.endPos 0 (by omega) hwf.len hwf.bytes
      (fun i hi => hwf.trail i hi)
  rw [Nat.sub_zero] at hrec hlen htrail hnew
  refine ⟨⟨d', p.endPos + n, p.readout⟩, ?_, ?_, rfl, rfl, ?_, ?_⟩
  · rw [Package.write_ex, if_neg (by omega), if_neg hv]
    rw [hrec]
  · exact ⟨hlen, hbytes, fun i hi => htrail i hi⟩
  · intro i hi
    exact hpres i hi
  · intro j hj
    have hb := hnew j hj
    rw [Nat.zero_add] at hb
    exact hb

/-- The MSB-first bit list of the `n` low bits of `v`, in emission order of
`Package::write`: bit `n-1` first. -/
def msbBits (v : Nat) : Nat → List Bool
  | 0 => []
  | n + 1 => v.testBit n :: msbBits v n

theorem msbBits_length (v n : Nat) : (msbBits v n).length = n := by
  induction n with
  | zero => rfl
  | succ n ih => simpa [msbBits] using ih

theorem msbBits_getD (v n j : Nat) (hj : j < n) :
    (msbBits v n).getD j false = v.testBit (n - 1 - j) := by
  induction n generalizing j with
  | zero => omega
  | succ n ih =>
    cases j with
    | zero => simp [msbBits]
    | succ i =>
      have := ih i (by omega)
      simpa [msbBits, show n - 1 - i = n + 1 - 1 - (i + 1) from by omega] using this

/-- `Package::write` on a well-formed package: under the source's range
checks it appends the `n`-bit MSB-first representation of `v`. -/
theorem write_spec (p : Package) (v n : Nat) (hwf : p.WF) (hn : n ≤ 64)
    (hv : ¬ (n < 64 ∧ Package.Mask n < v)) :
    ∃ p', p.write v n = some p' ∧ p'.WF ∧ p'.endPos = p.endPos + n ∧
      p'.readout = p.readout ∧
      (∀ i, i < p.endPos → p'.bitAt i = p.bitAt i) ∧
      (∀ j, j < n → p'.bitAt (p.endPos + j) = v.testBit (n - 1 - j)) := by
  have main : ∀ rem q, q.WF → ∃ q', writeMsbLoop v rem q = some q' ∧ q'.WF ∧
      q'.endPos = q.endPos + rem ∧ q'.readout = q.readout ∧
      (∀ i, i < q.endPos → q'.bitAt i = q.bitAt i) ∧
      (∀ j, j < rem → q'.bitAt (q.endPos + j) = v.testBit (rem - 1 - j)) := by
    intro rem
    induction rem with
    | zero =>
      intro q hq
      exact ⟨q, rfl, hq, by omega, rfl, fun i _ => rfl, fun j hj => by omega⟩
    | succ rem ih =>
      intro q hq
      obtain ⟨q1, hq1eq, hq1wf, hq1end, hq1ro, hq1pres, hq1new⟩ :=
        write_ex_spec q ((v >>> rem) &&& 1) 1 hq (by omega)
          (by
            intro ⟨_, hlt⟩
            have h1 : (v >>> rem) &&& 1 ≤ 1 := Nat.and_le_right
            rw [Package.Mask, if_neg (by omega)] at hlt
            omega)
      obtain ⟨q', hq'eq, hq'wf, hq'end, hq'ro, hq'pres, hq'new⟩ := ih q1 hq1wf
      refine ⟨q', ?_, hq'wf, by omega, by rw [hq'ro, hq1ro], ?_, ?_⟩
      · rw [writeMsbLoop, hq1eq]
        exact hq'eq
      · intro i hi
        rw [hq'pres i (by omega), hq1pres i hi]
      · intro j hj
        rcases Nat.eq_zero_or_pos j with hj0 | hj0
        · subst hj0
          rw [Nat.add_zero]
          have hb := hq1new 0 (by omega)
          rw [Nat.add_zero] at hb
          have : q'.bitAt q.endPos = q1.bitAt q.endPos := hq'pres q.endPos (by omega)
          rw [this, hb]
          have harg : ((v >>> rem) &&& 1).testBit 0 = v.testBit rem := by
            rw [Nat.testBit_and, Nat.testBit_shiftRight, Nat.add_zero]
            simp
          rw [harg]
          exact rfl
        · have hb := hq'new (j - 1) (by omega)
          rw [show q1.endPos + (j - 1) = q.endPos + j from by omega] at hb
          rw [hb]
          congr 1
          omega
  rw [Package.write, if_neg (by omega), if_neg hv]
  exact main n p hwf

/-- Specification of the `read_ex` loop: the result accumulates exactly the
stream bits `[pos, pos + (nb - nr))` at output bit positions `[nr, nb)`. -/
theorem readChunks_spec (data : List Nat) (nb : Nat) :
    ∀ fuel pos nr acc, nb - nr ≤ fuel →
    ∃ r, readChunks fuel data pos nb nr acc = (r, pos + (nb - nr)) ∧
      ∀ t, r.testBit t =
        (acc.testBit t ||
          (decide (nr ≤ t) && decide (t < nb) &&
            (data.getD ((pos + (t - nr)) / 8) 0).testBit ((pos + (t - nr)) % 8))) := by
  intro fuel
  induction fuel with
  | zero =>
    intro pos nr acc hfuel
    refine ⟨acc, ?_, ?_⟩
    · simp only [readChunks]
      rw [show nb - nr = 0 from by omega, Nat.add_zero]
    · intro t
      by_cases h1 : nr ≤ t
      · have h2 : ¬ t < nb := by omega
        simp [h2]
      · simp [h1]
  | succ fuel ih =>
    intro pos nr acc hfuel
    by_cases h : nr < nb
    · have hs8 : pos % 8 < 8 := Nat.mod_lt _ (by omega)
      rw [readChunks, if_pos h]
      set s := pos % 8 with hs
      set k := min (8 - s) (nb - nr) with hk
      have hk1 : 1 ≤ k := by omega
      have hks : k + s ≤ 8 := by omega
      have hmask : Package.Mask k = 2 ^ k - 1 := by
        rw [Package.Mask, if_neg (by omega)]
      set acc' := acc ||| ((((data.getD (pos / 8) 0) >>> s) &&& Package.Mask k) <<< nr)
        with hacc'
      have haccbits : ∀ t, acc'.testBit t =
          (acc.testBit t ||
            (decide (nr ≤ t) &&
              ((data.getD (pos / 8) 0).testBit (s + (t - nr)) && decide (t - nr < k)))) := by
        intro t
        rw [hacc', Nat.testBit_or, Nat.testBit_shiftLeft, hmask, Nat.testBit_and,
          Nat.testBit_shiftRight, Nat.testBit_two_pow_sub_one]
      obtain ⟨r, hrec, hbits⟩ := ih (pos + k) (nr + k) acc' (by omega)
      have h3 : pos + k + (nb - (nr + k)) = pos + (nb - nr) := by omega
      refine ⟨r, by rw [hrec, h3], ?_⟩
      intro t
      rw [hbits t, haccbits t]
      by_cases h1 : nr ≤ t
      · by_cases h2 : t < nr + k
        · have e1 : ¬ (nr + k ≤ t) := by omega
          have e2 : t < nb := by omega
          have e3 : t - nr < k := by omega
          have e4 : (pos + (t - nr)) / 8 = pos / 8 := by omega
          have e5 : (pos + (t - nr)) % 8 = s + (t - nr) := by omega
          simp [h1, e1, e2, e3, e4, e5]
        · have e1 : nr + k ≤ t := by omega
          have e3 : ¬ (t - nr < k) := by omega
          have e4 : pos + k + (t - (nr + k)) = pos + (t - nr) := by omega
          simp [h1, e1, e3, e4]
      · have e1 : ¬ (nr + k ≤ t) := by omega
        simp [h1, e1]
    · refine ⟨acc, ?_, ?_⟩
      · rw [readChunks, if_neg h]
        rw [show nb - nr = 0 from by omega, Nat.add_zero]
      · intro t
        by_cases h1 : nr ≤ t
        · have h2 : ¬ t < nb := by omega
          simp [h2]
        · simp [h1]

/-- `Package::iterator::read_ex` on a well-formed package: under the
source's checks it returns the next `min n (bits left)` stream bits
LSB-first, left-shifted by the number of missing bits. -/
theorem read_ex_spec (p : Package) (pos n : Nat) (zeros : Bool) (hn : n ≤ 64)
    (hz : ¬ (p.endPos - pos < n ∧ zeros = false)) :
    ∃ r, p.read_ex pos n zeros =
        some (r <<< (n - min n (p.endPos - pos)), pos + min n (p.endPos - pos)) ∧
      ∀ t, r.testBit t = (decide (t < min n (p.endPos - pos)) && p.bitAt (pos + t)) := by
  obtain ⟨r, hrec, hbits⟩ :=
    readChunks_spec p.data (min n (p.endPos - pos)) (min n (p.endPos - pos)) pos 0 0
      (by omega)
  refine ⟨r, ?_, ?_⟩
  · rw [Package.read_ex, if_neg (by omega), if_neg (by
      intro ⟨h1, h2⟩
      exact hz ⟨h1, by simpa using h2⟩)]
    rw [show min n (p.endPos - pos) - 0 = min n (p.endPos - pos) from rfl] at hrec
    rw [hrec]
  · intro t
    have := hbits t
    simpa [Package.bitAt] using this

/-- The bits of the stream in positions `[pos, pos + n)`. -/
def sliceBits (p : Package) : Nat → Nat → List Bool
  | _, 0 => []
  | pos, n + 1 => p.bitAt pos :: sliceBits p (pos + 1) n

theorem sliceBits_length (p : Package) (pos n : Nat) : (sliceBits p pos n).length = n := by
  induction n generalizing pos with
  | zero => rfl
  | succ n ih => simpa [sliceBits] using ih (pos + 1)

theorem sliceBits_getD (p : Package) (pos n j : Nat) (hj : j < n) :
    (sliceBits p pos n).getD j false = p.bitAt (pos + j) := by
  induction n generalizing pos j with
  | zero => omega
  | succ n ih =>
    cases j with
    | zero => simp [sliceBits]
    | succ i =>
      have := ih (pos + 1) i (by omega)
      simpa [sliceBits, show pos + 1 + i = pos + (i + 1) from by omega] using this

/-- MSB-first accumulation, as performed by the loop of
`Package::iterator::read`. -/
def msbAcc (acc : Nat) : List Bool → Nat
  | [] => acc
  | b :: bs => msbAcc (acc * 2 + cond b 1 0) bs

/-- The low `n` bits of a value below `2 ^ n` written MSB-first and then
accumulated MSB-first give the value back. -/
theorem msbAcc_msbBits (v : Nat) : ∀ n acc, msbAcc acc (msbBits v n) = acc * 2 ^ n + v % 2 ^ n := by
  intro n
  induction n with
  | zero => intro acc; simp [msbBits, msbAcc, Nat.mod_one]
  | succ n ih =>
    intro acc
    rw [msbBits, msbAcc, ih]
    have hv : v % 2 ^ (n + 1) = v % 2 ^ n + 2 ^ n * (v / 2 ^ n % 2) := by
      conv_lhs => rw [Nat.pow_succ]
      rw [Nat.mod_mul]
    rw [hv, Nat.testBit_to_div_mod]
    have h2 : v / 2 ^ n % 2 = 0 ∨ v / 2 ^ n % 2 = 1 := by omega
    rcases h2 with h2 | h2 <;> simp [h2, Nat.pow_succ] <;> ring

/-- The `read` loop (`nb` single-bit `read_ex` calls): equals MSB-first
accumulation of the stream slice. -/
theorem readMsbLoop_spec (p : Package) :
    ∀ nb pos acc, pos + nb ≤ p.endPos →
    readMsbLoop p pos nb acc = some (msbAcc acc (sliceBits p pos nb), pos + nb) := by
  intro nb
  induction nb with
  | zero => intro pos acc h; simp [readMsbLoop, sliceBits, msbAcc]
  | succ nb ih =>
    intro pos acc h
    obtain ⟨r, hrec, hbits⟩ := read_ex_spec p pos 1 false (by omega) (by
      intro ⟨h1, _⟩
      omega)
    have hmin : min 1 (p.endPos - pos) = 1 := by omega
    rw [hmin] at hrec hbits
    have hr : r = cond (p.bitAt pos) 1 0 := by
      apply Nat.eq_of_testBit_eq
      intro t
      rw [hbits t]
      cases t with
      | zero => cases hb : p.bitAt pos <;> simp [hb]
      | succ i =>
        have h1 : (1:Nat) < 2 ^ (i + 1) := by
          have h2 : 2 ^ 1 ≤ 2 ^ (i + 1) := Nat.pow_le_pow_right (by omega) (by omega)
          rw [pow_one] at h2
          omega
        cases hb : p.bitAt pos <;> simp [hb, Nat.testBit_lt_two_pow h1]
    rw [readMsbLoop, hrec]
    simp only [Nat.sub_self, Nat.shiftLeft_zero]
    rw [ih (pos + 1) (acc * 2 + r) (by omega)]
    rw [hr]
    rw [show pos + (nb + 1) = pos + 1 + nb from by omega]
    rfl

/-- `Package::iterator::read` on a well-formed package at `pos ≤ size`:
under the source's checks it returns the next `min n (bits left)` stream
bits MSB-first, left-shifted by the number of missing bits. -/
theorem read_spec (p : Package) (pos n : Nat) (zeros : Bool) (hn : n ≤ 64)
    (hpos : pos ≤ p.endPos) (hz : ¬ (p.endPos - pos < n ∧ zeros = false)) :
    p.read pos n zeros =
      some ((msbAcc 0 (sliceBits p pos (min n (p.endPos - pos)))) <<<
        (n - min n (p.endPos - pos)), pos + min n (p.endPos - pos)) := by
  rw [Package.read, if_neg (by omega), if_neg (by
    intro ⟨h1, h2⟩
    exact hz ⟨h1, by simpa using h2⟩)]
  rw [readMsbLoop_spec p (min n (p.endPos - pos)) pos 0 (by omega)]

/-! ### Auxiliary facts used by the bit-packing claims -/

theorem list_eq_of_getD {l₁ l₂ : List Bool} (h : l₁.length = l₂.length)
    (he : ∀ j, j < l₁.length → l₁.getD j false = l₂.getD j false) : l₁ = l₂ := by
  apply List.ext_getElem h
  intro i h1 h2
  have hq := he i h1
  rwa [List.getD_eq_getElem _ _ h1, List.getD_eq_getElem _ _ h2] at hq

/-- Totality of the `write_ex` loop: it never fails and always advances the
end position by exactly the number of remaining bits (no well-formedness
assumptions needed). -/
theorem writeChunks_total (v n : Nat) : ∀ fuel data e nw, n - nw ≤ fuel →
    ∃ d', writeChunks fuel data e v n nw = some (d', e + (n - nw)) := by
  intro fuel
  induction fuel with
  | zero =>
    intro data e nw hfuel
    have h : ¬ nw < n := by omega
    refine ⟨data, ?_⟩
    simp only [writeChunks, if_neg h, show n - nw = 0 from by omega, Nat.add_zero]
  | succ fuel ih =>
    intro data e nw hfuel
    by_cases h : nw < n
    · have hs8 : e % 8 < 8 := Nat.mod_lt _ (by omega)
      rw [writeChunks, if_pos h]
      set k := min (8 - e % 8) (n - nw) with hk
      have hk1 : 1 ≤ k := by omega
      have hmask : Package.Mask k = 2 ^ k - 1 := by
        rw [Package.Mask, if_neg (by omega)]
      have hmvle : (v >>> nw) &&& Package.Mask k ≤ 2 ^ k - 1 := by
        rw [hmask]; exact Nat.and_le_right
      rw [if_neg (by omega)]
      obtain ⟨d', hrec⟩ := ih _ (e + k) (nw + k) (by omega)
      refine ⟨d', ?_⟩
      rw [hrec, show e + k + (n - (nw + k)) = e + (n - nw) from by omega]
    · refine ⟨data, ?_⟩
      rw [writeChunks, if_neg h]
      rw [show n - nw = 0 from by omega, Nat.add_zero]

theorem write_ex_total (p : Package) (v n : Nat) (hn : n ≤ 64)
    (hv : ¬ (n < 64 ∧ Package.Mask n < v)) :
    ∃ p', p.write_ex v n = some p' ∧ p'.endPos = p.endPos + n ∧ p'.readout = p.readout := by
  obtain ⟨d', hrec⟩ := writeChunks_total v n n p.data p.endPos 0 (by omega)
  rw [Nat.sub_zero] at hrec
  refine ⟨⟨d', p.endPos + n, p.readout⟩, ?_, rfl, rfl⟩
  rw [Package.write_ex, if_neg (by omega), if_neg hv, hrec]

theorem writeMsbLoop_total (v : Nat) : ∀ rem p,
    ∃ p', writeMsbLoop v rem p = some p' ∧ p'.endPos = p.endPos + rem ∧
      p'.readout = p.readout := by
  intro rem
  induction rem with
  | zero => intro p; exact ⟨p, rfl, by omega, rfl⟩
  | succ rem ih =>
    intro p
    obtain ⟨q1, hq1, hq1e, hq1r⟩ := write_ex_total p ((v >>> rem) &&& 1) 1 (by omega)
      (by
        intro ⟨_, hlt⟩
        have h1 : (v >>> rem) &&& 1 ≤ 1 := Nat.and_le_right
        rw [Package.Mask, if_neg (by omega)] at hlt
        omega)
    obtain ⟨p', hp', hpe, hpr⟩ := ih q1
    refine ⟨p', ?_, by omega, by rw [hpr, hq1r]⟩
    rw [writeMsbLoop, hq1]
    exact hp'

/-- A decidable sufficient condition for `Package.WF`, used to establish
well-formedness of concrete packages by computation. -/
def Package.wfCheck (p : Package) : Bool :=
  decide (p.data.length = (p.endPos + 7) / 8) &&
  p.data.all (fun b => b < 256) &&
  (List.range (8 * p.data.length)).all
    (fun i => !(decide (p.endPos ≤ i)) || !((p.data.getD (i / 8) 0).testBit (i % 8)))

theorem Package.wf_of_check (p : Package) (h : p.wfCheck = true) : p.WF := by
  rw [Package.wfCheck, Bool.and_assoc] at h
  simp only [Bool.and_eq_true, decide_eq_true_eq, List.all_eq_true] at h
  obtain ⟨h1, h2, h3⟩ := h
  refine ⟨h1, ?_, ?_⟩
  · intro i
    by_cases hi : i < p.data.length
    · have hm : p.data.getD i 0 ∈ p.data := by
        rw [List.getD_eq_getElem _ _ hi]
        exact List.getElem_mem hi
      have := h2 _ hm
      simpa using this
    · rw [List.getD_eq_default _ _ (by omega)]
      omega
  · intro i hi
    by_cases hib : i < 8 * p.data.length
    · have := h3 i (by simpa using hib)
      rw [Package.bitAt]
      simp only [Bool.or_eq_true, Bool.not_eq_true', decide_eq_false_iff_not] at this
      rcases this with hc | hc
      · omega
      · simpa using hc
    · rw [Package.bitAt, List.getD_eq_default _ _ (by omega), Nat.zero_testBit]

/-- Claim C2: for every `n ∈ [0,64]` and value `v < 2^n`, writing `v` with
`write_ex(v,n)` and then reading `n` bits with `read_ex` from an iterator
positioned where the write started returns `v`; the same round-trip holds
for the MSB-first pair `write(v,n)` / `read(n)`. -/
theorem bitpack_roundtrip (p : Package) (v n : Nat) (hwf : p.WF) (hn : n ≤ 64)
    (hv : v < 2 ^ n) :
    (∃ p', p.write_ex v n = some p' ∧
      p'.read_ex p.endPos n false = some (v, p.endPos + n)) ∧
    (∃ p', p.write v n = some p' ∧
      p'.read p.endPos n false = some (v, p.endPos + n)) := by
  have hvchk : ¬ (n < 64 ∧ Package.Mask n < v) := by
    intro ⟨h1, h2⟩
    rw [Package.Mask, if_neg (by omega)] at h2
    have : (1:Nat) ≤ 2 ^ n := Nat.one_le_two_pow
    omega
  constructor
  · obtain ⟨p', heq, hwf', hend, _, _, hnew⟩ := write_ex_spec p v n hwf hn hvchk
    obtain ⟨r, hread, hbits⟩ := read_ex_spec p' p.endPos n false (by omega)
      (by intro ⟨h1, _⟩; omega)
    have hmin : min n (p'.endPos - p.endPos) = n := by omega
    rw [hmin] at hread hbits
    have hrv : r = v := by
      apply Nat.eq_of_testBit_eq
      intro t
      rw [hbits t]
      by_cases ht : t < n
      · simp only [decide_eq_true ht, Bool.true_and]
        exact hnew t ht
      · have hvt : v.testBit t = false :=
          Nat.testBit_lt_two_pow (lt_of_lt_of_le hv (Nat.pow_le_pow_right (by omega) (by omega)))
        simp [ht, hvt]
    refine ⟨p', heq, ?_⟩
    rw [hread, hrv, Nat.sub_self, Nat.shiftLeft_zero]
  · obtain ⟨p', heq, hwf', hend, _, _, hnew⟩ := write_spec p v n hwf hn hvchk
    have hread := read_spec p' p.endPos n false (by omega) (by omega)
      (by intro ⟨h1, _⟩; omega)
    have hmin : min n (p'.endPos - p.endPos) = n := by omega
    rw [hmin] at hread
    have hslice : sliceBits p' p.endPos n = msbBits v n := by
      apply list_eq_of_getD (by rw [sliceBits_length, msbBits_length])
      intro j hj
      rw [sliceBits_length] at hj
      rw [sliceBits_getD _ _ _ _ hj, msbBits_getD _ _ _ hj]
      exact hnew j hj
    rw [hslice] at hread
    have hval : msbAcc 0 (msbBits v n) = v := by
      rw [msbAcc_msbBits, Nat.zero_mul, Nat.zero_add, Nat.mod_eq_of_lt hv]
    rw [hval, Nat.sub_self, Nat.shiftLeft_zero] at hread
    exact ⟨p', heq, hread⟩

/-- Witness for C2 at a concrete input: `v = 5`, `n = 3` on the empty package. -/
theorem bitpack_roundtrip_witness :
    (∃ p', Package.empty.write_ex 5 3 = some p' ∧
      p'.read_ex Package.empty.endPos 3 false = some (5, Package.empty.endPos + 3)) ∧
    (∃ p', Package.empty.write 5 3 = some p' ∧
      p'.read Package.empty.endPos 3 false = some (5, Package.empty.endPos + 3)) :=
  bitpack_roundtrip Package.empty 5 3
    (Package.wf_of_check Package.empty (by decide)) (by decide) (by decide)

/-- Claim C8: `Package::write(value, n)` fails exactly when `n > 64` or
`value ≥ 2^n` (the checks precede any mutation, so a failing write leaves
the package untouched — reflected here by the checks preceding the write
loop); a successful write appends exactly `n` bits and leaves the readout
positions unchanged. -/
theorem write_fails_iff (p : Package) (v n : Nat) (hv64 : v < 2 ^ 64) :
    (p.write v n = none ↔ 64 < n ∨ 2 ^ n ≤ v) ∧
    (∀ p', p.write v n = some p' →
      p'.endPos = p.endPos + n ∧ p'.readout = p.readout) := by
  by_cases h1 : 64 < n
  · constructor
    · rw [Package.write, if_pos h1]
      simp [h1]
    · intro p' hp'
      rw [Package.write, if_pos h1] at hp'
      exact absurd hp' (by simp)
  · by_cases h2 : n < 64 ∧ Package.Mask n < v
    · have h2' : 2 ^ n ≤ v := by
        obtain ⟨h2a, h2b⟩ := h2
        rw [Package.Mask, if_neg (by omega)] at h2b
        have : (1:Nat) ≤ 2 ^ n := Nat.one_le_two_pow
        omega
      constructor
      · rw [Package.write, if_neg h1, if_pos h2]
        simp [h2']
      · intro p' hp'
        rw [Package.write, if_neg h1, if_pos h2] at hp'
        exact absurd hp' (by simp)
    · obtain ⟨p', hp', hpe, hpr⟩ := writeMsbLoop_total v n p
      constructor
      · rw [Package.write, if_neg h1, if_neg h2, hp']
        constructor
        · intro hc; exact absurd hc (by simp)
        · intro hc
          rcases hc with hc | hc
          · omega
          · rcases Nat.lt_or_ge n 64 with hn | hn
            · rw [Package.Mask, if_neg (by omega)] at h2
              have : (1:Nat) ≤ 2 ^ n := Nat.one_le_two_pow
              omega
            · have hn64 : n = 64 := by omega
              subst hn64
              omega
      · intro q hq
        rw [Package.write, if_neg h1, if_neg h2, hp'] at hq
        cases hq
        exact ⟨hpe, hpr⟩

/-- Witness for C8 at a concrete input. -/
theorem write_fails_iff_witness :
    (3:Nat) < 2 ^ 64 ∧
    (((⟨[5], 3, []⟩ : Package).write 3 2 = none ↔ 64 < 2 ∨ 2 ^ 2 ≤ 3) ∧
     (∀ p', (⟨[5], 3, []⟩ : Package).write 3 2 = some p' →
       p'.endPos = (⟨[5], 3, []⟩ : Package).endPos + 2 ∧
       p'.readout = (⟨[5], 3, []⟩ : Package).readout)) :=
  ⟨by decide, write_fails_iff ⟨[5], 3, []⟩ 3 2 (by decide)⟩

/-- Claim C9: a read of `n` bits with fewer than `n` bits remaining fails
when `use_zeros_for_missing_data` is false; with the flag set it returns
the remaining bits left-shifted by the number of missing bits (zero-fill
on the LSB side); with at least `n` bits remaining the flag has no effect.
Both `read` and `read_ex` behave this way. -/
theorem read_underflow (p : Package) (pos n : Nat) (hwf : p.WF) (hn : n ≤ 64)
    (hpos : pos ≤ p.endPos) :
    (p.endPos - pos < n →
      p.read_ex pos n false = none ∧
      p.read pos n false = none ∧
      (∃ r, p.read_ex pos n true = some (r <<< (n - (p.endPos - pos)), p.endPos) ∧
        ∀ t, r.testBit t = (decide (t < p.endPos - pos) && p.bitAt (pos + t))) ∧
      p.read pos n true =
        some ((msbAcc 0 (sliceBits p pos (p.endPos - pos))) <<< (n - (p.endPos - pos)),
          p.endPos)) ∧
    (n ≤ p.endPos - pos →
      p.read_ex pos n false = p.read_ex pos n true ∧
      p.read pos n false = p.read pos n true) := by
  constructor
  · intro hless
    have hmin : min n (p.endPos - pos) = p.endPos - pos := by omega
    refine ⟨?_, ?_, ?_, ?_⟩
    · rw [Package.read_ex, if_neg (by omega), if_pos ⟨hless, by simp⟩]
    · rw [Package.read, if_neg (by omega), if_pos ⟨hless, by simp⟩]
    · obtain ⟨r, hread, hbits⟩ := read_ex_spec p pos n true (by omega) (by simp)
      rw [hmin] at hread hbits
      rw [show pos + (p.endPos - pos) = p.endPos from by omega] at hread
      exact ⟨r, hread, hbits⟩
    · have hread := read_spec p pos n true (by omega) hpos (by simp)
      rw [hmin, show pos + (p.endPos - pos) = p.endPos from by omega] at hread
      exact hread
  · intro hge
    constructor
    · obtain ⟨r, hr1, hb1⟩ := read_ex_spec p pos n false (by omega) (by intro ⟨h1, _⟩; omega)
      obtain ⟨r', hr2, hb2⟩ := read_ex_spec p pos n true (by omega) (by simp)
      have : r = r' := by
        apply Nat.eq_of_testBit_eq
        intro t
        rw [hb1 t, hb2 t]
      rw [hr1, hr2, this]
    · rw [read_spec p pos n false (by omega) hpos (by intro ⟨h1, _⟩; omega),
        read_spec p pos n true (by omega) hpos (by simp)]

/-- Witness for C9 at a concrete input: a 3-bit package, reads of width 5. -/
theorem read_underflow_witness :
    ((⟨[5], 3, []⟩ : Package).endPos - 0 < 5 →
      (⟨[5], 3, []⟩ : Package).read_ex 0 5 false = none ∧
      (⟨[5], 3, []⟩ : Package).read 0 5 false = none ∧
      (∃ r, (⟨[5], 3, []⟩ : Package).read_ex 0 5 true =
          some (r <<< (5 - ((⟨[5], 3, []⟩ : Package).endPos - 0)),
            (⟨[5], 3, []⟩ : Package).endPos) ∧
        ∀ t, r.testBit t = (decide (t < (⟨[5], 3, []⟩ : Package).endPos - 0) &&
          (⟨[5], 3, []⟩ : Package).bitAt (0 + t))) ∧
      (⟨[5], 3, []⟩ : Package).read 0 5 true =
        some ((msbAcc 0 (sliceBits (⟨[5], 3, []⟩ : Package) 0
            ((⟨[5], 3, []⟩ : Package).endPos - 0))) <<<
          (5 - ((⟨[5], 3, []⟩ : Package).endPos - 0)),
          (⟨[5], 3, []⟩ : Package).endPos)) ∧
    (5 ≤ (⟨[5], 3, []⟩ : Package).endPos - 0 →
      (⟨[5], 3, []⟩ : Package).read_ex 0 5 false = (⟨[5], 3, []⟩ : Package).read_ex 0 5 true ∧
      (⟨[5], 3, []⟩ : Package).read 0 5 false = (⟨[5], 3, []⟩ : Package).read 0 5 true) :=
  read_underflow ⟨[5], 3, []⟩ 0 5
    (Package.wf_of_check ⟨[5], 3, []⟩ (by decide)) (by decide) (by decide)

/-- Claim C10: the copy constructor copies the byte data and the bit size
(so the copy compares equal to the original under `operator==`) but not
the readout-cycle positions: after at least one `next_readout_cicle` call
the original's list is non-empty while the copy's is empty. -/
theorem copy_drops_readout (p : Package) :
    p.copy.data = p.data ∧ p.copy.endPos = p.endPos ∧
    p.copy.eqOp p = some true ∧
    p.nextReadoutCicle.readout ≠ [] ∧
    p.nextReadoutCicle.copy.readout = [] := by
  refine ⟨rfl, rfl, ?_, by simp [Package.nextReadoutCicle], rfl⟩
  rw [Package.eqOp]
  rw [if_neg (by simp [Package.copy])]
  rw [if_pos (by simp [Package.copy])]
  simp [Package.copy]

/-! ## Geometry: Pixel, RegionLayout, MultiRegionLayout (Pixel.h, Chip.cc) -/

/-- Two's-complement narrowing of an unsigned value to the signed 16-bit
coordinate type `RawCoordinate` (`int16_t`), as performed whenever a wide
value is assigned to a pixel coordinate. -/
def int16 (n : Nat) : Int :=
  if n % 65536 < 32768 then ((n % 65536 : Nat) : Int) else ((n % 65536 : Nat) : Int) - 65536

/-- Conversion of a (possibly negative) coordinate to `size_t`, as happens
in the mixed `int16_t` / `size_t` arithmetic of the conversion routines. -/
def toSize (i : Int) : Nat := (i % ((2:Int) ^ 64)).toNat

theorem int16_of_lt (n : Nat) (h : n < 32768) : int16 n = (n : Int) := by
  rw [int16, Nat.mod_eq_of_lt (by omega), if_pos (by omega)]

theorem toSize_of_lt (i : Int) (h0 : 0 ≤ i) (h1 : i < 2 ^ 64) : toSize i = i.toNat := by
  rw [toSize, Int.emod_eq_of_lt h0 h1]

/-- A pixel: a (row, column) coordinate pair of type `RawCoordinate`
(signed 16-bit; values are produced through `int16`). -/
structure Pixel where
  row : Int
  column : Int
deriving Repr, DecidableEq

/-- Row-major ordering of pixels (`Position::operator<`). -/
def Pixel.lt (p q : Pixel) : Prop :=
  p.row < q.row ∨ (p.row = q.row ∧ p.column < q.column)

instance (p q : Pixel) : Decidable (p.lt q) :=
  inferInstanceAs (Decidable (p.row < q.row ∨ (p.row = q.row ∧ p.column < q.column)))

/-- `struct RegionLayout`: dimensions of a rectangular tile. -/
structure RegionLayout where
  n_rows : Nat
  n_columns : Nat
deriving Repr, DecidableEq

/-- `RegionLayout::IsPixelInside` (also the complement of what
`CheckPixel` rejects). -/
def RegionLayout.IsPixelInside (l : RegionLayout) (p : Pixel) : Bool :=
  decide (0 ≤ p.row) && decide (p.row < (l.n_rows : Int)) &&
  decide (0 ≤ p.column) && decide (p.column < (l.n_columns : Int))

/-- `RegionLayout::GetNumberOfPixels`. -/
def RegionLayout.GetNumberOfPixels (l : RegionLayout) : Nat := l.n_rows * l.n_columns

/-- `RegionLayout::GetPixelId`: `CheckPixel` (throws on out-of-range,
modelled by `none`), then `row * n_columns + column` in `size_t`. -/
def RegionLayout.GetPixelId (l : RegionLayout) (p : Pixel) : Option Nat :=
  if l.IsPixelInside p then some (p.row.toNat * l.n_columns + p.column.toNat) else none

/-- `RegionLayout::GetPixel`: decompose the id in `size_t` arithmetic,
narrow both coordinates to the 16-bit coordinate type when constructing
the `Pixel`, then `CheckPixel`. -/
def RegionLayout.GetPixel (l : RegionLayout) (id : Nat) : Option Pixel :=
  if l.IsPixelInside ⟨int16 ((id - id % l.n_columns) / l.n_columns), int16 (id % l.n_columns)⟩ then
    some ⟨int16 ((id - id % l.n_columns) / l.n_columns), int16 (id % l.n_columns)⟩
  else none

/-- Counterexample to claim C5 as stated: on a 65536×1 layout the pixel id
32768 lies below `n_rows * n_columns`, but `GetPixel` narrows the decoded
row 32768 to the signed 16-bit value −32768, `CheckPixel` rejects it and
the lookup fails instead of inverting `GetPixelId`. -/
theorem layout_id_bijection_cex :
    32768 < (RegionLayout.mk 65536 1).n_rows * (RegionLayout.mk 65536 1).n_columns ∧
    ((RegionLayout.mk 65536 1).GetPixel 32768).bind
      (RegionLayout.mk 65536 1).GetPixelId ≠ some 32768 := by
  decide

/-- Claim C5 (amended): for every `RegionLayout` and pixel `p` with
`0 ≤ p.row < n_rows`, `0 ≤ p.column < n_columns`,
`GetPixel (GetPixelId p) = p`; and for every id below `n_rows * n_columns`
whose decoded row and column both fit the signed 16-bit coordinate type
(`id / n_columns < 2^15` and `id % n_columns < 2^15`),
`GetPixelId (GetPixel id) = id`. -/
theorem layout_id_bijection (l : RegionLayout) (p : Pixel) (id : Nat)
    (hr : 0 < l.n_rows) (hc : 0 < l.n_columns) :
    (l.IsPixelInside p = true → p.row < 32768 → p.column < 32768 →
      (l.GetPixelId p).bind l.GetPixel = some p) ∧
    (id < l.n_rows * l.n_columns → id / l.n_columns < 32768 → id % l.n_columns < 32768 →
      (l.GetPixel id).bind l.GetPixelId = some id) := by
  constructor
  · intro hin hrow hcol
    rw [RegionLayout.GetPixelId, if_pos hin, Option.some_bind]
    simp only [RegionLayout.IsPixelInside, Bool.and_eq_true, decide_eq_true_eq] at hin
    obtain ⟨⟨⟨h1, h2⟩, h3⟩, h4⟩ := hin
    set r := p.row.toNat with hrn
    set c := p.column.toNat with hcn
    have hrlt : r < 32768 := by omega
    have hclt : c < 32768 := by omega
    have hcc : c < l.n_columns := by omega
    have hmod : (r * l.n_columns + c) % l.n_columns = c := by
      rw [Nat.mul_comm r l.n_columns, Nat.mul_add_mod, Nat.mod_eq_of_lt hcc]
    have hdiv : (r * l.n_columns + c - (r * l.n_columns + c) % l.n_columns) / l.n_columns
        = r := by
      rw [hmod]
      rw [show r * l.n_columns + c - c = r * l.n_columns from by omega]
      exact Nat.mul_div_cancel r hc
    have hrr : (r : Int) = p.row := by rw [hrn]; exact Int.toNat_of_nonneg h1
    have hcc' : (c : Int) = p.column := by rw [hcn]; exact Int.toNat_of_nonneg h3
    rw [RegionLayout.GetPixel, hdiv, hmod, int16_of_lt r hrlt, int16_of_lt c hclt, hrr, hcc']
    rw [if_pos (by
      simp only [RegionLayout.IsPixelInside, Bool.and_eq_true, decide_eq_true_eq]
      exact ⟨⟨⟨h1, h2⟩, h3⟩, h4⟩)]
  · intro hid hdivlt hmodlt
    have hdm := Nat.div_add_mod id l.n_columns
    have hmlt : id % l.n_columns < l.n_columns := Nat.mod_lt _ hc
    have hrowlt : id / l.n_columns < l.n_rows := by
      rw [Nat.div_lt_iff_lt_mul hc]
      exact hid
    have hdiv : (id - id % l.n_columns) / l.n_columns = id / l.n_columns := by
      have h9 : id - id % l.n_columns = l.n_columns * (id / l.n_columns) := by omega
      rw [h9, Nat.mul_div_cancel_left _ hc]
    have hcond : l.IsPixelInside
        ⟨((id / l.n_columns : Nat) : Int), ((id % l.n_columns : Nat) : Int)⟩ = true := by
      simp only [RegionLayout.IsPixelInside, Bool.and_eq_true, decide_eq_true_eq]
      refine ⟨⟨⟨Int.natCast_nonneg _, ?_⟩, Int.natCast_nonneg _⟩, ?_⟩
      · exact_mod_cast hrowlt
      · exact_mod_cast hmlt
    rw [RegionLayout.GetPixel, hdiv, int16_of_lt _ hdivlt, int16_of_lt _ hmodlt, if_pos hcond,
      Option.some_bind, RegionLayout.GetPixelId, if_pos hcond]
    have h10 : ((id / l.n_columns : Nat) : Int).toNat * l.n_columns +
        ((id % l.n_columns : Nat) : Int).toNat = id := by
      rw [Int.toNat_natCast, Int.toNat_natCast, Nat.mul_comm]
      omega
    rw [h10]

/-- Witness for C5 on a 3×5 layout. -/
theorem layout_id_bijection_witness :
    (0 < (RegionLayout.mk 3 5).n_rows) ∧ (0 < (RegionLayout.mk 3 5).n_columns) ∧
    (((RegionLayout.mk 3 5).IsPixelInside ⟨2, 4⟩ = true → (2:Int) < 32768 → (4:Int) < 32768 →
      ((RegionLayout.mk 3 5).GetPixelId ⟨2, 4⟩).bind (RegionLayout.mk 3 5).GetPixel =
        some ⟨2, 4⟩) ∧
    (13 < (RegionLayout.mk 3 5).n_rows * (RegionLayout.mk 3 5).n_columns →
      13 / (RegionLayout.mk 3 5).n_columns < 32768 →
      13 % (RegionLayout.mk 3 5).n_columns < 32768 →
      ((RegionLayout.mk 3 5).GetPixel 13).bind (RegionLayout.mk 3 5).GetPixelId = some 13)) :=
  ⟨by decide, by decide, layout_id_bijection (RegionLayout.mk 3 5) ⟨2, 4⟩ 13 (by decide) (by decide)⟩

/-! ### MultiRegionLayout -/

/-- `std::ceil` of the exact double-precision quotient of two (moderate)
naturals, i.e. ceiling division. -/
def ceilDiv (a b : Nat) : Nat := (a + b - 1) / b

theorem ceilDiv_le_mul (a b : Nat) (hb : 0 < b) : a ≤ ceilDiv a b * b := by
  have h := Nat.lt_div_mul_add hb (a := a + b - 1)
  rw [ceilDiv]
  omega

theorem ceilDiv_pred_lt (a b : Nat) (ha : 0 < a) (hb : 0 < b) :
    (ceilDiv a b - 1) * b < a := by
  have h1 : (a + b - 1) / b * b ≤ a + b - 1 := Nat.div_mul_le_self _ _
  have h2 : (ceilDiv a b - 1) * b = ceilDiv a b * b - b := by
    rw [Nat.sub_mul, Nat.one_mul]
  rw [ceilDiv] at *
  omega

theorem ceilDiv_pos (a b : Nat) (ha : 0 < a) (hb : 0 < b) : 0 < ceilDiv a b := by
  have := ceilDiv_pred_lt a b ha hb
  have := ceilDiv_le_mul a b hb
  by_contra hq
  have hq0 : ceilDiv a b = 0 := by omega
  rw [hq0] at this
  omega

/-- `struct MultiRegionLayout`: an outer tile subdivided into a grid of
region tiles, the last row/column possibly clipped.  The base-class fields
`n_rows`/`n_columns` are the outer dimensions. -/
structure MultiRegionLayout where
  n_rows : Nat
  n_columns : Nat
  region_layout : RegionLayout
  n_region_rows : Nat
  n_region_columns : Nat
  n_last_region_rows : Nat
  n_last_region_columns : Nat
deriving Repr, DecidableEq

/-- The `MultiRegionLayout(n_rows, n_columns, region_layout)` constructor;
`none` models the exceptions thrown for empty dimensions or an empty grid. -/
def MultiRegionLayout.ofRegion (nr nc : Nat) (rl : RegionLayout) : Option MultiRegionLayout :=
  if nr = 0 ∨ nc = 0 then none
  else
    if ceilDiv nr rl.n_rows = 0 ∨ ceilDiv nc rl.n_columns = 0 then none
    else some ⟨nr, nc, rl, ceilDiv nr rl.n_rows, ceilDiv nc rl.n_columns,
      nr - (ceilDiv nr rl.n_rows - 1) * rl.n_rows,
      nc - (ceilDiv nc rl.n_columns - 1) * rl.n_columns⟩

/-- The `MultiRegionLayout(n_rows, n_columns, n_region_rows, n_region_columns)`
constructor: first derive the region tile by ceiling division, then recompute
the grid from the tile. -/
def MultiRegionLayout.ofGrid (nr nc nrr0 nrc0 : Nat) : Option MultiRegionLayout :=
  if nr = 0 ∨ nc = 0 then none
  else
    MultiRegionLayout.ofRegion nr nc ⟨ceilDiv nr nrr0, ceilDiv nc nrc0⟩

/-- `MultiRegionLayout::GetNumberOfRegions`. -/
def MultiRegionLayout.GetNumberOfRegions (l : MultiRegionLayout) : Nat :=
  l.n_region_rows * l.n_region_columns

/-- `MultiRegionLayout::GetRegionId`. -/
def MultiRegionLayout.GetRegionId (l : MultiRegionLayout) (rri rci : Nat) : Nat :=
  rri * l.n_region_columns + rci

/-- `MultiRegionLayout::ConvertToRegionPixel`: the pixel coordinates enter
the `size_t` arithmetic through `toSize`; the region-local coordinates are
narrowed back to the 16-bit coordinate type on assignment. -/
def MultiRegionLayout.ConvertToRegionPixel (l : MultiRegionLayout) (p : Pixel) : Nat × Pixel :=
  ((toSize p.row / l.region_layout.n_rows) * l.n_region_columns +
      toSize p.column / l.region_layout.n_columns,
    ⟨int16 (toSize p.row % l.region_layout.n_rows),
     int16 (toSize p.column % l.region_layout.n_columns)⟩)

/-- `MultiRegionLayout::ConvertFromRegionPixel`: recompose the global
coordinates in `size_t` arithmetic and narrow them to the 16-bit
coordinate type on assignment. -/
def MultiRegionLayout.ConvertFromRegionPixel (l : MultiRegionLayout) (rid : Nat) (rp : Pixel) :
    Pixel :=
  ⟨int16 (((rid - rid % l.n_region_columns) / l.n_region_columns) * l.region_layout.n_rows +
      toSize rp.row),
   int16 ((rid % l.n_region_columns) * l.region_layout.n_columns + toSize rp.column)⟩

/-- `MultiRegionLayout::ActualRegionLayout`: the (possibly clipped)
dimensions of the region with the given id. -/
def MultiRegionLayout.ActualRegionLayout (l : MultiRegionLayout) (rid : Nat) : RegionLayout :=
  ⟨if (rid - rid % l.n_region_columns) / l.n_region_columns + 1 = l.n_region_rows
      then l.n_last_region_rows else l.region_layout.n_rows,
   if rid % l.n_region_columns + 1 = l.n_region_columns
      then l.n_last_region_columns else l.region_layout.n_columns⟩

/-- `MultiRegionLayout::IsRegionComplete`. -/
def MultiRegionLayout.IsRegionComplete (l : MultiRegionLayout) (rid : Nat) : Bool :=
  l.ActualRegionLayout rid == l.region_layout

/-- Counterexample to claim C4 as stated: in the multi-region layout of a
131072×1 chip split into 32768×1 regions, region id 2 is valid and the
region pixel (0,0) is valid for it, but `ConvertFromRegionPixel` computes
the global row 65536, which narrows to 0 in the 16-bit coordinate type, so
`ConvertToRegionPixel` maps the result back to region 0, not region 2. -/
theorem multiregion_bijection_cex :
    ∃ l, MultiRegionLayout.ofRegion 131072 1 ⟨32768, 1⟩ = some l ∧
      2 < l.GetNumberOfRegions ∧
      (l.ActualRegionLayout 2).IsPixelInside ⟨0, 0⟩ = true ∧
      l.ConvertToRegionPixel (l.ConvertFromRegionPixel 2 ⟨0, 0⟩) ≠ (2, ⟨0, 0⟩) := by
  refine ⟨⟨131072, 1, ⟨32768, 1⟩, 4, 1, 32768, 1⟩, by decide, by decide, by decide, by decide⟩

theorem toSize_natCast (n : Nat) (h : n < 2 ^ 64) : toSize (n : Int) = n := by
  rw [toSize, Int.emod_eq_of_lt (Int.natCast_nonneg n) (by exact_mod_cast h)]
  exact Int.toNat_natCast n

/-- Claim C4 (amended): for every pixel inside the outer layout whose
coordinates are 16-bit representable, `ConvertFrom ∘ ConvertTo` is the
identity; and for chips with outer dimensions at most `2^15` (so that
global coordinates always fit the signed 16-bit coordinate type), for
every valid region id and region pixel valid for that region,
`ConvertTo ∘ ConvertFrom` returns the same pair. -/
theorem multiregion_bijection (nr nc : Nat) (rl : RegionLayout) (l : MultiRegionLayout)
    (hl : MultiRegionLayout.ofRegion nr nc rl = some l)
    (hrlr : 0 < rl.n_rows) (hrlc : 0 < rl.n_columns)
    (hnr : nr ≤ 32768) (hnc : nc ≤ 32768) :
    (∀ p : Pixel, (RegionLayout.mk nr nc).IsPixelInside p = true →
      l.ConvertFromRegionPixel (l.ConvertToRegionPixel p).1 (l.ConvertToRegionPixel p).2
        = p) ∧
    (∀ rid : Nat, ∀ rp : Pixel, rid < l.GetNumberOfRegions →
      (l.ActualRegionLayout rid).IsPixelInside rp = true →
      l.ConvertToRegionPixel (l.ConvertFromRegionPixel rid rp) = (rid, rp)) := by
  rw [MultiRegionLayout.ofRegion] at hl
  by_cases h0 : nr = 0 ∨ nc = 0
  · rw [if_pos h0] at hl
    exact absurd hl (by simp)
  rw [if_neg h0] at hl
  by_cases h1 : ceilDiv nr rl.n_rows = 0 ∨ ceilDiv nc rl.n_columns = 0
  · rw [if_pos h1] at hl
    exact absurd hl (by simp)
  rw [if_neg h1] at hl
  have hfld := Option.some_inj.mp hl
  have e1 : l.n_rows = nr := by rw [← hfld]
  have e2 : l.n_columns = nc := by rw [← hfld]
  have e3 : l.region_layout = rl := by rw [← hfld]
  have e4 : l.n_region_rows = ceilDiv nr rl.n_rows := by rw [← hfld]
  have e5 : l.n_region_columns = ceilDiv nc rl.n_columns := by rw [← hfld]
  have e6 : l.n_last_region_rows = nr - (ceilDiv nr rl.n_rows - 1) * rl.n_rows := by
    rw [← hfld]
  have e7 : l.n_last_region_columns = nc - (ceilDiv nc rl.n_columns - 1) * rl.n_columns := by
    rw [← hfld]
  have hNRR0 : 0 < l.n_region_rows := by rw [e4]; omega
  have hNRC0 : 0 < l.n_region_columns := by rw [e5]; omega
  have hrow_le : nr ≤ l.n_region_rows * rl.n_rows := by
    rw [e4]; exact ceilDiv_le_mul nr rl.n_rows hrlr
  have hcol_le : nc ≤ l.n_region_columns * rl.n_columns := by
    rw [e5]; exact ceilDiv_le_mul nc rl.n_columns hrlc
  have hrow_lt : (l.n_region_rows - 1) * rl.n_rows < nr := by
    rw [e4]; exact ceilDiv_pred_lt nr rl.n_rows (by omega) hrlr
  have hcol_lt : (l.n_region_columns - 1) * rl.n_columns < nc := by
    rw [e5]; exact ceilDiv_pred_lt nc rl.n_columns (by omega) hrlc
  have hlastR : l.n_last_region_rows = nr - (l.n_region_rows - 1) * rl.n_rows := by
    rw [e6, e4]
  have hlastC : l.n_last_region_columns = nc - (l.n_region_columns - 1) * rl.n_columns := by
    rw [e7, e5]
  constructor
  · intro p hin
    obtain ⟨prow, pcol⟩ := p
    simp only [RegionLayout.IsPixelInside, Bool.and_eq_true, decide_eq_true_eq] at hin
    obtain ⟨⟨⟨hp1, hp2⟩, hp3⟩, hp4⟩ := hin
    have ha : prow = ((prow.toNat : Nat) : Int) := (Int.toNat_of_nonneg hp1).symm
    have hb : pcol = ((pcol.toNat : Nat) : Int) := (Int.toNat_of_nonneg hp3).symm
    set a := prow.toNat with hadef
    set b := pcol.toNat with hbdef
    have hana : a < nr := by omega
    have hbnb : b < nc := by omega
    have htsr : toSize prow = a := by
      rw [ha, toSize_natCast a (by omega)]
    have htsc : toSize pcol = b := by
      rw [hb, toSize_natCast b (by omega)]
    rw [MultiRegionLayout.ConvertToRegionPixel]
    dsimp only
    rw [htsr, htsc, e3]
    set u := a / rl.n_rows with hudef
    set v := b / rl.n_columns with hvdef
    set x := a % rl.n_rows with hxdef
    set y := b % rl.n_columns with hydef
    have hxa : rl.n_rows * u + x = a := Nat.div_add_mod a rl.n_rows
    have hyb : rl.n_columns * v + y = b := Nat.div_add_mod b rl.n_columns
    have hv : v < l.n_region_columns := by
      rw [hvdef, Nat.div_lt_iff_lt_mul hrlc]
      omega
    rw [MultiRegionLayout.ConvertFromRegionPixel]
    dsimp only
    have hmod : (u * l.n_region_columns + v) % l.n_region_columns = v := by
      rw [Nat.mul_comm, Nat.mul_add_mod, Nat.mod_eq_of_lt hv]
    have hdiv2 : (u * l.n_region_columns + v - v) / l.n_region_columns = u := by
      rw [show u * l.n_region_columns + v - v = u * l.n_region_columns from by omega,
        Nat.mul_div_cancel u hNRC0]
    rw [hmod, hdiv2, e3]
    rw [int16_of_lt x (by omega), int16_of_lt y (by omega),
      toSize_natCast x (by omega), toSize_natCast y (by omega)]
    have hroweq : u * rl.n_rows + x = a := by rw [Nat.mul_comm]; omega
    have hcoleq : v * rl.n_columns + y = b := by rw [Nat.mul_comm]; omega
    rw [hroweq, hcoleq, int16_of_lt a (by omega), int16_of_lt b (by omega)]
    rw [Pixel.mk.injEq]
    exact ⟨ha.symm, hb.symm⟩
  · intro rid rp hrid hin
    obtain ⟨rprow, rpcol⟩ := rp
    rw [MultiRegionLayout.GetNumberOfRegions] at hrid
    have hdm := Nat.div_add_mod rid l.n_region_columns
    have hdiv : (rid - rid % l.n_region_columns) / l.n_region_columns
        = rid / l.n_region_columns := by
      have h9 : rid - rid % l.n_region_columns
          = l.n_region_columns * (rid / l.n_region_columns) := by omega
      rw [h9, Nat.mul_div_cancel_left _ hNRC0]
    rw [MultiRegionLayout.ActualRegionLayout, hdiv, e3] at hin
    set v := rid % l.n_region_columns with hvdef
    set u := rid / l.n_region_columns with hudef
    have hv : v < l.n_region_columns := by rw [hvdef]; exact Nat.mod_lt _ hNRC0
    have hu : u < l.n_region_rows := by
      rw [hudef, Nat.div_lt_iff_lt_mul hNRC0]
      omega
    simp only [RegionLayout.IsPixelInside, Bool.and_eq_true, decide_eq_true_eq] at hin
    obtain ⟨⟨⟨hp1, hp2⟩, hp3⟩, hp4⟩ := hin
    have haR : (if u + 1 = l.n_region_rows then l.n_last_region_rows else rl.n_rows)
        ≤ rl.n_rows := by
      by_cases hc : u + 1 = l.n_region_rows
      · rw [if_pos hc, hlastR]
        have hs : (l.n_region_rows - 1) * rl.n_rows
            = l.n_region_rows * rl.n_rows - rl.n_rows := by
          rw [Nat.sub_mul, Nat.one_mul]
        omega
      · rw [if_neg hc]
    have haC : (if v + 1 = l.n_region_columns then l.n_last_region_columns else rl.n_columns)
        ≤ rl.n_columns := by
      by_cases hc : v + 1 = l.n_region_columns
      · rw [if_pos hc, hlastC]
        have hs : (l.n_region_columns - 1) * rl.n_columns
            = l.n_region_columns * rl.n_columns - rl.n_columns := by
          rw [Nat.sub_mul, Nat.one_mul]
        omega
      · rw [if_neg hc]
    have ha : rprow = ((rprow.toNat : Nat) : Int) := (Int.toNat_of_nonneg hp1).symm
    have hb : rpcol = ((rpcol.toNat : Nat) : Int) := (Int.toNat_of_nonneg hp3).symm
    set x := rprow.toNat with hxdef
    set y := rpcol.toNat with hydef
    have hxa2 : x < (if u + 1 = l.n_region_rows then l.n_last_region_rows else rl.n_rows) := by
      have hcast : (x : Int) <
          ((if u + 1 = l.n_region_rows then l.n_last_region_rows else rl.n_rows : Nat) : Int) := by
        rw [← ha]
        exact_mod_cast hp2
      exact_mod_cast hcast
    have hya2 : y <
        (if v + 1 = l.n_region_columns then l.n_last_region_columns else rl.n_columns) := by
      have hcast : (y : Int) <
          ((if v + 1 = l.n_region_columns then l.n_last_region_columns
            else rl.n_columns : Nat) : Int) := by
        rw [← hb]
        exact_mod_cast hp4
      exact_mod_cast hcast
    have hxR : x < rl.n_rows := lt_of_lt_of_le hxa2 haR
    have hyC : y < rl.n_columns := lt_of_lt_of_le hya2 haC
    have hgrow : u * rl.n_rows + x < nr := by
      by_cases hc : u + 1 = l.n_region_rows
      · rw [if_pos hc, hlastR] at hxa2
        have he : u * rl.n_rows = (l.n_region_rows - 1) * rl.n_rows := by
          rw [show u = l.n_region_rows - 1 from by omega]
        omega
      · rw [if_neg hc] at hxa2
        have hu1 : u + 1 ≤ l.n_region_rows - 1 := by omega
        have hm : (u + 1) * rl.n_rows ≤ (l.n_region_rows - 1) * rl.n_rows :=
          Nat.mul_le_mul_right _ hu1
        have hsucc : (u + 1) * rl.n_rows = u * rl.n_rows + rl.n_rows := Nat.succ_mul _ _
        omega
    have hgcol : v * rl.n_columns + y < nc := by
      by_cases hc : v + 1 = l.n_region_columns
      · rw [if_pos hc, hlastC] at hya2
        have he : v * rl.n_columns = (l.n_region_columns - 1) * rl.n_columns := by
          rw [show v = l.n_region_columns - 1 from by omega]
        omega
      · rw [if_neg hc] at hya2
        have hv1 : v + 1 ≤ l.n_region_columns - 1 := by omega
        have hm : (v + 1) * rl.n_columns ≤ (l.n_region_columns - 1) * rl.n_columns :=
          Nat.mul_le_mul_right _ hv1
        have hsucc : (v + 1) * rl.n_columns = v * rl.n_columns + rl.n_columns := Nat.succ_mul _ _
        omega
    rw [MultiRegionLayout.ConvertFromRegionPixel]
    dsimp only
    rw [← hvdef, hdiv, e3]
    rw [ha, hb, toSize_natCast x (by omega), toSize_natCast y (by omega)]
    rw [int16_of_lt (u * rl.n_rows + x) (by omega), int16_of_lt (v * rl.n_columns + y) (by omega)]
    rw [MultiRegionLayout.ConvertToRegionPixel]
    dsimp only
    rw [toSize_natCast (u * rl.n_rows + x) (by omega),
      toSize_natCast (v * rl.n_columns + y) (by omega), e3]
    have hdr : (u * rl.n_rows + x) / rl.n_rows = u := by
      rw [Nat.mul_comm u rl.n_rows, Nat.mul_add_div hrlr, Nat.div_eq_of_lt hxR, Nat.add_zero]
    have hmr : (u * rl.n_rows + x) % rl.n_rows = x := by
      rw [Nat.mul_comm u rl.n_rows, Nat.mul_add_mod, Nat.mod_eq_of_lt hxR]
    have hdc : (v * rl.n_columns + y) / rl.n_columns = v := by
      rw [Nat.mul_comm v rl.n_columns, Nat.mul_add_div hrlc, Nat.div_eq_of_lt hyC, Nat.add_zero]
    have hmc : (v * rl.n_columns + y) % rl.n_columns = y := by
      rw [Nat.mul_comm v rl.n_columns, Nat.mul_add_mod, Nat.mod_eq_of_lt hyC]
    rw [hdr, hmr, hdc, hmc, int16_of_lt x (by omega), int16_of_lt y (by omega)]
    rw [Prod.mk.injEq, Pixel.mk.injEq]
    refine ⟨?_, rfl, rfl⟩
    rw [Nat.mul_comm]
    omega

/-- Witness for C4 on a 4×4 chip split into 2×2 regions. -/
theorem multiregion_bijection_witness :
    (∀ p : Pixel, (RegionLayout.mk 4 4).IsPixelInside p = true →
      (MultiRegionLayout.mk 4 4 ⟨2, 2⟩ 2 2 2 2).ConvertFromRegionPixel
        ((MultiRegionLayout.mk 4 4 ⟨2, 2⟩ 2 2 2 2).ConvertToRegionPixel p).1
        ((MultiRegionLayout.mk 4 4 ⟨2, 2⟩ 2 2 2 2).ConvertToRegionPixel p).2 = p) ∧
    (∀ rid : Nat, ∀ rp : Pixel,
      rid < (MultiRegionLayout.mk 4 4 ⟨2, 2⟩ 2 2 2 2).GetNumberOfRegions →
      ((MultiRegionLayout.mk 4 4 ⟨2, 2⟩ 2 2 2 2).ActualRegionLayout rid).IsPixelInside rp
        = true →
      (MultiRegionLayout.mk 4 4 ⟨2, 2⟩ 2 2 2 2).ConvertToRegionPixel
        ((MultiRegionLayout.mk 4 4 ⟨2, 2⟩ 2 2 2 2).ConvertFromRegionPixel rid rp)
        = (rid, rp)) :=
  multiregion_bijection 4 4 ⟨2, 2⟩ (MultiRegionLayout.mk 4 4 ⟨2, 2⟩ 2 2 2 2)
    (by decide) (by decide) (by decide) (by decide) (by decide)

/-! ## AlphabetStatisticsCollection lookups (AlphabetStatisticsCollection.h) -/

/-- The symbolic alphabet types of the collection interface. -/
inductive AlphabetType
  | Adc | ActiveAdc | DeltaRow | DeltaColumn | DeltaRowColumn
deriving Repr, DecidableEq

/-- How a failed collection lookup surfaces: a name missing from the
collection raises the collection's fatal `Alphabet statistics not found`
error; a type missing from the static `alphabetTypeNames` map raises
`std::out_of_range` from `std::map::at` instead. -/
inductive CollectionError
  | notFound | typeNameMissing
deriving Repr, DecidableEq

/-- The static `alphabetTypeNames` map used by `at(AlphabetType)`: it holds
entries for `Adc`, `ActiveAdc` and `DeltaRowColumn` only. -/
def alphabetTypeNames : AlphabetType → Option String
  | .Adc => some "all_adc"
  | .ActiveAdc => some "active_adc"
  | .DeltaRowColumn => some "delta_row_column"
  | _ => none

/-- Name lookup in an ordered map modelled as an association list with
distinct keys (used both for the collection's `statistics` map and for the
producers' letter-frequency maps). -/
def findStat {κ α : Type} [DecidableEq κ] (stats : List (κ × α)) (name : κ) : Option α :=
  (stats.find? (fun e => e.1 = name)).map Prod.snd

/-- `AlphabetStatisticsCollection::at(const std::string&)`. -/
def collectionAtName {α : Type} (stats : List (String × α)) (name : String) :
    Except CollectionError α :=
  match findStat stats name with
  | some s => .ok s
  | none => .error .notFound

/-- `AlphabetStatisticsCollection::at(AlphabetType)`:
`alphabetTypeNames.at(alphabet_type)` followed by the name lookup. -/
def collectionAtType {α : Type} (stats : List (String × α)) (t : AlphabetType) :
    Except CollectionError α :=
  match alphabetTypeNames t with
  | some nm => collectionAtName stats nm
  | none => .error .typeNameMissing

/-- Counterexample to claim C3 as stated: even in a collection that holds
statistics under all five canonical names, `at(DeltaRow)` does not return
the statistics stored under `delta_row` — the static type-to-name map has
no entry for `DeltaRow`, so `std::map::at` fails. -/
theorem alphabet_type_map_cex :
    collectionAtType
        [("all_adc", 0), ("active_adc", 1), ("delta_row", 2),
         ("delta_column", 3), ("delta_row_column", 4)] AlphabetType.DeltaRow =
      Except.error CollectionError.typeNameMissing ∧
    collectionAtName
        [("all_adc", 0), ("active_adc", 1), ("delta_row", 2),
         ("delta_column", 3), ("delta_row_column", 4)] "delta_row" =
      Except.ok 2 :=
  ⟨rfl, rfl⟩

/-- Claim C3 (amended): `at(alphabet_type)` maps only the three types
`Adc`, `ActiveAdc`, `DeltaRowColumn` to the names `all_adc`, `active_adc`,
`delta_row_column` and returns the statistics stored under that name;
`DeltaRow` and `DeltaColumn` are absent from the static map and always
fail with `std::map::at`'s out-of-range error; a name not present in the
collection fails with the collection's fatal `not found` error. -/
theorem alphabet_type_map (stats : List (String × Nat)) :
    collectionAtType stats AlphabetType.Adc = collectionAtName stats "all_adc" ∧
    collectionAtType stats AlphabetType.ActiveAdc = collectionAtName stats "active_adc" ∧
    collectionAtType stats AlphabetType.DeltaRowColumn
      = collectionAtName stats "delta_row_column" ∧
    collectionAtType stats AlphabetType.DeltaRow
      = Except.error CollectionError.typeNameMissing ∧
    collectionAtType stats AlphabetType.DeltaColumn
      = Except.error CollectionError.typeNameMissing ∧
    (∀ nm, findStat stats nm = none →
      collectionAtName stats nm = Except.error CollectionError.notFound) := by
  refine ⟨rfl, rfl, rfl, rfl, rfl, ?_⟩
  intro nm h
  rw [collectionAtName, h]

/-- Witness for C3 on a one-entry collection. -/
theorem alphabet_type_map_witness :
    collectionAtType [("all_adc", 7)] AlphabetType.Adc
      = collectionAtName [("all_adc", 7)] "all_adc" ∧
    collectionAtType [("all_adc", 7)] AlphabetType.ActiveAdc
      = collectionAtName [("all_adc", 7)] "active_adc" ∧
    collectionAtType [("all_adc", 7)] AlphabetType.DeltaRowColumn
      = collectionAtName [("all_adc", 7)] "delta_row_column" ∧
    collectionAtType [("all_adc", 7)] AlphabetType.DeltaRow
      = Except.error CollectionError.typeNameMissing ∧
    collectionAtType [("all_adc", 7)] AlphabetType.DeltaColumn
      = Except.error CollectionError.typeNameMissing ∧
    (∀ nm, findStat [("all_adc", 7)] nm = none →
      collectionAtName [("all_adc", 7)] nm = Except.error CollectionError.notFound) :=
  alphabet_type_map [("all_adc", 7)]

/-! ## AlphabetStatisticsProducer (AlphabetStatisticsProducer.h) -/

/-- A letter-statistics producer: its name, the number of recorded counts
(a `uint64_t`), and the letter-to-frequency map (modelled as an
association list with distinct keys; `Letter` is `int` as instantiated by
`DictionaryBuilder`). -/
structure AlphabetStatisticsProducer where
  name : String
  n_counts : Nat
  letter_frequencies : List (Int × Nat)
deriving Repr, DecidableEq

/-- Sum of the stored frequencies. -/
def sumFreqs (l : List (Int × Nat)) : Nat := (l.map Prod.snd).sum

/-- The comparator of `GetFrequenceyOrderedLetters` as a total preorder:
ascending frequency, ties broken by descending letter.  On entries with
distinct letters it induces the same strict order as the source comparator,
so the sorted output is unique and algorithm-independent. -/
def freqLE (a b : Int × Nat) : Bool :=
  decide (a.2 < b.2) || (decide (a.2 = b.2) && decide (b.1 ≤ a.1))

/-- `AlphabetStatisticsProducer::IntegerLimitIsReached`. -/
def AlphabetStatisticsProducer.IntegerLimitIsReached (p : AlphabetStatisticsProducer) : Bool :=
  p.n_counts = 2 ^ 64 - 1

/-- Increment a letter's frequency in the ordered map
(`++letter_frequencies[letter]`: missing letters are value-initialised
to 0 first). -/
def bumpFreq : List (Int × Nat) → Int → List (Int × Nat)
  | [], letter => [(letter, 1)]
  | (l, f) :: rest, letter =>
    if letter < l then (letter, 1) :: (l, f) :: rest
    else if letter = l then (l, f + 1) :: rest
    else (l, f) :: bumpFreq rest letter

/-- `AlphabetStatisticsProducer::AddCount`. -/
def AlphabetStatisticsProducer.AddCount (p : AlphabetStatisticsProducer) (letter : Int) :
    AlphabetStatisticsProducer :=
  if p.IntegerLimitIsReached then p
  else ⟨p.name, p.n_counts + 1, bumpFreq p.letter_frequencies letter⟩

/-- The seeding constructor `AlphabetStatisticsProducer(name, alphabet)`:
every letter of the alphabet starts with frequency 0. -/
def AlphabetStatisticsProducer.seeded (name : String) (alphabet : List Int) :
    AlphabetStatisticsProducer :=
  ⟨name, 0, alphabet.map (fun l => (l, 0))⟩

/-- `AlphabetStatisticsProducer::GetFrequenceyOrderedLetters`: fails when no
counts were recorded, otherwise sorts the letter-frequency pairs by the
comparator. -/
def AlphabetStatisticsProducer.GetFrequenceyOrderedLetters (p : AlphabetStatisticsProducer) :
    Option (List (Int × Nat)) :=
  if p.n_counts = 0 then none
  else some (p.letter_frequencies.mergeSort freqLE)

/-- `AlphabetStatisticsProducer::Reduce`.  Failure (`none`) models the
exceptions for a too-small target size, a special letter already present,
and statistics without counts.  When the alphabet is small enough a copy
of the producer is returned; otherwise the top `new_size - 1` letters of
the frequency ordering are kept and the special letter receives
`n_counts - (kept count)`. -/
def AlphabetStatisticsProducer.Reduce (p : AlphabetStatisticsProducer) (new_alphabet_size : Nat)
    (new_name : String) (special_letter : Int) : Option AlphabetStatisticsProducer :=
  if new_alphabet_size ≤ 1 then none
  else if (p.letter_frequencies.find? (fun e => e.1 = special_letter)).isSome then none
  else
    match p.GetFrequenceyOrderedLetters with
    | none => none
    | some ordered =>
      if ordered.length ≤ new_alphabet_size then some p
      else some ⟨new_name, p.n_counts,
        ordered.drop (ordered.length - (new_alphabet_size - 1)) ++
          [(special_letter, p.n_counts -
            sumFreqs (ordered.drop (ordered.length - (new_alphabet_size - 1))))]⟩

/-- `AddCount` preserves the reachable-state invariant that the stored
frequencies sum to `n_counts` (both are incremented together, or the count
is dropped entirely at the integer limit). -/
theorem sumFreqs_bumpFreq (l : List (Int × Nat)) (letter : Int) :
    sumFreqs (bumpFreq l letter) = sumFreqs l + 1 := by
  induction l with
  | nil => rfl
  | cons e rest ih =>
    obtain ⟨k, f⟩ := e
    rw [bumpFreq]
    by_cases h1 : letter < k
    · rw [if_pos h1]
      simp [sumFreqs]
      omega
    · rw [if_neg h1]
      by_cases h2 : letter = k
      · rw [if_pos h2]
        simp [sumFreqs]
        omega
      · rw [if_neg h2]
        simp only [sumFreqs, List.map_cons, List.sum_cons] at ih ⊢
        omega

theorem addCount_inv (p : AlphabetStatisticsProducer) (letter : Int)
    (h : sumFreqs p.letter_frequencies = p.n_counts) :
    sumFreqs (p.AddCount letter).letter_frequencies = (p.AddCount letter).n_counts := by
  rw [AlphabetStatisticsProducer.AddCount]
  by_cases hl : p.IntegerLimitIsReached
  · rw [if_pos hl]
    exact h
  · rw [if_neg hl]
    rw [sumFreqs_bumpFreq]
    simpa using h

theorem seeded_inv (name : String) (alphabet : List Int) :
    sumFreqs (AlphabetStatisticsProducer.seeded name alphabet).letter_frequencies
      = (AlphabetStatisticsProducer.seeded name alphabet).n_counts := by
  rw [AlphabetStatisticsProducer.seeded]
  induction alphabet with
  | nil => rfl
  | cons a rest ih =>
    simp only [sumFreqs, List.map_cons, List.map_map, List.sum_cons] at ih ⊢
    simpa using ih

/-- In an association list with distinct keys, `find?` on a member's key
returns that member. -/
theorem find_assoc_of_mem {β : Type} (l : List (Int × β))
    (hnd : (l.map Prod.fst).Nodup) (e : Int × β) (he : e ∈ l) :
    l.find? (fun x => x.1 = e.1) = some e := by
  induction l with
  | nil => exact absurd he (by simp)
  | cons a rest ih =>
    rw [List.map_cons, List.nodup_cons] at hnd
    rcases List.mem_cons.mp he with he1 | he2
    · subst he1
      rw [List.find?_cons_of_pos _ (by simp)]
    · have hne : a.1 ≠ e.1 := by
        intro hc
        exact hnd.1 (hc ▸ (List.mem_map.mpr ⟨e, he2, rfl⟩))
      rw [List.find?_cons_of_neg _ (by simpa using hne)]
      exact ih hnd.2 he2

/-- Claim C6: for every producer with at least one recorded count (whose
frequencies, by the producer invariant, sum to `n_counts`), every
`new_size > 1` and special letter not already present, `Reduce` returns a
producer whose frequencies sum to the same total, whose alphabet has size
`min new_size |old|`, whose `n_counts` is unchanged; and when the old
alphabet is larger than `new_size`, the top `new_size - 1` most frequent
letters keep their frequencies verbatim while the special letter carries
the summed frequency of all dropped letters. -/
theorem producer_reduce (p : AlphabetStatisticsProducer) (new_size : Nat) (new_name : String)
    (special : Int)
    (hnodup : (p.letter_frequencies.map Prod.fst).Nodup)
    (hinv : sumFreqs p.letter_frequencies = p.n_counts)
    (hcounts : 0 < p.n_counts)
    (hsize : 1 < new_size)
    (hspec : ∀ e ∈ p.letter_frequencies, e.1 ≠ special) :
    ∃ q, p.Reduce new_size new_name special = some q ∧
      sumFreqs q.letter_frequencies = sumFreqs p.letter_frequencies ∧
      q.letter_frequencies.length = min new_size p.letter_frequencies.length ∧
      q.n_counts = p.n_counts ∧
      (new_size < p.letter_frequencies.length →
        (∀ e ∈ (p.letter_frequencies.mergeSort freqLE).drop
            (p.letter_frequencies.length - (new_size - 1)),
          findStat q.letter_frequencies e.1 = some e.2) ∧
        findStat q.letter_frequencies special =
          some (sumFreqs ((p.letter_frequencies.mergeSort freqLE).take
            (p.letter_frequencies.length - (new_size - 1))))) := by
  have hperm : List.Perm (p.letter_frequencies.mergeSort freqLE) p.letter_frequencies :=
    List.mergeSort_perm p.letter_frequencies freqLE
  have hlen_ms : (p.letter_frequencies.mergeSort freqLE).length
      = p.letter_frequencies.length := hperm.length_eq
  have hfind : p.letter_frequencies.find? (fun e => e.1 = special) = none := by
    rw [List.find?_eq_none]
    intro e he
    simpa using hspec e he
  rw [AlphabetStatisticsProducer.Reduce, if_neg (by omega), hfind]
  rw [show (none : Option (Int × Nat)).isSome = false from rfl, if_neg (by simp)]
  rw [AlphabetStatisticsProducer.GetFrequenceyOrderedLetters, if_neg (by omega)]
  set ordered := p.letter_frequencies.mergeSort freqLE with hord
  show (∃ q, (if ordered.length ≤ new_size then some p
      else some ⟨new_name, p.n_counts,
        ordered.drop (ordered.length - (new_size - 1)) ++
          [(special, p.n_counts -
            sumFreqs (ordered.drop (ordered.length - (new_size - 1))))]⟩) = some q ∧ _)
  by_cases hsmall : ordered.length ≤ new_size
  · rw [if_pos hsmall]
    refine ⟨p, rfl, rfl, ?_, rfl, ?_⟩
    · rw [Nat.min_eq_right (by omega)]
    · intro hbig
      omega
  · rw [if_neg hsmall]
    set k := new_size - 1 with hk
    set kept := ordered.drop (ordered.length - k) with hkept
    set dropped := ordered.take (ordered.length - k) with hdropped
    set s := p.n_counts - sumFreqs kept with hs
    have hsum_ord : sumFreqs ordered = p.n_counts := by
      rw [sumFreqs, (hperm.map Prod.snd).sum_eq]
      exact hinv
    have hsplit : ordered = dropped ++ kept := (List.take_append_drop _ _).symm
    have hsum_split : sumFreqs dropped + sumFreqs kept = p.n_counts := by
      have h1 : sumFreqs (dropped ++ kept) = sumFreqs dropped + sumFreqs kept := by
        rw [sumFreqs, List.map_append, List.sum_append]
        rfl
      rw [← h1, ← hsplit, hsum_ord]
    have hkeptlen : kept.length = k := by
      rw [hkept, List.length_drop]
      omega
    have hnodup_ord : (ordered.map Prod.fst).Nodup :=
      ((hperm.map Prod.fst).nodup_iff).mpr hnodup
    have hkept_sub : ∀ e ∈ kept, e ∈ p.letter_frequencies := by
      intro e he
      exact hperm.mem_iff.mp (by rw [hsplit]; exact List.mem_append_right _ he)
    have hkept_nospec : ∀ e ∈ kept, e.1 ≠ special := fun e he => hspec e (hkept_sub e he)
    have hnodup_kept : (kept.map Prod.fst).Nodup := by
      have : ((dropped ++ kept).map Prod.fst).Nodup := by rw [← hsplit]; exact hnodup_ord
      rw [List.map_append] at this
      exact (List.Nodup.of_append_right this)
    have hnodup_q : ((kept ++ [(special, s)]).map Prod.fst).Nodup := by
      rw [List.map_append]
      refine List.Nodup.append hnodup_kept (by simp) ?_
      intro a ha hb
      rcases List.mem_map.mp ha with ⟨e, he, rfl⟩
      have hne := hkept_nospec e he
      simp only [List.map_cons, List.map_nil, List.mem_singleton] at hb
      exact hne hb
    refine ⟨⟨new_name, p.n_counts, kept ++ [(special, s)]⟩, rfl, ?_, ?_, rfl, ?_⟩
    · rw [hinv]
      show sumFreqs (kept ++ [(special, s)]) = p.n_counts
      rw [sumFreqs, List.map_append, List.sum_append]
      simp only [List.map_cons, List.map_nil, List.sum_cons, List.sum_nil]
      have hks : (kept.map Prod.snd).sum = sumFreqs kept := rfl
      rw [hks]
      omega
    · show (kept ++ [(special, s)]).length = min new_size p.letter_frequencies.length
      rw [List.length_append, hkeptlen]
      rw [Nat.min_eq_left (by omega)]
      simp only [List.length_cons, List.length_nil]
      omega
    · intro hbig
      constructor
      · intro e he
        rw [← hlen_ms] at he
        show findStat (kept ++ [(special, s)]) e.1 = some e.2
        rw [findStat, find_assoc_of_mem _ hnodup_q e (List.mem_append_left _ he)]
        rfl
      · show findStat (kept ++ [(special, s)]) special
          = some (sumFreqs (ordered.take (p.letter_frequencies.length - k)))
        have hdropeq : ordered.take (p.letter_frequencies.length - k) = dropped := by
          rw [hdropped, hlen_ms]
        rw [hdropeq]
        have hkept_none : kept.find? (fun x => x.1 = special) = none := by
          rw [List.find?_eq_none]
          intro e he
          simpa using hkept_nospec e he
        rw [findStat, List.find?_append, hkept_none, Option.none_or]
        rw [List.find?_cons_of_pos _ (by simp)]
        have hsval : s = sumFreqs dropped := by omega
        show some s = some (sumFreqs dropped)
        rw [hsval]

/-- Witness for C6: reducing the 4-letter producer
`⟨"d", 10, [(0,1),(1,2),(2,3),(3,4)]⟩` to 3 letters succeeds, preserves the
total frequency 10, and the special letter `-1` absorbs the dropped
low-frequency letters `0` and `1` (sum 3) while `2` and `3` keep theirs. -/
theorem producer_reduce_witness :
    ∃ q, (AlphabetStatisticsProducer.mk "d" 10
        [(0,1),(1,2),(2,3),(3,4)]).Reduce 3 "r" (-1) = some q ∧
      sumFreqs q.letter_frequencies = 10 ∧
      q.letter_frequencies.length = 3 ∧
      findStat q.letter_frequencies 3 = some 4 ∧
      findStat q.letter_frequencies (-1) = some 3 := by
  obtain ⟨q, h1, h2, h3, _, h5⟩ :=
    producer_reduce ⟨"d", 10, [(0,1),(1,2),(2,3),(3,4)]⟩ 3 "r" (-1)
      (by decide) (by rfl) (by decide) (by decide) (by decide)
  obtain ⟨hkeep, hspec⟩ := h5 (by decide)
  have hms : (([(0,1),(1,2),(2,3),(3,4)] : List (Int × Nat)).mergeSort freqLE)
      = [(0,1),(1,2),(2,3),(3,4)] :=
    List.mergeSort_of_sorted (by decide)
  rw [show (AlphabetStatisticsProducer.mk "d" 10
      [(0,1),(1,2),(2,3),(3,4)]).letter_frequencies
      = [(0,1),(1,2),(2,3),(3,4)] from rfl, hms] at hkeep hspec
  refine ⟨q, h1, by rw [h2]; rfl, by rw [h3]; rfl, ?_, ?_⟩
  · have := hkeep (3, 4) (by decide)
    exact this
  · rw [hspec]
    rfl

/-! ## Huffman coding (`PackageMaker.h`: `HuffmanCode`, `HuffmanTree`)

`HuffmanCode` holds a `uint64_t` code and a bit count; `Append` places the
new bit at position `n_bits` (so the code reads least-significant bit
first) and throws once 64 bits are exceeded, modelled as `Option`.
`HuffmanTree`'s constructor builds the tree with a min-priority queue on
frequencies (leaf weight `max(1, f)`), modelled by `popMin` extracting the
first tree of minimal frequency, and `BuildTable` walks the tree,
appending `false` towards the first daughter and `true` towards the
second. -/

/-- `HuffmanCode`: `code` is the `uint64_t` container, `n_bits` the length. -/
structure HuffmanCode where
  code : Nat
  n_bits : Nat
deriving DecidableEq

/-- `HuffmanCode::Append`: throws when `n_bits + 1 > 64`, else ors
`CodeContainer(bit) << n_bits` into the code. -/
def HuffmanCode.Append (c : HuffmanCode) (b : Bool) : Option HuffmanCode :=
  if c.n_bits + 1 > 64 then none
  else some ⟨(cond b 1 0) <<< c.n_bits ||| c.code, c.n_bits + 1⟩

/-- `a` is a proper prefix of `b` in append order (least-significant bit
first): `a` is strictly shorter and `b`'s first `a.n_bits` bits are `a`. -/
def HuffmanCode.ProperPref (a b : HuffmanCode) : Prop :=
  a.n_bits < b.n_bits ∧ b.code % 2 ^ a.n_bits = a.code

instance (a b : HuffmanCode) : Decidable (a.ProperPref b) :=
  inferInstanceAs (Decidable (_ ∧ _))

/-- `HuffmanTree::Node`: a leaf carries the letter (and its weight), an
inner node its two daughters; `letter_nodes` holds exactly the leaves. -/
inductive HuffmanNode (L : Type) where
  | leaf (letter : L) (freq : Nat)
  | node (first second : HuffmanNode L)

/-- `Node::frequency`: a leaf's weight, or the daughters' sum. -/
def HuffmanNode.frequency {L : Type} : HuffmanNode L → Nat
  | .leaf _ f => f
  | .node a b => a.frequency + b.frequency

/-- The letters at the leaves, left to right. -/
def HuffmanNode.letters {L : Type} : HuffmanNode L → List L
  | .leaf a _ => [a]
  | .node a b => a.letters ++ b.letters

/-- Pop a tree of minimal `frequency` (the first such) from the queue, as
`priority_queue::top/pop` with the comparator on `frequency`. -/
def popMin {L : Type} : List (HuffmanNode L) → Option (HuffmanNode L × List (HuffmanNode L))
  | [] => none
  | t :: ts =>
    match popMin ts with
    | none => some (t, [])
    | some (m, rest) =>
      if t.frequency ≤ m.frequency then some (t, ts) else some (m, t :: rest)

/-- The `while(node_queue.size() > 1)` loop of the `HuffmanTree`
constructor: pop the two lightest trees, push their combination; `fuel`
bounds the iterations (the queue length suffices, as each round shrinks
it by one). `top()` on an empty queue is undefined, modelled as `none`. -/
def buildNodes {L : Type} : Nat → List (HuffmanNode L) → Option (HuffmanNode L)
  | _, [] => none
  | _, [t] => some t
  | 0, _ :: _ :: _ => none
  | fuel + 1, a :: b :: rest =>
    match popMin (a :: b :: rest) with
    | none => none
    | some (x, q1) =>
      match popMin q1 with
      | none => none
      | some (y, q2) => buildNodes fuel (q2 ++ [.node x y])

/-- The `HuffmanTree` constructor's tree: one leaf per map entry with
weight `max(1, frequency)`, then the queue loop. -/
def HuffmanTreeBuild {L : Type} (lf : List (L × Nat)) : Option (HuffmanNode L) :=
  buildNodes lf.length (lf.map fun e => HuffmanNode.leaf e.1 (max 1 e.2))

/-- `HuffmanTree::BuildTable`: a leaf yields its letter with the code
accumulated so far; an inner node recurses with `false` appended for the
first daughter and `true` for the second. `Append` overflow propagates. -/
def BuildTable {L : Type} : HuffmanNode L → HuffmanCode → Option (List (L × HuffmanCode))
  | .leaf a _, c => some [(a, c)]
  | .node x y, c =>
    match c.Append false, c.Append true with
    | some c0, some c1 =>
      match BuildTable x c0, BuildTable y c1 with
      | some t0, some t1 => some (t0 ++ t1)
      | _, _ => none
    | _, _ => none

/-- `HuffmanTree(lf).GetTable()`: build the tree, then the table from the
empty code. -/
def GetTable {L : Type} (lf : List (L × Nat)) : Option (List (L × HuffmanCode)) :=
  match HuffmanTreeBuild lf with
  | none => none
  | some t => BuildTable t ⟨0, 0⟩

/-- A bit of `x` below the width of a modulus equality is a bit of the
residue. -/
theorem testBit_of_mod_eq {x K n k : Nat} (hnk : n < k) (h : x % 2 ^ k = K) :
    x.testBit n = K.testBit n := by
  rw [← h, Nat.testBit_mod_two_pow]
  simp [hnk]

/-- Oring `2 ^ n` into a value below `2 ^ n` leaves the low `n` bits. -/
theorem lor_two_pow_mod {y n : Nat} (hy : y < 2 ^ n) : (2 ^ n ||| y) % 2 ^ n = y := by
  apply Nat.eq_of_testBit_eq
  intro i
  by_cases hi : i < n
  · rw [Nat.testBit_mod_two_pow, Nat.testBit_or, Nat.testBit_two_pow_of_ne (by omega)]
    simp [hi]
  · rw [Nat.testBit_mod_two_pow]
    have hyi : y.testBit i = false :=
      Nat.testBit_lt_two_pow
        (lt_of_lt_of_le hy (Nat.pow_le_pow_right (by omega) (by omega)))
    simp [hi, hyi]

/-- `popMin` returns `none` only on the empty queue. -/
theorem popMin_eq_none {L : Type} :
    ∀ q : List (HuffmanNode L), popMin q = none → q = [] := by
  intro q h
  cases q with
  | nil => rfl
  | cons t ts =>
    rw [popMin] at h
    rcases hts : popMin ts with _ | p <;> rw [hts] at h
    · exact Option.noConfusion h
    · obtain ⟨m, rest⟩ := p
      have h' : (if t.frequency ≤ m.frequency then some (t, ts)
          else some (m, t :: rest)) = (none : Option (HuffmanNode L × List (HuffmanNode L))) := h
      by_cases hle : t.frequency ≤ m.frequency
      · rw [if_pos hle] at h'
        exact Option.noConfusion h'
      · rw [if_neg hle] at h'
        exact Option.noConfusion h'

/-- Popping the minimum is a permutation: the queue is the popped tree
plus the remainder. -/
theorem popMin_perm {L : Type} :
    ∀ (q rest : List (HuffmanNode L)) (m : HuffmanNode L),
      popMin q = some (m, rest) → q.Perm (m :: rest) := by
  intro q
  induction q with
  | nil => intro rest m h; exact Option.noConfusion h
  | cons t ts ih =>
    intro rest m h
    rw [popMin] at h
    rcases hts : popMin ts with _ | p <;> rw [hts] at h
    · obtain rfl : ts = [] := popMin_eq_none ts hts
      obtain ⟨rfl, rfl⟩ : t = m ∧ ([] : List (HuffmanNode L)) = rest := by
        have h' : some (t, ([] : List (HuffmanNode L))) = some (m, rest) := h
        exact ⟨congrArg (·.1) (Option.some.inj h'), congrArg (·.2) (Option.some.inj h')⟩
      exact List.Perm.refl _
    · obtain ⟨m', rest'⟩ := p
      have h' : (if t.frequency ≤ m'.frequency then some (t, ts)
          else some (m', t :: rest')) = some (m, rest) := h
      by_cases hle : t.frequency ≤ m'.frequency
      · rw [if_pos hle] at h'
        obtain ⟨rfl, rfl⟩ : t = m ∧ ts = rest :=
          ⟨congrArg (·.1) (Option.some.inj h'), congrArg (·.2) (Option.some.inj h')⟩
        exact List.Perm.refl _
      · rw [if_neg hle] at h'
        obtain ⟨rfl, rfl⟩ : m' = m ∧ t :: rest' = rest :=
          ⟨congrArg (·.1) (Option.some.inj h'), congrArg (·.2) (Option.some.inj h')⟩
        exact ((ih rest' m' hts).cons t).trans (List.Perm.swap m' t rest')

/-- The letters of all trees in a queue, in order. -/
def treeLetters {L : Type} : List (HuffmanNode L) → List L
  | [] => []
  | t :: ts => t.letters ++ treeLetters ts

theorem treeLetters_append {L : Type} (q1 q2 : List (HuffmanNode L)) :
    treeLetters (q1 ++ q2) = treeLetters q1 ++ treeLetters q2 := by
  induction q1 with
  | nil => rfl
  | cons t ts ih =>
    rw [List.cons_append, treeLetters, treeLetters, ih, List.append_assoc]

theorem treeLetters_perm {L : Type} {q q' : List (HuffmanNode L)} (h : q.Perm q') :
    (treeLetters q).Perm (treeLetters q') := by
  induction h with
  | nil => exact List.Perm.refl _
  | cons x _ ih => exact ih.append_left x.letters
  | swap x y l =>
    show (y.letters ++ (x.letters ++ treeLetters l)).Perm
      (x.letters ++ (y.letters ++ treeLetters l))
    rw [← List.append_assoc, ← List.append_assoc]
    exact List.perm_append_comm.append_right _
  | trans _ _ ih1 ih2 => exact ih1.trans ih2

theorem treeLetters_leaves {L : Type} (lf : List (L × Nat)) :
    treeLetters (lf.map fun e => HuffmanNode.leaf e.1 (max 1 e.2)) = lf.map Prod.fst := by
  induction lf with
  | nil => rfl
  | cons e es ih => simp [treeLetters, HuffmanNode.letters, ih]

/-- The tree the queue loop returns carries exactly the letters of the
queue it started from (as a multiset). -/
theorem buildNodes_letters {L : Type} :
    ∀ (fuel : Nat) (q : List (HuffmanNode L)) (t : HuffmanNode L),
      buildNodes fuel q = some t → t.letters.Perm (treeLetters q) := by
  intro fuel
  induction fuel with
  | zero =>
    intro q t h
    match q with
    | [] => exact Option.noConfusion h
    | [t'] =>
      obtain rfl : t' = t := Option.some.inj h
      simp [treeLetters]
    | _ :: _ :: _ => exact Option.noConfusion h
  | succ fuel ih =>
    intro q t h
    match q with
    | [] => exact Option.noConfusion h
    | [t'] =>
      obtain rfl : t' = t := Option.some.inj h
      simp [treeLetters]
    | a :: b :: bs =>
      obtain ⟨x, q1, hx⟩ : ∃ x q1, popMin (a :: b :: bs) = some (x, q1) := by
        rcases hp : popMin (a :: b :: bs) with _ | p
        · exact absurd (popMin_eq_none _ hp) (by simp)
        · exact ⟨p.1, p.2, rfl⟩
      have hq1p : (a :: b :: bs).Perm (x :: q1) := popMin_perm _ _ _ hx
      have hq1len : q1.length = bs.length + 1 := by
        have := hq1p.length_eq
        simp at this
        omega
      obtain ⟨y, q2, hy⟩ : ∃ y q2, popMin q1 = some (y, q2) := by
        rcases hp : popMin q1 with _ | p
        · have := popMin_eq_none _ hp
          rw [this] at hq1len
          exact absurd hq1len (by simp)
        · exact ⟨p.1, p.2, rfl⟩
      have hq2p : q1.Perm (y :: q2) := popMin_perm _ _ _ hy
      have h1 : (match popMin q1 with
          | none => none
          | some (y, q2) => buildNodes fuel (q2 ++ [HuffmanNode.node x y])) = some t := by
        rw [buildNodes, hx] at h
        exact h
      have h2 : buildNodes fuel (q2 ++ [HuffmanNode.node x y]) = some t := by
        rw [hy] at h1
        exact h1
      have ihp := ih (q2 ++ [HuffmanNode.node x y]) t h2
      refine ihp.trans ?_
      rw [treeLetters_append]
      have e1 : treeLetters [HuffmanNode.node x y] = x.letters ++ y.letters := by
        simp [treeLetters, HuffmanNode.letters]
      rw [e1]
      have h3 : (treeLetters (a :: b :: bs)).Perm
          (x.letters ++ (y.letters ++ treeLetters q2)) := by
        refine (treeLetters_perm hq1p).trans ?_
        show (x.letters ++ treeLetters q1).Perm _
        exact (treeLetters_perm hq2p).append_left _
      refine List.perm_append_comm.trans ?_
      rw [List.append_assoc]
      exact h3.symm

/-- The table `BuildTable` grows from accumulated code `c` (whose bits lie
below `2 ^ n_bits`): its letters are the tree's leaves in order, every
code extends `c`, and, pairwise, codes are distinct and neither is a
proper prefix of the other. -/
theorem BuildTable_spec {L : Type} (t : HuffmanNode L) :
    ∀ (c : HuffmanCode) (tbl : List (L × HuffmanCode)),
      c.code < 2 ^ c.n_bits →
      BuildTable t c = some tbl →
      tbl.map Prod.fst = t.letters ∧
      (∀ e ∈ tbl, c.n_bits ≤ e.2.n_bits ∧ e.2.code < 2 ^ e.2.n_bits ∧
        e.2.code % 2 ^ c.n_bits = c.code) ∧
      tbl.Pairwise (fun e f => e.2 ≠ f.2 ∧
        ¬ e.2.ProperPref f.2 ∧ ¬ f.2.ProperPref e.2) := by
  induction t with
  | leaf a f =>
    intro c tbl hc h
    obtain rfl : [(a, c)] = tbl := Option.some.inj h
    refine ⟨by simp [HuffmanNode.letters], ?_, by simp⟩
    intro e he
    rw [List.mem_singleton] at he
    subst he
    exact ⟨Nat.le_refl _, hc, Nat.mod_eq_of_lt hc⟩
  | node x y ihx ihy =>
    intro c tbl hc h
    by_cases hcap : c.n_bits + 1 > 64
    · rw [BuildTable] at h
      simp only [HuffmanCode.Append, if_pos hcap] at h
      exact Option.noConfusion h
    · have h0 : c.Append false = some ⟨c.code, c.n_bits + 1⟩ := by
        rw [HuffmanCode.Append, if_neg hcap]
        simp [Nat.zero_shiftLeft]
      have h1 : c.Append true = some ⟨2 ^ c.n_bits ||| c.code, c.n_bits + 1⟩ := by
        rw [HuffmanCode.Append, if_neg hcap]
        simp [Nat.shiftLeft_eq]
      rw [BuildTable, h0, h1] at h
      have h' : (match BuildTable x ⟨c.code, c.n_bits + 1⟩,
          BuildTable y ⟨2 ^ c.n_bits ||| c.code, c.n_bits + 1⟩ with
        | some t0, some t1 => some (t0 ++ t1)
        | _, _ => none) = some tbl := h
      rcases hbx : BuildTable x ⟨c.code, c.n_bits + 1⟩ with _ | t0 <;> rw [hbx] at h'
      · exact Option.noConfusion h'
      rcases hby : BuildTable y ⟨2 ^ c.n_bits ||| c.code, c.n_bits + 1⟩ with _ | t1 <;>
        rw [hby] at h'
      · exact Option.noConfusion h'
      obtain rfl : t0 ++ t1 = tbl := Option.some.inj h'
      have hpow : (2:Nat) ^ c.n_bits < 2 ^ (c.n_bits + 1) :=
        Nat.pow_lt_pow_right (by omega) (Nat.lt_succ_self _)
      have hc0 : (⟨c.code, c.n_bits + 1⟩ : HuffmanCode).code
          < 2 ^ (⟨c.code, c.n_bits + 1⟩ : HuffmanCode).n_bits := lt_trans hc hpow
      have hc1 : (⟨2 ^ c.n_bits ||| c.code, c.n_bits + 1⟩ : HuffmanCode).code
          < 2 ^ (⟨2 ^ c.n_bits ||| c.code, c.n_bits + 1⟩ : HuffmanCode).n_bits :=
        Nat.or_lt_two_pow hpow (lt_trans hc hpow)
      obtain ⟨hmx, hfx, hpx⟩ := ihx _ t0 hc0 hbx
      obtain ⟨hmy, hfy, hpy⟩ := ihy _ t1 hc1 hby
      have hbit0 : ∀ e ∈ t0, e.2.code.testBit c.n_bits = false := by
        intro e he
        rw [testBit_of_mod_eq (Nat.lt_succ_self _) (hfx e he).2.2]
        exact Nat.testBit_lt_two_pow hc
      have hbit1 : ∀ f ∈ t1, f.2.code.testBit c.n_bits = true := by
        intro f hf
        rw [testBit_of_mod_eq (Nat.lt_succ_self _) (hfy f hf).2.2, Nat.testBit_or,
          Nat.testBit_two_pow_self]
        rfl
      refine ⟨by rw [List.map_append, hmx, hmy]; rfl, ?_, ?_⟩
      · intro e he
        rcases List.mem_append.mp he with he0 | he1
        · obtain ⟨hle, hlt, hmod⟩ := hfx e he0
          have hle' : c.n_bits + 1 ≤ e.2.n_bits := hle
          have hmod' : e.2.code % 2 ^ (c.n_bits + 1) = c.code := hmod
          refine ⟨by omega, hlt, ?_⟩
          calc e.2.code % 2 ^ c.n_bits
              = e.2.code % 2 ^ (c.n_bits + 1) % 2 ^ c.n_bits :=
                (Nat.mod_mod_of_dvd _ (pow_dvd_pow 2 (Nat.le_succ _))).symm
            _ = c.code % 2 ^ c.n_bits := by rw [hmod']
            _ = c.code := Nat.mod_eq_of_lt hc
        · obtain ⟨hle, hlt, hmod⟩ := hfy e he1
          have hle' : c.n_bits + 1 ≤ e.2.n_bits := hle
          have hmod' : e.2.code % 2 ^ (c.n_bits + 1) = 2 ^ c.n_bits ||| c.code := hmod
          refine ⟨by omega, hlt, ?_⟩
          calc e.2.code % 2 ^ c.n_bits
              = e.2.code % 2 ^ (c.n_bits + 1) % 2 ^ c.n_bits :=
                (Nat.mod_mod_of_dvd _ (pow_dvd_pow 2 (Nat.le_succ _))).symm
            _ = (2 ^ c.n_bits ||| c.code) % 2 ^ c.n_bits := by rw [hmod']
            _ = c.code := lor_two_pow_mod hc
      · rw [List.pairwise_append]
        refine ⟨hpx, hpy, ?_⟩
        intro e he0 f hf1
        have hen : c.n_bits < e.2.n_bits := (hfx e he0).1
        have hfn : c.n_bits < f.2.n_bits := (hfy f hf1).1
        have hbe := hbit0 e he0
        have hbf := hbit1 f hf1
        refine ⟨?_, ?_, ?_⟩
        · intro hef
          rw [hef, hbf] at hbe
          exact Bool.noConfusion hbe
        · rintro ⟨hlt, heq⟩
          have h2 : f.2.code.testBit c.n_bits = e.2.code.testBit c.n_bits :=
            testBit_of_mod_eq hen heq
          rw [hbf, hbe] at h2
          exact Bool.noConfusion h2
        · rintro ⟨hlt, heq⟩
          have h2 : e.2.code.testBit c.n_bits = f.2.code.testBit c.n_bits :=
            testBit_of_mod_eq hfn heq
          rw [hbe, hbf] at h2
          exact Bool.noConfusion h2

/-- Claim C7: for every non-empty letter-to-frequency map with distinct
letters whose `HuffmanTree` construction and `GetTable` succeed, the
table holds exactly one code per letter of the map (its letters are the
map's letters, without repetition), and distinct entries carry distinct
codes of which neither is a proper prefix (least-significant bit first,
i.e. in append order) of the other. -/
theorem huffman_table_ok {L : Type} (lf : List (L × Nat))
    (tbl : List (L × HuffmanCode))
    (hne : lf ≠ [])
    (hnodup : (lf.map Prod.fst).Nodup)
    (htbl : GetTable lf = some tbl) :
    ((∀ a, a ∈ tbl.map Prod.fst ↔ a ∈ lf.map Prod.fst) ∧
      (tbl.map Prod.fst).Nodup) ∧
    (∀ e ∈ tbl, ∀ f ∈ tbl, e ≠ f → e.2 ≠ f.2 ∧ ¬ e.2.ProperPref f.2) := by
  rw [GetTable] at htbl
  rcases ht : HuffmanTreeBuild lf with _ | t <;> rw [ht] at htbl
  · exact Option.noConfusion htbl
  obtain ⟨hmap, hfacts, hpw⟩ := BuildTable_spec t ⟨0, 0⟩ tbl (by norm_num) htbl
  have hperm : (tbl.map Prod.fst).Perm (lf.map Prod.fst) := by
    rw [hmap]
    have hb := buildNodes_letters lf.length _ t ht
    rw [treeLetters_leaves] at hb
    exact hb
  refine ⟨⟨fun a => hperm.mem_iff, hperm.nodup_iff.mpr hnodup⟩, ?_⟩
  intro e he f hf hef
  have hsym : Symmetric (fun e f : L × HuffmanCode =>
      e.2 ≠ f.2 ∧ ¬ e.2.ProperPref f.2 ∧ ¬ f.2.ProperPref e.2) := by
    intro a b hab
    exact ⟨Ne.symm hab.1, hab.2.2, hab.2.1⟩
  have hr := List.Pairwise.forall hsym hpw he hf hef
  exact ⟨hr.1, hr.2.1⟩

/-- Witness for C7 on the frequency map `{0 ↦ 5, 1 ↦ 3, 2 ↦ 2}`: the
built table is `[(0, code 0 of 1 bit), (2, code 1 of 2 bits),
(1, code 3 of 2 bits)]`; letter 2 got exactly one code, and letter 0's
1-bit code `0` is not a proper prefix of letter 1's 2-bit code `11`. -/
theorem huffman_table_ok_witness :
    ((2:Int) ∈ ([(0, ⟨0, 1⟩), (2, ⟨1, 2⟩), (1, ⟨3, 2⟩)] :
        List (Int × HuffmanCode)).map Prod.fst) ∧
    ¬ HuffmanCode.ProperPref ⟨0, 1⟩ ⟨3, 2⟩ := by
  obtain ⟨⟨hmem, _⟩, hpair⟩ := huffman_table_ok [((0:Int), 5), (1, 3), (2, 2)]
      [(0, ⟨0, 1⟩), (2, ⟨1, 2⟩), (1, ⟨3, 2⟩)] (by decide) (by decide) rfl
  refine ⟨(hmem 2).mpr (by decide), ?_⟩
  exact (hpair (0, ⟨0, 1⟩) (by decide) (1, ⟨3, 2⟩) (by decide) (by decide)).2

/-! ## The four codecs (`PackageMaker.h`, `BlockPackageMaker.h`,
`DeltaPackageMaker.h`, `ChipDataEncoder.cc`)

The shared scaffolding first: `RegionLayout::BitsPerValue`
(`ceil(log2 v)`, computed here by the standard recurrence
`clog2 v = clog2 (ceil (v / 2)) + 1` with fuel 64, enough for every
`v ≤ 2^64`; the source computes it in `double`, exact over this range),
the well-formedness facts the `MultiRegionLayout` constructors establish,
and the pixel-conversion round trip the decoders rely on. -/

/-- Ceiling base-2 logarithm by the recurrence on `ceil (v / 2)`; the
fuel bounds the recursion depth (64 covers all `v ≤ 2 ^ 64`). -/
def clog2Fuel : Nat → Nat → Nat
  | 0, _ => 0
  | fuel + 1, v => if v ≤ 1 then 0 else clog2Fuel fuel ((v + 1) / 2) + 1

/-- `RegionLayout::BitsPerValue(max_value)` = `ceil(log2(max_value))`
(undefined behaviour for `max_value = 0`, modelled as 0). -/
def RegionLayout.BitsPerValue (v : Nat) : Nat := clog2Fuel 64 v

/-- `RegionLayout::BitsPerId`. -/
def RegionLayout.BitsPerId (l : RegionLayout) : Nat :=
  RegionLayout.BitsPerValue l.GetNumberOfPixels

/-- `RegionLayout::BitsPerRow`. -/
def RegionLayout.BitsPerRow (l : RegionLayout) : Nat :=
  RegionLayout.BitsPerValue l.n_rows

/-- `RegionLayout::BitsPerColumn`. -/
def RegionLayout.BitsPerColumn (l : RegionLayout) : Nat :=
  RegionLayout.BitsPerValue l.n_columns

theorem clog2Fuel_le (fuel v : Nat) : clog2Fuel fuel v ≤ fuel := by
  induction fuel generalizing v with
  | zero => exact Nat.le_refl _
  | succ fuel ih =>
    rw [clog2Fuel]
    by_cases h : v ≤ 1
    · rw [if_pos h]; omega
    · rw [if_neg h]
      have := ih ((v + 1) / 2)
      omega

theorem le_two_pow_clog2Fuel (fuel v : Nat) (h : v ≤ 2 ^ fuel) :
    v ≤ 2 ^ clog2Fuel fuel v := by
  induction fuel generalizing v with
  | zero => simpa [clog2Fuel] using h
  | succ fuel ih =>
    rw [clog2Fuel]
    by_cases h1 : v ≤ 1
    · rw [if_pos h1]; simpa using h1
    · rw [if_neg h1]
      have hhalf : (v + 1) / 2 ≤ 2 ^ fuel := by
        rw [Nat.pow_succ] at h
        omega
      have := ih ((v + 1) / 2) hhalf
      rw [Nat.pow_succ]
      omega

theorem BitsPerValue_le_64 (v : Nat) : RegionLayout.BitsPerValue v ≤ 64 :=
  clog2Fuel_le 64 v

theorem le_two_pow_BitsPerValue (v : Nat) (h : v ≤ 2 ^ 64) :
    v ≤ 2 ^ RegionLayout.BitsPerValue v :=
  le_two_pow_clog2Fuel 64 v h

/-- The facts the `MultiRegionLayout` constructors establish about the
stored fields (all dimensions positive, grid sizes the ceiling quotients,
last-region sizes the remainders). -/
structure MultiRegionLayout.WF (l : MultiRegionLayout) : Prop where
  nr_pos : 0 < l.n_rows
  nc_pos : 0 < l.n_columns
  rl_rows_pos : 0 < l.region_layout.n_rows
  rl_cols_pos : 0 < l.region_layout.n_columns
  grid_rows : l.n_region_rows = ceilDiv l.n_rows l.region_layout.n_rows
  grid_cols : l.n_region_columns = ceilDiv l.n_columns l.region_layout.n_columns
  last_rows : l.n_last_region_rows
    = l.n_rows - (l.n_region_rows - 1) * l.region_layout.n_rows
  last_cols : l.n_last_region_columns
    = l.n_columns - (l.n_region_columns - 1) * l.region_layout.n_columns

theorem ofRegion_wf (nr nc : Nat) (rl : RegionLayout) (l : MultiRegionLayout)
    (hrl : 0 < rl.n_rows) (hrc : 0 < rl.n_columns)
    (hl : MultiRegionLayout.ofRegion nr nc rl = some l) : l.WF := by
  rw [MultiRegionLayout.ofRegion] at hl
  by_cases h0 : nr = 0 ∨ nc = 0
  · rw [if_pos h0] at hl; exact absurd hl (by simp)
  rw [if_neg h0] at hl
  by_cases h1 : ceilDiv nr rl.n_rows = 0 ∨ ceilDiv nc rl.n_columns = 0
  · rw [if_pos h1] at hl; exact absurd hl (by simp)
  rw [if_neg h1] at hl
  have hfld := Option.some_inj.mp hl
  refine ⟨?_, ?_, ?_, ?_, ?_, ?_, ?_, ?_⟩ <;> rw [← hfld] <;> dsimp only <;>
    first | omega | exact hrl | exact hrc | rfl

theorem wf_grid_pos (l : MultiRegionLayout) (h : l.WF) :
    0 < l.n_region_rows ∧ 0 < l.n_region_columns :=
  ⟨by rw [h.grid_rows]; exact ceilDiv_pos _ _ h.nr_pos h.rl_rows_pos,
   by rw [h.grid_cols]; exact ceilDiv_pos _ _ h.nc_pos h.rl_cols_pos⟩

/-- The conversion round trip the decoders rely on: converting an inside
pixel of a (16-bit-representable) layout to its region id and local pixel
yields a valid region id, a local pixel inside the (full) region tile with
the expected coordinates, and `ConvertFromRegionPixel` restores the pixel. -/
theorem convertTo_spec (l : MultiRegionLayout) (hwf : l.WF)
    (hnr : l.n_rows ≤ 32768) (hnc : l.n_columns ≤ 32768)
    (p : Pixel) (hin : (RegionLayout.mk l.n_rows l.n_columns).IsPixelInside p = true) :
    (l.ConvertToRegionPixel p).1 < l.GetNumberOfRegions ∧
    (l.ConvertToRegionPixel p).2.row
      = ((p.row.toNat % l.region_layout.n_rows : Nat) : Int) ∧
    (l.ConvertToRegionPixel p).2.column
      = ((p.column.toNat % l.region_layout.n_columns : Nat) : Int) ∧
    (RegionLayout.mk l.region_layout.n_rows l.region_layout.n_columns).IsPixelInside
      (l.ConvertToRegionPixel p).2 = true ∧
    l.ConvertFromRegionPixel (l.ConvertToRegionPixel p).1 (l.ConvertToRegionPixel p).2 = p := by
  obtain ⟨prow, pcol⟩ := p
  simp only [RegionLayout.IsPixelInside, Bool.and_eq_true, decide_eq_true_eq] at hin
  obtain ⟨⟨⟨hp1, hp2⟩, hp3⟩, hp4⟩ := hin
  have hNRC0 : 0 < l.n_region_columns := (wf_grid_pos l hwf).2
  have hNRR0 : 0 < l.n_region_rows := (wf_grid_pos l hwf).1
  have hrlr := hwf.rl_rows_pos
  have hrlc := hwf.rl_cols_pos
  have hrow_le : l.n_rows ≤ l.n_region_rows * l.region_layout.n_rows := by
    rw [hwf.grid_rows]; exact ceilDiv_le_mul _ _ hrlr
  have hcol_le : l.n_columns ≤ l.n_region_columns * l.region_layout.n_columns := by
    rw [hwf.grid_cols]; exact ceilDiv_le_mul _ _ hrlc
  have ha : prow = ((prow.toNat : Nat) : Int) := (Int.toNat_of_nonneg hp1).symm
  have hb : pcol = ((pcol.toNat : Nat) : Int) := (Int.toNat_of_nonneg hp3).symm
  set a := prow.toNat with hadef
  set b := pcol.toNat with hbdef
  have hana : a < l.n_rows := by omega
  have hbnb : b < l.n_columns := by omega
  have htsr : toSize prow = a := by rw [ha, toSize_natCast a (by omega)]
  have htsc : toSize pcol = b := by rw [hb, toSize_natCast b (by omega)]
  rw [MultiRegionLayout.ConvertToRegionPixel]
  dsimp only
  rw [htsr, htsc]
  set R := l.region_layout.n_rows with hRdef
  set C := l.region_layout.n_columns with hCdef
  set u := a / R with hudef
  set v := b / C with hvdef
  set x := a % R with hxdef
  set y := b % C with hydef
  have hxa : R * u + x = a := Nat.div_add_mod a R
  have hyb : C * v + y = b := Nat.div_add_mod b C
  have hxR : x < R := Nat.mod_lt _ hrlr
  have hyC : y < C := Nat.mod_lt _ hrlc
  have hu : u < l.n_region_rows := by
    rw [hudef, Nat.div_lt_iff_lt_mul hrlr]
    calc a < l.n_rows := hana
      _ ≤ l.n_region_rows * R := hrow_le
  have hv : v < l.n_region_columns := by
    rw [hvdef, Nat.div_lt_iff_lt_mul hrlc]
    calc b < l.n_columns := hbnb
      _ ≤ l.n_region_columns * C := hcol_le
  refine ⟨?_, by rw [int16_of_lt x (by omega)], by rw [int16_of_lt y (by omega)], ?_, ?_⟩
  · rw [MultiRegionLayout.GetNumberOfRegions]
    calc u * l.n_region_columns + v
        < u * l.n_region_columns + l.n_region_columns := by omega
      _ = (u + 1) * l.n_region_columns := (Nat.succ_mul _ _).symm
      _ ≤ l.n_region_rows * l.n_region_columns :=
          Nat.mul_le_mul_right _ (by omega)
  · simp only [RegionLayout.IsPixelInside, Bool.and_eq_true, decide_eq_true_eq]
    rw [int16_of_lt x (by omega), int16_of_lt y (by omega)]
    refine ⟨⟨⟨by exact_mod_cast Nat.zero_le x, by exact_mod_cast hxR⟩,
      by exact_mod_cast Nat.zero_le y⟩, by exact_mod_cast hyC⟩
  · rw [MultiRegionLayout.ConvertFromRegionPixel]
    dsimp only
    have hmod : (u * l.n_region_columns + v) % l.n_region_columns = v := by
      rw [Nat.mul_comm, Nat.mul_add_mod, Nat.mod_eq_of_lt hv]
    have hdiv2 : (u * l.n_region_columns + v - v) / l.n_region_columns = u := by
      rw [show u * l.n_region_columns + v - v = u * l.n_region_columns from by omega,
        Nat.mul_div_cancel u hNRC0]
    rw [hmod, hdiv2]
    rw [int16_of_lt x (by omega), int16_of_lt y (by omega),
      toSize_natCast x (by omega), toSize_natCast y (by omega)]
    have hroweq : u * R + x = a := by rw [Nat.mul_comm]; omega
    have hcoleq : v * C + y = b := by rw [Nat.mul_comm]; omega
    rw [← hRdef, ← hCdef, hroweq, hcoleq, int16_of_lt a (by omega), int16_of_lt b (by omega)]
    rw [Pixel.mk.injEq]
    exact ⟨ha.symm, hb.symm⟩

/-- `GetPixel ∘ GetPixelId` is the identity on inside pixels with 16-bit
representable coordinates (the escape path of the delta decoder). -/
theorem getPixel_getPixelId (l : RegionLayout) (p : Pixel)
    (hc : 0 < l.n_columns)
    (hrow : p.row < 32768) (hcol : p.column < 32768)
    (hin : l.IsPixelInside p = true) :
    ∃ id, l.GetPixelId p = some id ∧ id < l.GetNumberOfPixels ∧ l.GetPixel id = some p := by
  have hin' := hin
  simp only [RegionLayout.IsPixelInside, Bool.and_eq_true, decide_eq_true_eq] at hin'
  obtain ⟨⟨⟨h1, h2⟩, h3⟩, h4⟩ := hin'
  set r := p.row.toNat with hrn
  set c := p.column.toNat with hcn
  have hrlt : r < 32768 := by omega
  have hclt : c < 32768 := by omega
  have hcc : c < l.n_columns := by omega
  have hrr : r < l.n_rows := by omega
  refine ⟨r * l.n_columns + c, by rw [RegionLayout.GetPixelId, if_pos hin], ?_, ?_⟩
  · rw [RegionLayout.GetNumberOfPixels]
    calc r * l.n_columns + c < r * l.n_columns + l.n_columns := by omega
      _ = (r + 1) * l.n_columns := (Nat.succ_mul _ _).symm
      _ ≤ l.n_rows * l.n_columns := Nat.mul_le_mul_right _ (by omega)
  · have hmod : (r * l.n_columns + c) % l.n_columns = c := by
      rw [Nat.mul_comm r l.n_columns, Nat.mul_add_mod, Nat.mod_eq_of_lt hcc]
    have hdiv : (r * l.n_columns + c - (r * l.n_columns + c) % l.n_columns) / l.n_columns
        = r := by
      rw [hmod, show r * l.n_columns + c - c = r * l.n_columns from by omega]
      exact Nat.mul_div_cancel r hc
    have hri : ((r : Nat) : Int) = p.row := by rw [hrn]; exact Int.toNat_of_nonneg h1
    have hci : ((c : Nat) : Int) = p.column := by rw [hcn]; exact Int.toNat_of_nonneg h3
    rw [RegionLayout.GetPixel, hdiv, hmod, int16_of_lt r hrlt, int16_of_lt c hclt, hri, hci]
    have hp : (⟨p.row, p.column⟩ : Pixel) = p := rfl
    rw [hp, if_pos hin]

/-! ### The chip (`PixelMultiRegion`, `Chip.h` / `Chip.cc`)

A chip is its `MultiRegionLayout` plus the `std::map<Pixel, Adc>` of the
base `PixelRegion`, modelled as an association list (the C++ map iterates
it sorted by `Pixel::operator<`; the round-trip statements below only
depend on its entry set).  The per-region maps the C++ keeps alongside
are derived views (`regionPixels`). -/

structure Chip where
  layout : MultiRegionLayout
  pixels : List (Pixel × Nat)
deriving Repr, DecidableEq

/-- `PixelRegion::AddPixel` (as reached through `PixelMultiRegion`):
`CheckPixel` against the outer dimensions (throws on out-of-range), throw
on a duplicate, else record the pixel. -/
def Chip.AddPixel (c : Chip) (p : Pixel) (adc : Nat) : Option Chip :=
  if (RegionLayout.mk c.layout.n_rows c.layout.n_columns).IsPixelInside p then
    if (c.pixels.find? (fun e => e.1 = p)).isSome then none
    else some ⟨c.layout, c.pixels ++ [(p, adc)]⟩
  else none

/-- The entries of the derived per-region map of region `rid`: the chip's
pixels that fall into that region, in region-local coordinates. -/
def Chip.regionPixels (c : Chip) (rid : Nat) : List (Pixel × Nat) :=
  c.pixels.filterMap (fun e =>
    if (c.layout.ConvertToRegionPixel e.1).1 = rid
    then some ((c.layout.ConvertToRegionPixel e.1).2, e.2) else none)

/-- `PixelMultiRegion::IsRegionActive` (valid ids): with more than one
region, whether the region's map exists (a pixel was routed to it); with
a single region, whether the chip has pixels at all. -/
def Chip.IsRegionActive (c : Chip) (rid : Nat) : Bool :=
  if c.layout.GetNumberOfRegions = 1 then ¬ c.pixels.isEmpty
  else ¬ (c.regionPixels rid).isEmpty

/-- `GetRegion(id).GetRegionLayout()`: the region tile, except that a
single-region chip returns itself, whose layout is the outer one. -/
def Chip.regionLayoutAsRegion (c : Chip) : RegionLayout :=
  if c.layout.GetNumberOfRegions = 1 then ⟨c.layout.n_rows, c.layout.n_columns⟩
  else c.layout.region_layout

/-- `GetRegion(id).GetPixels()`: the region's map; a single-region chip
returns its own (global) map. -/
def Chip.GetRegionPixels (c : Chip) (rid : Nat) : List (Pixel × Nat) :=
  if c.layout.GetNumberOfRegions = 1 then c.pixels else c.regionPixels rid

/-- `PixelRegion::GetAdc`: the map entry, or 0 when the pixel is absent. -/
def getAdc (pix : List (Pixel × Nat)) (q : Pixel) : Nat :=
  match pix.find? (fun e => e.1 = q) with
  | some e => e.2
  | none => 0

theorem addPixel_pixels (c : Chip) (p : Pixel) (adc : Nat) (c' : Chip)
    (h : c.AddPixel p adc = some c') :
    c'.layout = c.layout ∧ c'.pixels = c.pixels ++ [(p, adc)] ∧
    (RegionLayout.mk c.layout.n_rows c.layout.n_columns).IsPixelInside p = true ∧
    c.pixels.find? (fun e => e.1 = p) = none := by
  rw [Chip.AddPixel] at h
  by_cases h1 : (RegionLayout.mk c.layout.n_rows c.layout.n_columns).IsPixelInside p = true
  · rw [if_pos h1] at h
    by_cases h2 : (c.pixels.find? (fun e => e.1 = p)).isSome
    · rw [if_pos h2] at h
      exact absurd h (by simp)
    · rw [if_neg h2] at h
      refine ⟨?_, ?_, h1, ?_⟩
      · rw [← Option.some_inj.mp h]
      · rw [← Option.some_inj.mp h]
      · rcases hf : c.pixels.find? (fun e => e.1 = p) with _ | e
        · exact hf
        · rw [hf] at h2; exact absurd rfl h2
  · rw [if_neg h1] at h
    exact absurd h (by simp)

theorem addPixel_some (c : Chip) (p : Pixel) (adc : Nat)
    (hin : (RegionLayout.mk c.layout.n_rows c.layout.n_columns).IsPixelInside p = true)
    (habs : c.pixels.find? (fun e => e.1 = p) = none) :
    c.AddPixel p adc = some ⟨c.layout, c.pixels ++ [(p, adc)]⟩ := by
  rw [Chip.AddPixel, if_pos hin, habs]
  rfl

/-! ### Bit-stream appending

`Appends p B q` says package `q` is package `p` with the bit list `B`
appended (readout markers unconstrained).  `Package::write` produces the
MSB-first bits of its value; concatenation composes. -/

structure Appends (p : Package) (B : List Bool) (q : Package) : Prop where
  wf : q.WF
  end_eq : q.endPos = p.endPos + B.length
  pres : ∀ i, i < p.endPos → q.bitAt i = p.bitAt i
  new : ∀ j, j < B.length → q.bitAt (p.endPos + j) = B.getD j false

theorem Appends.refl_of_wf (p : Package) (h : p.WF) : Appends p [] p :=
  ⟨h, by simp, fun _ _ => rfl, fun j hj => by simp at hj⟩

theorem Appends.trans {p q r : Package} {B C : List Bool}
    (h1 : Appends p B q) (h2 : Appends q C r) : Appends p (B ++ C) r := by
  refine ⟨h2.wf, ?_, ?_, ?_⟩
  · rw [h2.end_eq, h1.end_eq, List.length_append]
    omega
  · intro i hi
    rw [h2.pres i (by rw [h1.end_eq]; omega), h1.pres i hi]
  · intro j hj
    rw [List.length_append] at hj
    by_cases hb : j < B.length
    · rw [h2.pres _ (by rw [h1.end_eq]; omega), h1.new j hb, List.getD_append _ _ _ _ hb]
    · have h3 := h2.new (j - B.length) (by omega)
      rw [h1.end_eq] at h3
      rw [show p.endPos + j = p.endPos + B.length + (j - B.length) from by omega, h3,
        List.getD_append_right _ _ _ _ (by omega)]

/-- `next_readout_cicle` appends no bits. -/
theorem Appends.readout {p q : Package} {B : List Bool} (h : Appends p B q) :
    Appends p B q.nextReadoutCicle := by
  have hwf := h.wf
  refine ⟨⟨hwf.len, hwf.bytes, hwf.trail⟩, h.end_eq, h.pres, h.new⟩

/-- `Package::write` under its checks appends the MSB-first bits. -/
theorem write_appends (p : Package) (v n : Nat) (hwf : p.WF) (hn : n ≤ 64)
    (hv : v < 2 ^ n) :
    ∃ p', p.write v n = some p' ∧ Appends p (msbBits v n) p' ∧ p'.readout = p.readout := by
  have hvchk : ¬ (n < 64 ∧ Package.Mask n < v) := by
    intro ⟨h1, h2⟩
    rw [Package.Mask, if_neg (by omega)] at h2
    have : (1:Nat) ≤ 2 ^ n := Nat.one_le_two_pow
    omega
  obtain ⟨p', heq, hwf', hend, hro, hpres, hnew⟩ := write_spec p v n hwf hn hvchk
  refine ⟨p', heq, ⟨hwf', by rw [hend, msbBits_length], hpres, ?_⟩, hro⟩
  intro j hj
  rw [msbBits_length] at hj
  rw [hnew j hj, msbBits_getD v n j hj]

/-- Reading `n` bits at a position where the stream holds the MSB-first
bits of `v < 2 ^ n` returns `v` and advances by `n`. -/
theorem read_msb_field (p : Package) (pos v n : Nat) (hn : n ≤ 64)
    (hend : pos + n ≤ p.endPos) (hv : v < 2 ^ n)
    (hbits : ∀ j, j < n → p.bitAt (pos + j) = (msbBits v n).getD j false) :
    p.read pos n false = some (v, pos + n) := by
  have hread := read_spec p pos n false hn (by omega) (by intro ⟨h1, _⟩; omega)
  have hmin : min n (p.endPos - pos) = n := by omega
  rw [hmin] at hread
  have hslice : sliceBits p pos n = msbBits v n := by
    apply list_eq_of_getD (by rw [sliceBits_length, msbBits_length])
    intro j hj
    rw [sliceBits_length] at hj
    rw [sliceBits_getD _ _ _ _ hj]
    exact hbits j hj
  rw [hslice] at hread
  have hval : msbAcc 0 (msbBits v n) = v := by
    rw [msbAcc_msbBits, Nat.zero_mul, Nat.zero_add, Nat.mod_eq_of_lt hv]
  rw [hval, Nat.sub_self, Nat.shiftLeft_zero] at hread
  exact hread

/-- Reading a single bit of the stream. -/
theorem read_one_bit (p : Package) (pos : Nat) (hend : pos < p.endPos) :
    p.read pos 1 false = some (cond (p.bitAt pos) 1 0, pos + 1) := by
  have h := read_msb_field p pos (cond (p.bitAt pos) 1 0) 1 (by omega) (by omega)
    (by cases p.bitAt pos <;> simp)
    (by
      intro j hj
      obtain rfl : j = 0 := by omega
      cases hb : p.bitAt pos <;> simp [msbBits, hb])
  exact h

/-! ### Huffman letter coding against a statistics table
(`AlphabetStatistics.h`, `HuffmanEncoder.h`, `HuffmanDecoder.h`) -/

/-- `AlphabetStatistics<int>`: the alphabet set and the letter ↔ code
bimap (each modelled as a list; the entropy/probability fields play no
role in coding). -/
structure Stats where
  alphabet : List Int
  huffman_table : List (Int × HuffmanCode)
deriving DecidableEq

/-- `AlphabetStatistics::GetHuffmanCode`: `CheckLetter` throws for letters
outside the alphabet; `bimap.left.at` throws for letters without a code. -/
def Stats.GetHuffmanCode (s : Stats) (letter : Int) : Option HuffmanCode :=
  if letter ∈ s.alphabet then
    (s.huffman_table.find? (fun e => e.1 = letter)).map (fun e => e.2)
  else none

/-- `AlphabetStatistics::GetLetterFromHuffmanCode`: reverse lookup, `none`
when the code is not in the table. -/
def Stats.GetLetterFromHuffmanCode (s : Stats) (code : HuffmanCode) : Option Int :=
  (s.huffman_table.find? (fun e => e.2 = code)).map (fun e => e.1)

/-- The code's bits in stream (append, least-significant-first) order. -/
def codeBits (c : HuffmanCode) : List Bool :=
  (List.range c.n_bits).map (fun j => c.code.testBit j)

theorem codeBits_length (c : HuffmanCode) : (codeBits c).length = c.n_bits := by
  rw [codeBits, List.length_map, List.length_range]

theorem codeBits_getD (c : HuffmanCode) (j : Nat) (hj : j < c.n_bits) :
    (codeBits c).getD j false = c.code.testBit j := by
  rw [codeBits, List.getD_eq_getElem _ _ (by simpa using hj)]
  simp

/-- The loop of `HuffmanEncoder::EncodeLetter`: write bits
`(code >> n) & 1` for `n = n_bits - rem, …, n_bits - 1`, one at a time. -/
def writeBitsLsb (v : Nat) : Nat → Nat → Package → Option Package
  | _, 0, p => some p
  | n, rem + 1, p =>
    match p.write ((v >>> n) &&& 1) 1 with
    | none => none
    | some p' => writeBitsLsb v (n + 1) rem p'

/-- `HuffmanEncoder::EncodeLetter`. -/
def EncodeLetter (s : Stats) (letter : Int) (p : Package) : Option Package :=
  match s.GetHuffmanCode letter with
  | none => none
  | some code => writeBitsLsb code.code 0 code.n_bits p

/-- The loop of `HuffmanDecoder::DecodeLetter`: read one bit, append it to
the running code, look the code up, repeat.  `Append` fails once the code
would exceed 64 bits, so fuel 65 is never exhausted before the source
would have thrown. -/
def decodeLetterLoop (s : Stats) (p : Package) : Nat → HuffmanCode → Nat → Option (Int × Nat)
  | 0, _, _ => none
  | fuel + 1, code, pos =>
    match p.read pos 1 false with
    | none => none
    | some (b, pos') =>
      match code.Append (decide (b ≠ 0)) with
      | none => none
      | some code' =>
        match s.GetLetterFromHuffmanCode code' with
        | some letter => some (letter, pos')
        | none => decodeLetterLoop s p fuel code' pos'

/-- `HuffmanDecoder::DecodeLetter`. -/
def DecodeLetter (s : Stats) (p : Package) (pos : Nat) : Option (Int × Nat) :=
  decodeLetterLoop s p 65 ⟨0, 0⟩ pos

/-- The statistics tables the library produces (for at least two letters):
unique letters, unique codes covering the alphabet, every code non-empty,
at most 64 bits, in range, and prefix-free. -/
structure GoodStats (s : Stats) : Prop where
  keys_nodup : (s.huffman_table.map Prod.fst).Nodup
  codes_nodup : (s.huffman_table.map Prod.snd).Nodup
  cover : ∀ a ∈ s.alphabet, ∃ c, (a, c) ∈ s.huffman_table
  bounds : ∀ e ∈ s.huffman_table,
    1 ≤ e.2.n_bits ∧ e.2.n_bits ≤ 64 ∧ e.2.code < 2 ^ e.2.n_bits
  pf : ∀ e ∈ s.huffman_table, ∀ f ∈ s.huffman_table, e ≠ f →
    ¬ e.2.ProperPref f.2

/-- In a table with distinct codes, reverse lookup of a member's code
returns that member. -/
theorem find_by_code_of_mem (l : List (Int × HuffmanCode))
    (hnd : (l.map Prod.snd).Nodup) (e : Int × HuffmanCode) (he : e ∈ l) :
    l.find? (fun x => x.2 = e.2) = some e := by
  induction l with
  | nil => exact absurd he (by simp)
  | cons a rest ih =>
    rw [List.map_cons, List.nodup_cons] at hnd
    rcases List.mem_cons.mp he with he1 | he2
    · subst he1
      rw [List.find?_cons_of_pos _ (by simp)]
    · have hne : a.2 ≠ e.2 := by
        intro hc
        exact hnd.1 (hc ▸ (List.mem_map.mpr ⟨e, he2, rfl⟩))
      rw [List.find?_cons_of_neg _ (by simpa using hne)]
      exact ih hnd.2 he2

/-- `EncodeLetter` of an alphabet letter appends exactly its code's bits. -/
theorem encodeLetter_appends (s : Stats) (hs : GoodStats s) (letter : Int)
    (code : HuffmanCode) (hmem : (letter, code) ∈ s.huffman_table)
    (hab : letter ∈ s.alphabet)
    (p : Package) (hwf : p.WF) :
    ∃ p', EncodeLetter s letter p = some p' ∧ Appends p (codeBits code) p' ∧
      p'.readout = p.readout := by
  have hfind : s.huffman_table.find? (fun x => x.1 = letter) = some (letter, code) :=
    find_assoc_of_mem _ hs.keys_nodup (letter, code) hmem
  have hcode : s.GetHuffmanCode letter = some code := by
    rw [Stats.GetHuffmanCode, if_pos hab, hfind]
    rfl
  rw [EncodeLetter, hcode]
  obtain ⟨_, h64, hlt⟩ := hs.bounds (letter, code) hmem
  have main : ∀ rem n q, q.WF →
      ∃ q', writeBitsLsb code.code n rem q = some q' ∧
        Appends q ((List.range rem).map (fun j => code.code.testBit (n + j))) q' ∧
        q'.readout = q.readout := by
    intro rem
    induction rem with
    | zero =>
      intro n q hq
      exact ⟨q, rfl, by simpa using Appends.refl_of_wf q hq, rfl⟩
    | succ rem ih =>
      intro n q hq
      obtain ⟨q1, heq1, happ1, hro1⟩ := write_appends q ((code.code >>> n) &&& 1) 1 hq
        (by omega) (by
          have : (code.code >>> n) &&& 1 ≤ 1 := Nat.and_le_right
          omega)
      obtain ⟨q', heq', happ', hro'⟩ := ih (n + 1) q1 happ1.wf
      refine ⟨q', ?_, ?_, by rw [hro', hro1]⟩
      · rw [writeBitsLsb, heq1]
        exact heq'
      · have hbit : msbBits ((code.code >>> n) &&& 1) 1 = [code.code.testBit n] := by
          have : ((code.code >>> n) &&& 1).testBit 0 = code.code.testBit n := by
            rw [Nat.testBit_and, Nat.testBit_shiftRight, Nat.add_zero]
            simp
          simp [msbBits, this]
        have := (hbit ▸ happ1).trans happ'
        have hlist : [code.code.testBit n] ++
            (List.range rem).map (fun j => code.code.testBit (n + 1 + j))
            = (List.range (rem + 1)).map (fun j => code.code.testBit (n + j)) := by
          rw [List.range_succ_eq_map]
          simp only [List.map_cons, List.map_map, List.singleton_append, Nat.add_zero]
          refine congrArg _ ?_
          refine congrArg (fun f => List.map f (List.range rem)) ?_
          funext j
          simp only [Function.comp]
          refine congrArg _ ?_
          omega
        rw [hlist] at this
        exact this
  obtain ⟨p', heq, happ, hro⟩ := main code.n_bits 0 p hwf
  refine ⟨p', heq, ?_, hro⟩
  have : (List.range code.n_bits).map (fun j => code.code.testBit (0 + j)) = codeBits code := by
    rw [codeBits]
    refine congrArg (fun f => List.map f (List.range code.n_bits)) ?_
    funext j
    rw [Nat.zero_add]
  rwa [this] at happ

/-- Appending bit `k` of `x` to its low-`k`-bit prefix gives its
low-`(k+1)`-bit prefix. -/
theorem mod_two_pow_succ_decomp (x k : Nat) :
    (cond (x.testBit k) 1 0) <<< k ||| x % 2 ^ k = x % 2 ^ (k + 1) := by
  apply Nat.eq_of_testBit_eq
  intro i
  rw [Nat.testBit_or, Nat.testBit_shiftLeft, Nat.testBit_mod_two_pow,
    Nat.testBit_mod_two_pow]
  rcases Nat.lt_trichotomy i k with hik | rfl | hik
  · rw [decide_eq_false (by omega : ¬ k ≤ i), decide_eq_true hik,
      decide_eq_true (by omega : i < k + 1)]
    simp
  · rw [decide_eq_true (Nat.le_refl i), decide_eq_false (by omega : ¬ i < i),
      decide_eq_true (by omega : i < i + 1), Nat.sub_self]
    have h0 : (cond (x.testBit i) 1 0).testBit 0 = x.testBit i := by
      cases hb : x.testBit i <;> simp
    rw [h0]
    simp
  · rw [decide_eq_true (by omega : k ≤ i), decide_eq_false (by omega : ¬ i < k),
      decide_eq_false (by omega : ¬ i < k + 1)]
    have h0 : (cond (x.testBit k) 1 0).testBit (i - k) = false := by
      have h2 : cond (x.testBit k) 1 0 < 2 ^ (i - k) := by
        have h3 : 2 ^ 1 ≤ 2 ^ (i - k) := Nat.pow_le_pow_right (by omega) (by omega)
        cases x.testBit k <;> simp <;> omega
      exact Nat.testBit_lt_two_pow h2
    rw [h0]
    simp

/-- `HuffmanDecoder::DecodeLetter` at the start of a letter's code bits:
with a prefix-free table of distinct codes, the loop decodes exactly that
letter and stops right after the code. -/
theorem decodeLetter_spec (s : Stats) (hs : GoodStats s) (letter : Int)
    (code : HuffmanCode) (hmem : (letter, code) ∈ s.huffman_table)
    (p : Package) (pos : Nat)
    (hend : pos + code.n_bits ≤ p.endPos)
    (hbits : ∀ j, j < code.n_bits → p.bitAt (pos + j) = code.code.testBit j) :
    DecodeLetter s p pos = some (letter, pos + code.n_bits) := by
  obtain ⟨hn1, hn64, hlt⟩ := hs.bounds (letter, code) hmem
  set n := code.n_bits with hndef
  have main : ∀ fuel k, k < n → n - k ≤ fuel →
      decodeLetterLoop s p fuel ⟨code.code % 2 ^ k, k⟩ (pos + k)
        = some (letter, pos + n) := by
    intro fuel
    induction fuel with
    | zero => intro k hk hf; omega
    | succ fuel ih =>
      intro k hk hf
      rw [decodeLetterLoop, read_one_bit p (pos + k) (by omega)]
      show (match HuffmanCode.Append ⟨code.code % 2 ^ k, k⟩
          (decide ((cond (p.bitAt (pos + k)) 1 0) ≠ 0)) with
        | none => none
        | some code' =>
          match s.GetLetterFromHuffmanCode code' with
          | some l => some (l, pos + k + 1)
          | none => decodeLetterLoop s p fuel code' (pos + k + 1)) = some (letter, pos + n)
      have hb : decide (cond (p.bitAt (pos + k)) 1 0 ≠ 0) = code.code.testBit k := by
        rw [hbits k hk]
        cases code.code.testBit k <;> simp
      rw [hb]
      have happ : HuffmanCode.Append ⟨code.code % 2 ^ k, k⟩ (code.code.testBit k)
          = some ⟨code.code % 2 ^ (k + 1), k + 1⟩ := by
        rw [HuffmanCode.Append, if_neg (by show ¬ (k + 1 > 64); omega)]
        show some (⟨(cond (code.code.testBit k) 1 0) <<< k ||| code.code % 2 ^ k, k + 1⟩
          : HuffmanCode) = _
        rw [mod_two_pow_succ_decomp]
      rw [happ]
      by_cases hkn : k + 1 = n
      · have hcode : (⟨code.code % 2 ^ (k + 1), k + 1⟩ : HuffmanCode) = code := by
          rw [hkn, Nat.mod_eq_of_lt hlt]
        rw [hcode]
        have hfound : s.GetLetterFromHuffmanCode code = some letter := by
          rw [Stats.GetLetterFromHuffmanCode,
            find_by_code_of_mem _ hs.codes_nodup (letter, code) hmem]
          rfl
        show (match s.GetLetterFromHuffmanCode code with
          | some l => some (l, pos + k + 1)
          | none => decodeLetterLoop s p fuel code (pos + k + 1)) = some (letter, pos + n)
        rw [hfound]
        show some (letter, pos + k + 1) = some (letter, pos + n)
        rw [show pos + k + 1 = pos + n from by omega]
      · have hnone : s.GetLetterFromHuffmanCode ⟨code.code % 2 ^ (k + 1), k + 1⟩
            = none := by
          rw [Stats.GetLetterFromHuffmanCode]
          rcases hf2 : s.huffman_table.find? (fun x =>
              x.2 = ⟨code.code % 2 ^ (k + 1), k + 1⟩) with _ | e
          · rw [hf2]
            rfl
          · have he : e ∈ s.huffman_table := List.mem_of_find?_eq_some hf2
            have hpe : e.2 = ⟨code.code % 2 ^ (k + 1), k + 1⟩ := by
              have := List.find?_some hf2
              simpa using this
            have hne : e ≠ (letter, code) := by
              intro hc
              rw [hc] at hpe
              have h5 : code.n_bits = k + 1 := congrArg HuffmanCode.n_bits hpe
              omega
            have hpp : e.2.ProperPref code := by
              rw [hpe]
              exact ⟨by show k + 1 < code.n_bits; omega, rfl⟩
            exact absurd hpp (hs.pf e he (letter, code) hmem hne)
        show (match s.GetLetterFromHuffmanCode ⟨code.code % 2 ^ (k + 1), k + 1⟩ with
          | some l => some (l, pos + k + 1)
          | none => decodeLetterLoop s p fuel ⟨code.code % 2 ^ (k + 1), k + 1⟩ (pos + k + 1))
          = some (letter, pos + n)
        rw [hnone]
        have h6 := ih (k + 1) (by omega) (by omega)
        show decodeLetterLoop s p fuel ⟨code.code % 2 ^ (k + 1), k + 1⟩ (pos + k + 1)
          = some (letter, pos + n)
        rw [show pos + k + 1 = pos + (k + 1) from by omega]
        exact h6
  have h0 := main 65 0 (by omega) (by omega)
  rw [DecodeLetter]
  have hstart : (⟨code.code % 2 ^ 0, 0⟩ : HuffmanCode) = ⟨0, 0⟩ := by
    rw [pow_zero, Nat.mod_one]
  rw [← hstart, ← Nat.add_zero pos]
  exact h0

/-! ### `DefaultPackageMaker` (the `SinglePixel` format)

`Make` walks the chip's pixel map, writing per pixel its id in
`BitsPerId` bits and its adc in `n_bits_per_adc` bits, with a readout
marker every `n_regions` pixels and after the last pixel.  `Read` parses
`(id, adc)` pairs until the package is exhausted. -/

/-- The value `RegionLayout::GetPixelId` computes for an inside pixel. -/
def pixelIdNat (rl : RegionLayout) (q : Pixel) : Nat :=
  q.row.toNat * rl.n_columns + q.column.toNat

theorem getPixelId_eq (rl : RegionLayout) (q : Pixel)
    (hin : rl.IsPixelInside q = true) :
    rl.GetPixelId q = some (pixelIdNat rl q) := by
  rw [RegionLayout.GetPixelId, if_pos hin, pixelIdNat]

/-- The bits one pixel contributes to a `SinglePixel` package. -/
def defaultGroupBits (rl : RegionLayout) (nbid nbadc : Nat) (e : Pixel × Nat) : List Bool :=
  msbBits (pixelIdNat rl e.1) nbid ++ msbBits e.2 nbadc

/-- The per-pixel loop of `DefaultPackageMaker::Make`. -/
def defaultMakeLoop (ml : MultiRegionLayout) (nbid nbadc nreg total : Nat) :
    List (Pixel × Nat) → Nat → Package → Option Package
  | [], _, p => some p
  | e :: rest, n, p =>
    match (RegionLayout.mk ml.n_rows ml.n_columns).GetPixelId e.1 with
    | none => none
    | some id =>
      match p.write id nbid with
      | none => none
      | some p1 =>
        match p1.write e.2 nbadc with
        | none => none
        | some p2 =>
          defaultMakeLoop ml nbid nbadc nreg total rest (n + 1)
            (if (n + 1) % nreg = 0 ∨ n + 1 = total then p2.nextReadoutCicle else p2)

/-- `DefaultPackageMaker::Make`. -/
def DefaultMake (nbadc : Nat) (c : Chip) : Option Package :=
  defaultMakeLoop c.layout (RegionLayout.mk c.layout.n_rows c.layout.n_columns).BitsPerId
    nbadc c.layout.GetNumberOfRegions c.pixels.length c.pixels 0 Package.empty

/-- The parse loop of `DefaultPackageMaker::Read` (`while iter != end`);
the fuel bounds the iterations (each one consumes at least one bit on the
runs the round-trip statement covers). -/
def defaultReadLoop (ml : MultiRegionLayout) (nbid nbadc : Nat) (p : Package) :
    Nat → Nat → Chip → Option Chip
  | 0, _, _ => none
  | fuel + 1, pos, chip =>
    if pos = p.endPos then some chip
    else
      match p.read pos nbid false with
      | none => none
      | some (id, pos1) =>
        match p.read pos1 nbadc false with
        | none => none
        | some (adc, pos2) =>
          match (RegionLayout.mk ml.n_rows ml.n_columns).GetPixel id with
          | none => none
          | some px =>
            match chip.AddPixel px adc with
            | none => none
            | some chip' => defaultReadLoop ml nbid nbadc p fuel pos2 chip'

/-- `DefaultPackageMaker::Read`. -/
def DefaultRead (nbadc : Nat) (p : Package) (ml : MultiRegionLayout) : Option Chip :=
  defaultReadLoop ml (RegionLayout.mk ml.n_rows ml.n_columns).BitsPerId nbadc p
    (p.endPos + 1) 0 ⟨ml, []⟩

theorem defaultMakeLoop_appends (ml : MultiRegionLayout) (nbid nbadc nreg total : Nat)
    (hnbid : nbid ≤ 64) (hnbadc : nbadc ≤ 64) :
    ∀ (pix : List (Pixel × Nat)) (n : Nat) (p : Package), p.WF →
    (∀ e ∈ pix, (RegionLayout.mk ml.n_rows ml.n_columns).IsPixelInside e.1 = true ∧
      pixelIdNat (RegionLayout.mk ml.n_rows ml.n_columns) e.1 < 2 ^ nbid ∧
      e.2 < 2 ^ nbadc) →
    ∃ pf, defaultMakeLoop ml nbid nbadc nreg total pix n p = some pf ∧
      Appends p ((pix.map
        (defaultGroupBits (RegionLayout.mk ml.n_rows ml.n_columns) nbid nbadc)).flatten) pf := by
  intro pix
  induction pix with
  | nil =>
    intro n p hwf _
    exact ⟨p, rfl, by simpa using Appends.refl_of_wf p hwf⟩
  | cons e rest ih =>
    intro n p hwf hgood
    obtain ⟨hin, hid, hadc⟩ := hgood e (List.mem_cons_self _ _)
    obtain ⟨p1, hw1, ha1, _⟩ := write_appends p _ nbid hwf hnbid hid
    obtain ⟨p2, hw2, ha2, _⟩ := write_appends p1 e.2 nbadc ha1.wf hnbadc hadc
    set p3 := if (n + 1) % nreg = 0 ∨ n + 1 = total then p2.nextReadoutCicle else p2 with hp3
    have ha3 : Appends p (defaultGroupBits (RegionLayout.mk ml.n_rows ml.n_columns)
        nbid nbadc e) p3 := by
      have h12 := ha1.trans ha2
      rw [hp3]
      by_cases hc : (n + 1) % nreg = 0 ∨ n + 1 = total
      · rw [if_pos hc]
        exact h12.readout
      · rw [if_neg hc]
        exact h12
    obtain ⟨pf, hrec, harec⟩ := ih (n + 1) p3 ha3.wf
      (fun f hf => hgood f (List.mem_cons_of_mem _ hf))
    refine ⟨pf, ?_, ?_⟩
    · simp only [defaultMakeLoop, getPixelId_eq _ _ hin, hw1, hw2]
      rw [← hp3]
      exact hrec
    · have := ha3.trans harec
      simpa using this

theorem flatten_length_ge {α : Type} (ls : List (List α))
    (h : ∀ l ∈ ls, 0 < l.length) : ls.length ≤ ls.flatten.length := by
  induction ls with
  | nil => simp
  | cons l rest ih =>
    rw [List.flatten_cons, List.length_append, List.length_cons]
    have h1 := h l (List.mem_cons_self _ _)
    have h2 := ih (fun m hm => h m (List.mem_cons_of_mem _ hm))
    omega

theorem defaultReadLoop_spec (ml : MultiRegionLayout) (nbid nbadc : Nat) (pf : Package)
    (hnbid : nbid ≤ 64) (hnbadc : nbadc ≤ 64) (hcols : 0 < ml.n_columns) :
    ∀ (pix : List (Pixel × Nat)) (fuel pos : Nat) (c0 : Chip), c0.layout = ml →
    pix.length < fuel →
    pos + ((pix.map (defaultGroupBits (RegionLayout.mk ml.n_rows ml.n_columns)
      nbid nbadc)).flatten).length = pf.endPos →
    (∀ j, j < ((pix.map (defaultGroupBits (RegionLayout.mk ml.n_rows ml.n_columns)
        nbid nbadc)).flatten).length →
      pf.bitAt (pos + j) = ((pix.map (defaultGroupBits (RegionLayout.mk ml.n_rows
        ml.n_columns) nbid nbadc)).flatten).getD j false) →
    (∀ e ∈ pix, (RegionLayout.mk ml.n_rows ml.n_columns).IsPixelInside e.1 = true ∧
      e.1.row < 32768 ∧ e.1.column < 32768 ∧
      pixelIdNat (RegionLayout.mk ml.n_rows ml.n_columns) e.1 < 2 ^ nbid ∧
      1 ≤ e.2 ∧ e.2 < 2 ^ nbadc) →
    (∀ e ∈ pix, c0.pixels.find? (fun x => x.1 = e.1) = none) →
    (pix.map Prod.fst).Nodup →
    defaultReadLoop ml nbid nbadc pf fuel pos c0 = some ⟨ml, c0.pixels ++ pix⟩ := by
  intro pix
  induction pix with
  | nil =>
    intro fuel pos c0 hc0 hfuel hlen _ _ _ _
    obtain ⟨fuel, rfl⟩ : ∃ f, fuel = f + 1 := ⟨fuel - 1, by omega⟩
    rw [defaultReadLoop, if_pos (by simpa using hlen)]
    rw [List.append_nil, ← hc0]
  | cons e rest ih =>
    intro fuel pos c0 hc0 hfuel hlen hbits hgood hfresh hnodup
    obtain ⟨fuel, rfl⟩ : ∃ f, fuel = f + 1 := ⟨fuel - 1, by omega⟩
    obtain ⟨hin, hrow, hcol, hid, hadc1, hadc2⟩ := e.1 |> fun _ => hgood e (List.mem_cons_self _ _)
    have hnbadc1 : 0 < nbadc := by
      by_contra hz
      have : nbadc = 0 := by omega
      rw [this] at hadc2
      simp at hadc2
      omega
    set rl := RegionLayout.mk ml.n_rows ml.n_columns with hrl
    set G := defaultGroupBits rl nbid nbadc e with hG
    set L := ((rest.map (defaultGroupBits rl nbid nbadc)).flatten) with hL
    have hsplit : ((e :: rest).map (defaultGroupBits rl nbid nbadc)).flatten = G ++ L := by
      rw [List.map_cons, List.flatten_cons]
    rw [hsplit] at hlen hbits
    have hGlen : G.length = nbid + nbadc := by
      rw [hG, defaultGroupBits, List.length_append, msbBits_length, msbBits_length]
    have hpos_ne : pos ≠ pf.endPos := by
      rw [List.length_append] at hlen
      omega
    rw [defaultReadLoop, if_neg hpos_ne]
    have hbitsG : ∀ j, j < G.length → pf.bitAt (pos + j) = G.getD j false := by
      intro j hj
      rw [hbits j (by rw [List.length_append]; omega), List.getD_append _ _ _ _ hj]
    have hbits_id : ∀ j, j < nbid →
        pf.bitAt (pos + j) = (msbBits (pixelIdNat rl e.1) nbid).getD j false := by
      intro j hj
      rw [hbitsG j (by omega), hG, defaultGroupBits,
        List.getD_append _ _ _ _ (by rw [msbBits_length]; omega)]
    have hbits_adc : ∀ j, j < nbadc →
        pf.bitAt (pos + nbid + j) = (msbBits e.2 nbadc).getD j false := by
      intro j hj
      have h1 := hbitsG (nbid + j) (by omega)
      rw [hG, defaultGroupBits, List.getD_append_right _ _ _ _ (by rw [msbBits_length]; omega)]
        at h1
      rw [msbBits_length] at h1
      rw [show pos + nbid + j = pos + (nbid + j) from by omega, h1,
        show nbid + j - nbid = j from by omega]
    have hread1 : pf.read pos nbid false = some (pixelIdNat rl e.1, pos + nbid) :=
      read_msb_field pf pos _ nbid hnbid
        (by rw [List.length_append] at hlen; omega) hid hbits_id
    have hread2 : pf.read (pos + nbid) nbadc false = some (e.2, pos + nbid + nbadc) :=
      read_msb_field pf (pos + nbid) _ nbadc hnbadc
        (by rw [List.length_append] at hlen; omega) hadc2 hbits_adc
    obtain ⟨id', hid'eq, _, hgp⟩ := getPixel_getPixelId rl e.1 hcols hrow hcol hin
    have hid'v : id' = pixelIdNat rl e.1 := by
      rw [getPixelId_eq _ _ hin] at hid'eq
      exact (Option.some_inj.mp hid'eq).symm
    rw [hid'v] at hgp
    have hadd : c0.AddPixel e.1 e.2 = some ⟨c0.layout, c0.pixels ++ [(e.1, e.2)]⟩ :=
      addPixel_some c0 e.1 e.2 (by rw [hc0]; exact hin)
        (hfresh e (List.mem_cons_self _ _))
    simp only [hread1, hread2, hgp, hadd]
    have hrec := ih fuel (pos + nbid + nbadc) ⟨c0.layout, c0.pixels ++ [(e.1, e.2)]⟩
      hc0 (by simpa using hfuel)
      (by rw [List.length_append, hGlen] at hlen; omega)
      (by
        intro j hj
        have h2 := hbits (G.length + j) (by rw [List.length_append]; omega)
        rw [List.getD_append_right _ _ _ _ (by omega)] at h2
        rw [show pos + nbid + nbadc + j = pos + (G.length + j) from by rw [hGlen]; omega, h2,
          show G.length + j - G.length = j from by omega])
      (fun f hf => hgood f (List.mem_cons_of_mem _ hf))
      (by
        intro f hf
        rw [List.find?_append, hfresh f (List.mem_cons_of_mem _ hf), Option.none_or]
        rw [List.find?_eq_none]
        intro x hx
        rw [List.mem_singleton] at hx
        subst hx
        rw [List.map_cons, List.nodup_cons] at hnodup
        simp only [decide_eq_true_eq]
        intro hc
        exact hnodup.1 (hc ▸ List.mem_map.mpr ⟨f, hf, rfl⟩))
      (by rw [List.map_cons, List.nodup_cons] at hnodup; exact hnodup.2)
    rw [hrec]
    refine congrArg some ?_
    rw [Chip.mk.injEq]
    exact ⟨rfl, by rw [List.append_assoc, List.singleton_append]⟩

theorem empty_wf : Package.WF Package.empty :=
  Package.wf_of_check Package.empty (by decide)

/-- Round trip of the `SinglePixel` codec: encoding a valid chip and
parsing the package back restores the pixel map exactly. -/
theorem default_roundtrip (c : Chip) (nbadc : Nat)
    (hwfl : c.layout.WF) (hnr : c.layout.n_rows ≤ 32768) (hnc : c.layout.n_columns ≤ 32768)
    (hnbadc : nbadc ≤ 64)
    (hgood : ∀ e ∈ c.pixels,
      (RegionLayout.mk c.layout.n_rows c.layout.n_columns).IsPixelInside e.1 = true ∧
      1 ≤ e.2 ∧ e.2 < 2 ^ nbadc)
    (hnodup : (c.pixels.map Prod.fst).Nodup) :
    ∃ pf, DefaultMake nbadc c = some pf ∧
      DefaultRead nbadc pf c.layout = some ⟨c.layout, c.pixels⟩ := by
  set ml := c.layout with hml
  set rl := RegionLayout.mk ml.n_rows ml.n_columns with hrl
  set nbid := rl.BitsPerId with hnbid_def
  have hnbid : nbid ≤ 64 := BitsPerValue_le_64 _
  have hN : rl.GetNumberOfPixels ≤ 2 ^ nbid := by
    refine le_two_pow_BitsPerValue _ ?_
    rw [RegionLayout.GetNumberOfPixels]
    calc rl.n_rows * rl.n_columns ≤ 32768 * 32768 := Nat.mul_le_mul hnr hnc
      _ ≤ 2 ^ 64 := by norm_num
  have hid_lt : ∀ e ∈ c.pixels, pixelIdNat rl e.1 < 2 ^ nbid := by
    intro e he
    obtain ⟨hin, _, _⟩ := hgood e he
    obtain ⟨id', hid'eq, hid'N, _⟩ := getPixel_getPixelId rl e.1 hwfl.nc_pos
      (by
        have := hin
        simp only [RegionLayout.IsPixelInside, Bool.and_eq_true, decide_eq_true_eq] at this
        omega)
      (by
        have := hin
        simp only [RegionLayout.IsPixelInside, Bool.and_eq_true, decide_eq_true_eq] at this
        omega) hin
    rw [getPixelId_eq _ _ hin] at hid'eq
    have : id' = pixelIdNat rl e.1 := (Option.some_inj.mp hid'eq).symm
    omega
  obtain ⟨pf, hmk, happ⟩ := defaultMakeLoop_appends ml nbid nbadc ml.GetNumberOfRegions
    c.pixels.length hnbid hnbadc c.pixels 0 Package.empty empty_wf
    (fun e he => ⟨(hgood e he).1, hid_lt e he, (hgood e he).2.2⟩)
  set L := ((c.pixels.map (defaultGroupBits rl nbid nbadc)).flatten) with hLdef
  have hend : pf.endPos = L.length := by
    have := happ.end_eq
    simpa [Package.empty] using this
  have hbit : ∀ j, j < L.length → pf.bitAt j = L.getD j false := by
    intro j hj
    have := happ.new j hj
    simpa [Package.empty] using this
  refine ⟨pf, hmk, ?_⟩
  rw [DefaultRead]
  have hlen_le : c.pixels.length ≤ L.length := by
    have hfl := flatten_length_ge (c.pixels.map (defaultGroupBits rl nbid nbadc)) ?_
    · rwa [List.length_map] at hfl
    intro l hl
    rcases List.mem_map.mp hl with ⟨e, he, rfl⟩
    obtain ⟨_, h1, h2⟩ := hgood e he
    have : 0 < nbadc := by
      by_contra hz
      have h3 : nbadc = 0 := by omega
      rw [h3] at h2
      simp at h2
      omega
    rw [defaultGroupBits, List.length_append, msbBits_length, msbBits_length]
    omega
  have hread := defaultReadLoop_spec ml nbid nbadc pf hnbid hnbadc hwfl.nc_pos
    c.pixels (pf.endPos + 1) 0 ⟨ml, []⟩ rfl (by omega)
    (by rw [hend, hLdef, hrl]; omega)
    (by intro j hj; simpa using hbit j hj)
    (by
      intro e he
      obtain ⟨hin, h1, h2⟩ := hgood e he
      have hins := hin
      simp only [RegionLayout.IsPixelInside, Bool.and_eq_true, decide_eq_true_eq] at hins
      exact ⟨hin, by omega, by omega, hid_lt e he, h1, h2⟩)
    (by intro e _; rfl)
    hnodup
  rw [hread]
  rfl

/-! ### `BlockPackageMaker` (the `Region` and `RegionWithCompressedAdc` formats)

`Make` splits every active macro region by the readout-unit layout,
queues its active readout regions, and emits them round-robin (one region
per macro region per pass, a readout marker after each pass): per region
a `full_region_id` header, then every cell of the readout unit in
row-major order — the cell's adc as `n_bits_per_adc` raw bits
(`block_raw`) or as a Huffman letter from the `Adc` alphabet
(`block_encoded`); absent cells write adc 0.  `Read` parses headers and
rasters until the package is exhausted, materialising a pixel for every
non-zero adc. -/

def GetFullRegionId (macro_region_id region_id n_macro_regions : Nat) : Nat :=
  region_id * n_macro_regions + macro_region_id

/-- `BlockPackageMaker::SplitFullRegionId`:
`(macro_region_id, region_id)`. -/
def SplitFullRegionId (full n_mcr : Nat) : Nat × Nat :=
  (full % n_mcr, (full - full % n_mcr) / n_mcr)

/-- The multi-region layout of one macro region split by the readout
unit (`PixelMultiRegion(chip.GetRegion(id), readout_unit_layout)`). -/
def areaLayout (c : Chip) (ru : RegionLayout) : Option MultiRegionLayout :=
  MultiRegionLayout.ofRegion c.regionLayoutAsRegion.n_rows c.regionLayoutAsRegion.n_columns ru

/-- The row-major raster coordinates of a readout unit. -/
def rasterCoords (ru : RegionLayout) : List (Nat × Nat) :=
  ((List.range ru.n_rows).map (fun r =>
    (List.range ru.n_columns).map (fun col => (r, col)))).flatten

/-- The adcs of all readout-unit cells in row-major order
(`region.GetAdc(row, column)`, with the `size_t` indices narrowed to the
pixel coordinate type; absent cells give 0). -/
def cellAdcs (ru : RegionLayout) (rpix : List (Pixel × Nat)) : List Nat :=
  (rasterCoords ru).map (fun rc => getAdc rpix ⟨int16 rc.1, int16 rc.2⟩)

/-- One cell's adc: Huffman-encoded against the `Adc` statistics
(`block_encoded`) or written raw (`block_raw`). -/
def writeCells (adc_stat : Option Stats) (nbadc : Nat) :
    List Nat → Package → Option Package
  | [], p => some p
  | v :: rest, p =>
    match (match adc_stat with
           | some st => EncodeLetter st (Int.ofNat v) p
           | none => p.write v nbadc) with
    | none => none
    | some p' => writeCells adc_stat nbadc rest p'

/-- One readout-region group: the `full_region_id` header then the cells. -/
def writeGroup (adc_stat : Option Stats) (nbaddr nbadc n_mcr : Nat) (m : Nat)
    (g : Nat × List Nat) (p : Package) : Option Package :=
  match p.write (GetFullRegionId m g.1 n_mcr) nbaddr with
  | none => none
  | some p1 => writeCells adc_stat nbadc g.2 p1

/-- One pass of the emit loop: write the front region of every queued
macro region, in queue order.  The source dereferences the front of each
per-macro list, so an empty one is undefined behaviour (`none`). -/
def blockPass (adc_stat : Option Stats) (nbaddr nbadc n_mcr : Nat) :
    List (Nat × List (Nat × List Nat)) → Package → Option Package
  | [], p => some p
  | (_, []) :: _, _ => none
  | (m, g :: _) :: rest, p =>
    match writeGroup adc_stat nbaddr nbadc n_mcr m g p with
    | none => none
    | some p' => blockPass adc_stat nbaddr nbadc n_mcr rest p'

/-- After a pass, each queue drops the emitted front region and emptied
macro regions leave the list. -/
def dropHeads (qs : List (Nat × List (Nat × List Nat))) :
    List (Nat × List (Nat × List Nat)) :=
  qs.filterMap (fun e => if e.2.length ≤ 1 then none else some (e.1, e.2.drop 1))

/-- The `while(region_pixels.size())` loop: one pass, then a readout
marker, until the queues are empty; the fuel bounds the passes. -/
def blockLoop (adc_stat : Option Stats) (nbaddr nbadc n_mcr : Nat) :
    Nat → List (Nat × List (Nat × List Nat)) → Package → Option Package
  | _, [], p => some p
  | 0, _ :: _, _ => none
  | fuel + 1, qs, p =>
    match blockPass adc_stat nbaddr nbadc n_mcr qs p with
    | none => none
    | some p' => blockLoop adc_stat nbaddr nbadc n_mcr fuel (dropHeads qs) p'.nextReadoutCicle

/-- The queued groups of one macro region: its active readout regions in
ascending id order, each with its raster adcs. -/
def macroGroups (al : MultiRegionLayout) (ru : RegionLayout) (mpix : List (Pixel × Nat)) :
    List (Nat × List Nat) :=
  (List.range al.GetNumberOfRegions).filterMap (fun rid =>
    if (Chip.mk al mpix).IsRegionActive rid then
      some (rid, cellAdcs ru ((Chip.mk al mpix).GetRegionPixels rid))
    else none)

/-- `BlockPackageMaker::Make` (with `adc_stat` present exactly for
`block_encoded`). -/
def BlockMake (adc_stat : Option Stats) (ru : RegionLayout) (nbadc : Nat) (c : Chip) :
    Option Package :=
  match areaLayout c ru with
  | none => none
  | some al =>
    let n_mcr := c.layout.GetNumberOfRegions
    let queues := (List.range n_mcr).filterMap (fun m =>
      if c.IsRegionActive m then
        let gs := macroGroups al ru (c.GetRegionPixels m)
        if gs.isEmpty then none else some (m, gs)
      else none)
    let n_regions := if (List.range n_mcr).any (fun m => c.IsRegionActive m)
      then al.GetNumberOfRegions else 0
    let nbaddr := RegionLayout.BitsPerValue (n_regions * n_mcr)
    blockLoop adc_stat nbaddr nbadc n_mcr
      ((queues.map (fun e => e.2.length)).sum + 1) queues Package.empty

/-- `int` → `Adc` (`uint16_t`) conversion on the decoded letter. -/
def uint16 (i : Int) : Nat := (i % (65536 : Int)).toNat

/-- Read one cell's adc: `DecodeLetter` or a raw read, in either case
narrowed to `Adc`. -/
def readCell (adc_stat : Option Stats) (nbadc : Nat) (p : Package) (pos : Nat) :
    Option (Nat × Nat) :=
  match adc_stat with
  | some st =>
    match DecodeLetter st p pos with
    | none => none
    | some (letter, pos') => some (uint16 letter, pos')
  | none =>
    match p.read pos nbadc false with
    | none => none
    | some (v, pos') => some (uint16 (Int.ofNat v), pos')

/-- The decoded pixels one readout region contributes, in raster order:
every non-zero cell, converted back to a chip pixel through the area and
chip layouts. -/
def cellAdds (al ml : MultiRegionLayout) (m rid : Nat) :
    List (Nat × Nat) → List Nat → List (Pixel × Nat)
  | [], _ => []
  | _ :: _, [] => []
  | rc :: rcs, v :: vs =>
    if v = 0 then cellAdds al ml m rid rcs vs
    else (ml.ConvertFromRegionPixel m
        (al.ConvertFromRegionPixel rid ⟨int16 rc.1, int16 rc.2⟩), v)
      :: cellAdds al ml m rid rcs vs

/-- The cell loop of `BlockPackageMaker::Read` for one region: read each
raster cell, materialise a pixel when the adc is non-zero. -/
def readCellsLoop (adc_stat : Option Stats) (nbadc : Nat) (al ml : MultiRegionLayout)
    (m rid : Nat) (p : Package) :
    List (Nat × Nat) → Nat → Chip → Option (Nat × Chip)
  | [], pos, chip => some (pos, chip)
  | rc :: rcs, pos, chip =>
    match readCell adc_stat nbadc p pos with
    | none => none
    | some (adc, pos1) =>
      if adc = 0 then readCellsLoop adc_stat nbadc al ml m rid p rcs pos1 chip
      else
        match chip.AddPixel (ml.ConvertFromRegionPixel m
            (al.ConvertFromRegionPixel rid ⟨int16 rc.1, int16 rc.2⟩)) adc with
        | none => none
        | some chip' => readCellsLoop adc_stat nbadc al ml m rid p rcs pos1 chip'

/-- The group loop of `BlockPackageMaker::Read` (`while iter != end`). -/
def blockReadLoop (adc_stat : Option Stats) (nbaddr nbadc : Nat)
    (al ml : MultiRegionLayout) (ru : RegionLayout) (n_mcr : Nat) (p : Package) :
    Nat → Nat → Chip → Option Chip
  | 0, _, _ => none
  | fuel + 1, pos, chip =>
    if pos = p.endPos then some chip
    else
      match p.read pos nbaddr false with
      | none => none
      | some (full, pos1) =>
        match readCellsLoop adc_stat nbadc al ml (SplitFullRegionId full n_mcr).1
            (SplitFullRegionId full n_mcr).2 p (rasterCoords ru) pos1 chip with
        | none => none
        | some (pos2, chip') =>
          blockReadLoop adc_stat nbaddr nbadc al ml ru n_mcr p fuel pos2 chip'

/-- `BlockPackageMaker::Read`. -/
def BlockRead (adc_stat : Option Stats) (ru : RegionLayout) (nbadc : Nat)
    (p : Package) (ml : MultiRegionLayout) : Option Chip :=
  match MultiRegionLayout.ofRegion ml.region_layout.n_rows ml.region_layout.n_columns ru with
  | none => none
  | some al =>
    blockReadLoop adc_stat
      (RegionLayout.BitsPerValue (al.GetNumberOfRegions * ml.GetNumberOfRegions)) nbadc
      al ml ru ml.GetNumberOfRegions p (p.endPos + 1) 0 ⟨ml, []⟩

/-- The bits one cell's adc contributes. -/
def adcBits (adc_stat : Option Stats) (nbadc : Nat) (v : Nat) : List Bool :=
  match adc_stat with
  | some st =>
    match st.GetHuffmanCode (Int.ofNat v) with
    | some code => codeBits code
    | none => []
  | none => msbBits v nbadc

/-- What makes one cell encodable: a table entry for the letter
(`block_encoded`) or fitting the raw field (`block_raw`). -/
def CellOk (adc_stat : Option Stats) (nbadc : Nat) (v : Nat) : Prop :=
  match adc_stat with
  | some st => Int.ofNat v ∈ st.alphabet ∧ ∃ code, (Int.ofNat v, code) ∈ st.huffman_table
  | none => v < 2 ^ nbadc

/-- The bits one readout-region group contributes. -/
def blockGroupBits (adc_stat : Option Stats) (nbaddr nbadc n_mcr m : Nat)
    (g : Nat × List Nat) : List Bool :=
  msbBits (GetFullRegionId m g.1 n_mcr) nbaddr ++ (g.2.map (adcBits adc_stat nbadc)).flatten

/-- The round-robin order of the queue loop: the front group of every
queued macro region, then recurse on the rest. -/
def rrJoin : Nat → List (Nat × List (Nat × List Nat)) → List (Nat × (Nat × List Nat))
  | 0, _ => []
  | _ + 1, [] => []
  | fuel + 1, qs =>
    qs.filterMap (fun e => e.2.head?.map (fun g => (e.1, g))) ++ rrJoin fuel (dropHeads qs)

theorem writeCells_appends (adc_stat : Option Stats) (nbadc : Nat) (hnbadc : nbadc ≤ 64)
    (hstat : ∀ st, adc_stat = some st → GoodStats st) :
    ∀ (cells : List Nat) (p : Package), p.WF →
    (∀ v ∈ cells, CellOk adc_stat nbadc v) →
    ∃ p', writeCells adc_stat nbadc cells p = some p' ∧
      Appends p ((cells.map (adcBits adc_stat nbadc)).flatten) p' := by
  intro cells
  induction cells with
  | nil =>
    intro p hwf _
    exact ⟨p, rfl, by simpa using Appends.refl_of_wf p hwf⟩
  | cons v rest ih =>
    intro p hwf hok
    have hv := hok v (List.mem_cons_self _ _)
    have hstep : ∃ p1, (match adc_stat with
        | some st => EncodeLetter st (Int.ofNat v) p
        | none => p.write v nbadc) = some p1 ∧
        Appends p (adcBits adc_stat nbadc v) p1 := by
      match adc_stat with
      | some st =>
        rw [CellOk] at hv
        obtain ⟨hab, code, hcode⟩ := hv
        obtain ⟨p1, heq, happ, _⟩ :=
          encodeLetter_appends st (hstat st rfl) (Int.ofNat v) code hcode hab p hwf
        refine ⟨p1, heq, ?_⟩
        have hget : st.GetHuffmanCode (Int.ofNat v) = some code := by
          rw [Stats.GetHuffmanCode, if_pos hab,
            find_assoc_of_mem _ (hstat st rfl).keys_nodup (Int.ofNat v, code) hcode]
          rfl
        rw [adcBits, hget]
        exact happ
      | none =>
        rw [CellOk] at hv
        obtain ⟨p1, heq, happ, _⟩ := write_appends p v nbadc hwf hnbadc hv
        exact ⟨p1, heq, by rw [adcBits]; exact happ⟩
    obtain ⟨p1, heq1, happ1⟩ := hstep
    obtain ⟨p', heq', happ'⟩ := ih p1 happ1.wf (fun w hw => hok w (List.mem_cons_of_mem _ hw))
    refine ⟨p', ?_, ?_⟩
    · show (match (match adc_stat with
          | some st => EncodeLetter st (Int.ofNat v) p
          | none => p.write v nbadc) with
        | none => none
        | some p1 => writeCells adc_stat nbadc rest p1) = some p'
      rw [heq1]
      exact heq'
    · have := happ1.trans happ'
      simpa using this

theorem writeGroup_appends (adc_stat : Option Stats) (nbaddr nbadc n_mcr : Nat)
    (hnbaddr : nbaddr ≤ 64) (hnbadc : nbadc ≤ 64)
    (hstat : ∀ st, adc_stat = some st → GoodStats st)
    (m : Nat) (g : Nat × List Nat) (p : Package) (hwf : p.WF)
    (hfull : GetFullRegionId m g.1 n_mcr < 2 ^ nbaddr)
    (hok : ∀ v ∈ g.2, CellOk adc_stat nbadc v) :
    ∃ p', writeGroup adc_stat nbaddr nbadc n_mcr m g p = some p' ∧
      Appends p (blockGroupBits adc_stat nbaddr nbadc n_mcr m g) p' := by
  obtain ⟨p1, heq1, happ1, _⟩ := write_appends p _ nbaddr hwf hnbaddr hfull
  obtain ⟨p', heq', happ'⟩ := writeCells_appends adc_stat nbadc hnbadc hstat g.2 p1 happ1.wf hok
  refine ⟨p', ?_, ?_⟩
  · rw [writeGroup, heq1]
    exact heq'
  · rw [blockGroupBits]
    exact happ1.trans happ'

theorem blockPass_appends (adc_stat : Option Stats) (nbaddr nbadc n_mcr : Nat)
    (hnbaddr : nbaddr ≤ 64) (hnbadc : nbadc ≤ 64)
    (hstat : ∀ st, adc_stat = some st → GoodStats st) :
    ∀ (qs : List (Nat × List (Nat × List Nat))) (p : Package), p.WF →
    (∀ e ∈ qs, e.2 ≠ []) →
    (∀ e ∈ qs, ∀ g ∈ e.2, GetFullRegionId e.1 g.1 n_mcr < 2 ^ nbaddr ∧
      ∀ v ∈ g.2, CellOk adc_stat nbadc v) →
    ∃ p', blockPass adc_stat nbaddr nbadc n_mcr qs p = some p' ∧
      Appends p (((qs.filterMap (fun e => e.2.head?.map (fun g => (e.1, g)))).map
        (fun x => blockGroupBits adc_stat nbaddr nbadc n_mcr x.1 x.2)).flatten) p' := by
  intro qs
  induction qs with
  | nil =>
    intro p hwf _ _
    exact ⟨p, rfl, by simpa using Appends.refl_of_wf p hwf⟩
  | cons e rest ih =>
    intro p hwf hne hok
    obtain ⟨m, gs⟩ := e
    match gs with
    | [] => exact absurd rfl (hne (m, []) (List.mem_cons_self _ _))
    | g :: gs' =>
      obtain ⟨hfull, hcells⟩ := hok (m, g :: gs') (List.mem_cons_self _ _) g
        (List.mem_cons_self _ _)
      obtain ⟨p1, heq1, happ1⟩ := writeGroup_appends adc_stat nbaddr nbadc n_mcr
        hnbaddr hnbadc hstat m g p hwf hfull hcells
      obtain ⟨p', heq', happ'⟩ := ih p1 happ1.wf
        (fun f hf => hne f (List.mem_cons_of_mem _ hf))
        (fun f hf => hok f (List.mem_cons_of_mem _ hf))
      refine ⟨p', ?_, ?_⟩
      · rw [blockPass, heq1]
        exact heq'
      · have := happ1.trans happ'
        simpa using this

theorem dropHeads_ne_nil (qs : List (Nat × List (Nat × List Nat))) :
    ∀ e ∈ dropHeads qs, e.2 ≠ [] := by
  intro e he
  rw [dropHeads] at he
  rcases List.mem_filterMap.mp he with ⟨f, _, hf⟩
  by_cases hc : f.2.length ≤ 1
  · rw [if_pos hc] at hf
    exact absurd hf (by simp)
  · rw [if_neg hc] at hf
    have : e.2 = f.2.drop 1 := by rw [← Option.some_inj.mp hf]
    rw [this]
    intro hnil
    have := congrArg List.length hnil
    rw [List.length_drop] at this
    simp at this
    omega

theorem dropHeads_mem (qs : List (Nat × List (Nat × List Nat))) :
    ∀ e ∈ dropHeads qs, ∀ g ∈ e.2, ∃ f ∈ qs, e.1 = f.1 ∧ g ∈ f.2 := by
  intro e he g hg
  rw [dropHeads] at he
  rcases List.mem_filterMap.mp he with ⟨f, hfq, hf⟩
  by_cases hc : f.2.length ≤ 1
  · rw [if_pos hc] at hf
    exact absurd hf (by simp)
  · rw [if_neg hc] at hf
    have he2 : e = (f.1, f.2.drop 1) := (Option.some_inj.mp hf).symm
    refine ⟨f, hfq, by rw [he2], ?_⟩
    have : g ∈ f.2.drop 1 := by rw [he2] at hg; exact hg
    exact List.mem_of_mem_drop this

theorem dropHeads_sum_le (qs : List (Nat × List (Nat × List Nat))) :
    ((dropHeads qs).map (fun e => e.2.length)).sum ≤ (qs.map (fun e => e.2.length)).sum := by
  induction qs with
  | nil => simp [dropHeads]
  | cons e rest ih =>
    rw [dropHeads, List.filterMap_cons]
    by_cases hc : e.2.length ≤ 1
    · rw [if_pos hc]
      rw [dropHeads] at ih
      simp only [List.map_cons, List.sum_cons]
      omega
    · rw [if_neg hc]
      rw [dropHeads] at ih
      simp only [List.map_cons, List.sum_cons, List.length_drop]
      omega

theorem dropHeads_sum_lt (qs : List (Nat × List (Nat × List Nat)))
    (hne : ∀ e ∈ qs, e.2 ≠ []) (h0 : qs ≠ []) :
    ((dropHeads qs).map (fun e => e.2.length)).sum < (qs.map (fun e => e.2.length)).sum := by
  match qs with
  | [] => exact absurd rfl h0
  | e :: rest =>
    rw [dropHeads, List.filterMap_cons]
    have hlen : 0 < e.2.length := by
      have := hne e (List.mem_cons_self _ _)
      cases h : e.2 with
      | nil => exact absurd h this
      | cons a l => simp
    have hrest := dropHeads_sum_le rest
    rw [dropHeads] at hrest
    by_cases hc : e.2.length ≤ 1
    · rw [if_pos hc]
      simp only [List.map_cons, List.sum_cons]
      omega
    · rw [if_neg hc]
      simp only [List.map_cons, List.sum_cons, List.length_drop]
      omega

theorem blockLoop_appends (adc_stat : Option Stats) (nbaddr nbadc n_mcr : Nat)
    (hnbaddr : nbaddr ≤ 64) (hnbadc : nbadc ≤ 64)
    (hstat : ∀ st, adc_stat = some st → GoodStats st) :
    ∀ (fuel : Nat) (qs : List (Nat × List (Nat × List Nat))) (p : Package), p.WF →
    (∀ e ∈ qs, e.2 ≠ []) →
    (qs.map (fun e => e.2.length)).sum ≤ fuel →
    (∀ e ∈ qs, ∀ g ∈ e.2, GetFullRegionId e.1 g.1 n_mcr < 2 ^ nbaddr ∧
      ∀ v ∈ g.2, CellOk adc_stat nbadc v) →
    ∃ pf, blockLoop adc_stat nbaddr nbadc n_mcr fuel qs p = some pf ∧
      Appends p (((rrJoin fuel qs).map
        (fun x => blockGroupBits adc_stat nbaddr nbadc n_mcr x.1 x.2)).flatten) pf := by
  intro fuel
  induction fuel with
  | zero =>
    intro qs p hwf hne hfuel hok
    match qs with
    | [] => exact ⟨p, rfl, by simpa [rrJoin] using Appends.refl_of_wf p hwf⟩
    | e :: rest =>
      have h1 : 0 < e.2.length := by
        have := hne e (List.mem_cons_self _ _)
        cases h : e.2 with
        | nil => exact absurd h this
        | cons a l => simp
      simp only [List.map_cons, List.sum_cons] at hfuel
      omega
  | succ fuel ih =>
    intro qs p hwf hne hfuel hok
    match qs with
    | [] => exact ⟨p, rfl, by simpa [rrJoin] using Appends.refl_of_wf p hwf⟩
    | e :: rest =>
      obtain ⟨p1, heq1, happ1⟩ := blockPass_appends adc_stat nbaddr nbadc n_mcr
        hnbaddr hnbadc hstat (e :: rest) p hwf hne hok
      have hsum1 : ((dropHeads (e :: rest)).map (fun f => f.2.length)).sum ≤ fuel := by
        have := dropHeads_sum_lt (e :: rest) hne (by simp)
        omega
      obtain ⟨pf, heqf, happf⟩ := ih (dropHeads (e :: rest)) p1.nextReadoutCicle
        (by
          have hwf1 := happ1.wf
          exact ⟨hwf1.len, hwf1.bytes, hwf1.trail⟩)
        (dropHeads_ne_nil _) hsum1
        (by
          intro f hf g hg
          obtain ⟨f0, hf0, he1, hg0⟩ := dropHeads_mem _ f hf g hg
          rw [he1]
          exact hok f0 hf0 g hg0)
      refine ⟨pf, ?_, ?_⟩
      · show (match blockPass adc_stat nbaddr nbadc n_mcr (e :: rest) p with
          | none => none
          | some p' => blockLoop adc_stat nbaddr nbadc n_mcr fuel
              (dropHeads (e :: rest)) p'.nextReadoutCicle) = some pf
        rw [heq1]
        exact heqf
      · have hm : Appends p1 (((rrJoin fuel (dropHeads (e :: rest))).map
            (fun x => blockGroupBits adc_stat nbaddr nbadc n_mcr x.1 x.2)).flatten)
            pf := by
          refine ⟨happf.wf, ?_, ?_, ?_⟩
          · have := happf.end_eq
            simpa [Package.nextReadoutCicle] using this
          · intro i hi
            have := happf.pres i (by simpa [Package.nextReadoutCicle] using hi)
            simpa [Package.nextReadoutCicle, Package.bitAt] using this
          · intro j hj
            have := happf.new j hj
            simpa [Package.nextReadoutCicle, Package.bitAt] using this
        have := happ1.trans hm
        have hrr : rrJoin (fuel + 1) (e :: rest)
            = ((e :: rest).filterMap (fun f => f.2.head?.map (fun g => (f.1, g)))) ++
              rrJoin fuel (dropHeads (e :: rest)) := rfl
        rw [hrr, List.map_append, List.flatten_append]
        exact this

theorem dropHeads_cons (m : Nat) (g : Nat × List Nat) (gs' : List (Nat × List Nat))
    (rest : List (Nat × List (Nat × List Nat))) :
    dropHeads ((m, g :: gs') :: rest)
      = if gs' = [] then dropHeads rest else (m, gs') :: dropHeads rest := by
  have hdh : dropHeads ((m, g :: gs') :: rest)
      = List.filterMap (fun e => if e.2.length ≤ 1 then none else some (e.1, e.2.drop 1))
        ((m, g :: gs') :: rest) := rfl
  rw [hdh, List.filterMap_cons]
  by_cases hg : gs' = []
  · subst hg
    rw [if_pos rfl]
    rfl
  · rw [if_neg hg]
    have hc : ¬ ((g :: gs' : List (Nat × List Nat)).length ≤ 1) := by
      simp only [List.length_cons]
      have h0 : gs'.length ≠ 0 := fun h => hg (List.length_eq_zero.mp h)
      omega
    simp only [List.length_cons] at hc ⊢
    rw [if_neg hc]
    rfl

theorem flatMap_shuffle (qs : List (Nat × List (Nat × List Nat)))
    (hne : ∀ e ∈ qs, e.2 ≠ []) :
    ((qs.map (fun e => e.2.map (fun g => (e.1, g)))).flatten).Perm
      ((qs.filterMap (fun e => e.2.head?.map (fun g => (e.1, g)))) ++
        ((dropHeads qs).map (fun e => e.2.map (fun g => (e.1, g)))).flatten) := by
  induction qs with
  | nil => simp [dropHeads]
  | cons e rest ih =>
    obtain ⟨m, gs⟩ := e
    match gs with
    | [] => exact absurd rfl (hne (m, []) (List.mem_cons_self _ _))
    | g :: gs' =>
      have ih' := ih (fun f hf => hne f (List.mem_cons_of_mem _ hf))
      rw [dropHeads_cons]
      by_cases hg : gs' = []
      · subst hg
        rw [if_pos rfl]
        show ((m, g) :: (rest.map (fun e => e.2.map (fun g => (e.1, g)))).flatten).Perm
          ((m, g) :: (rest.filterMap (fun e => e.2.head?.map (fun g => (e.1, g))) ++
            ((dropHeads rest).map (fun e => e.2.map (fun g => (e.1, g)))).flatten))
        exact ih'.cons _
      · rw [if_neg hg]
        show ((m, g) :: (gs'.map (fun g => (m, g)) ++
            (rest.map (fun e => e.2.map (fun g => (e.1, g)))).flatten)).Perm
          ((m, g) :: (rest.filterMap (fun e => e.2.head?.map (fun g => (e.1, g))) ++
            (gs'.map (fun g => (m, g)) ++
              ((dropHeads rest).map (fun e => e.2.map (fun g => (e.1, g)))).flatten)))
        refine List.Perm.cons _ ?_
        refine (ih'.append_left _).trans ?_
        rw [← List.append_assoc, ← List.append_assoc]
        exact List.perm_append_comm.append_right _

theorem rrJoin_perm :
    ∀ (fuel : Nat) (qs : List (Nat × List (Nat × List Nat))),
    (∀ e ∈ qs, e.2 ≠ []) →
    (qs.map (fun e => e.2.length)).sum ≤ fuel →
    (rrJoin fuel qs).Perm ((qs.map (fun e => e.2.map (fun g => (e.1, g)))).flatten) := by
  intro fuel
  induction fuel with
  | zero =>
    intro qs hne hfuel
    match qs with
    | [] => simp [rrJoin]
    | e :: rest =>
      have h1 : 0 < e.2.length := by
        have := hne e (List.mem_cons_self _ _)
        cases h : e.2 with
        | nil => exact absurd h this
        | cons a l => simp
      simp only [List.map_cons, List.sum_cons] at hfuel
      omega
  | succ fuel ih =>
    intro qs hne hfuel
    match qs with
    | [] => simp [rrJoin]
    | e :: rest =>
      have hsum1 : ((dropHeads (e :: rest)).map (fun f => f.2.length)).sum ≤ fuel := by
        have := dropHeads_sum_lt (e :: rest) hne (by simp)
        omega
      have hrec := ih (dropHeads (e :: rest)) (dropHeads_ne_nil _) hsum1
      have hrr : rrJoin (fuel + 1) (e :: rest)
          = ((e :: rest).filterMap (fun f => f.2.head?.map (fun g => (f.1, g)))) ++
            rrJoin fuel (dropHeads (e :: rest)) := rfl
      rw [hrr]
      refine ((hrec.append_left _).trans ?_)
      exact (flatMap_shuffle (e :: rest) hne).symm

theorem splitFullRegionId_eq (m rid n : Nat) (hm : m < n) :
    SplitFullRegionId (GetFullRegionId m rid n) n = (m, rid) := by
  rw [SplitFullRegionId, GetFullRegionId]
  have h1 : (rid * n + m) % n = m := by
    rw [Nat.mul_comm rid n, Nat.mul_add_mod, Nat.mod_eq_of_lt hm]
  have h2 : (rid * n + m - (rid * n + m) % n) / n = rid := by
    rw [h1, show rid * n + m - m = rid * n from by omega,
      Nat.mul_div_cancel rid (by omega)]
  rw [h2, h1]

theorem uint16_ofNat (v : Nat) (h : v < 65536) : uint16 (Int.ofNat v) = v := by
  rw [uint16]
  have h1 : (Int.ofNat v) % (65536 : Int) = Int.ofNat v := by
    show (v : Int) % (65536 : Int) = (v : Int)
    omega
  rw [h1]
  exact Int.toNat_natCast v

theorem readCell_spec (adc_stat : Option Stats) (nbadc : Nat) (p : Package) (pos v : Nat)
    (hnbadc : nbadc ≤ 64)
    (hstat : ∀ st, adc_stat = some st → GoodStats st)
    (hok : CellOk adc_stat nbadc v) (hv16 : v < 65536)
    (hend : pos + (adcBits adc_stat nbadc v).length ≤ p.endPos)
    (hbits : ∀ j, j < (adcBits adc_stat nbadc v).length →
      p.bitAt (pos + j) = (adcBits adc_stat nbadc v).getD j false) :
    readCell adc_stat nbadc p pos = some (v, pos + (adcBits adc_stat nbadc v).length) := by
  match hst : adc_stat with
  | some st =>
    rw [CellOk] at hok
    obtain ⟨hab, code, hcode⟩ := hok
    have hget : st.GetHuffmanCode (Int.ofNat v) = some code := by
      rw [Stats.GetHuffmanCode, if_pos hab,
        find_assoc_of_mem _ (hstat st rfl).keys_nodup (Int.ofNat v, code) hcode]
      rfl
    have hbitsv : adcBits (some st) nbadc v = codeBits code := by
      rw [adcBits, hget]
    rw [hbitsv] at hend hbits
    rw [codeBits_length] at hend
    have hdec := decodeLetter_spec st (hstat st rfl) (Int.ofNat v) code hcode p pos hend
      (by
        intro j hj
        rw [hbits j (by rw [codeBits_length]; exact hj), codeBits_getD _ _ hj])
    simp only [readCell, hdec]
    rw [hbitsv, codeBits_length, uint16_ofNat v hv16]
  | none =>
    rw [CellOk] at hok
    have hbitsv : adcBits none nbadc v = msbBits v nbadc := rfl
    rw [hbitsv] at hend hbits
    rw [msbBits_length] at hend
    have hrd := read_msb_field p pos v nbadc hnbadc hend hok
      (by intro j hj; exact hbits j (by rw [msbBits_length]; exact hj))
    simp only [readCell, hrd]
    rw [hbitsv, msbBits_length, uint16_ofNat v hv16]

theorem cellAdds_cons (al ml : MultiRegionLayout) (m rid : Nat) (rc : Nat × Nat)
    (rcs : List (Nat × Nat)) (v : Nat) (vs : List Nat) :
    cellAdds al ml m rid (rc :: rcs) (v :: vs) =
      if v = 0 then cellAdds al ml m rid rcs vs
      else (ml.ConvertFromRegionPixel m
          (al.ConvertFromRegionPixel rid ⟨int16 rc.1, int16 rc.2⟩), v)
        :: cellAdds al ml m rid rcs vs := rfl

set_option maxHeartbeats 1600000 in
theorem readCellsLoop_spec (adc_stat : Option Stats) (nbadc : Nat) (hnbadc : nbadc ≤ 64)
    (hstat : ∀ st, adc_stat = some st → GoodStats st)
    (al ml : MultiRegionLayout) (m rid : Nat) (pf : Package) :
    ∀ (rcs : List (Nat × Nat)) (vs : List Nat) (pos : Nat) (c0 : Chip),
    rcs.length = vs.length →
    (∀ v ∈ vs, CellOk adc_stat nbadc v ∧ v < 65536) →
    pos + ((vs.map (adcBits adc_stat nbadc)).flatten).length ≤ pf.endPos →
    (∀ j, j < ((vs.map (adcBits adc_stat nbadc)).flatten).length →
      pf.bitAt (pos + j) = ((vs.map (adcBits adc_stat nbadc)).flatten).getD j false) →
    (∀ e ∈ cellAdds al ml m rid rcs vs,
      (RegionLayout.mk c0.layout.n_rows c0.layout.n_columns).IsPixelInside e.1 = true) →
    (∀ e ∈ cellAdds al ml m rid rcs vs,
      c0.pixels.find? (fun x => x.1 = e.1) = none) →
    ((cellAdds al ml m rid rcs vs).map Prod.fst).Nodup →
    readCellsLoop adc_stat nbadc al ml m rid pf rcs pos c0 =
      some (pos + ((vs.map (adcBits adc_stat nbadc)).flatten).length,
        ⟨c0.layout, c0.pixels ++ cellAdds al ml m rid rcs vs⟩) := by
  intro rcs
  induction rcs with
  | nil =>
    intro vs pos c0 hlen _ _ _ _ _ _
    obtain rfl : vs = [] := List.length_eq_zero.mp (by simpa using hlen.symm)
    show some (pos, c0) = _
    simp [cellAdds]
  | cons rc rcs ih =>
    intro vs pos c0 hlen hok hend hbits hins hfresh hnodup
    obtain ⟨v, vs, rfl⟩ : ∃ w ws, vs = w :: ws := by
      cases vs with
      | nil => simp at hlen
      | cons w ws => exact ⟨w, ws, rfl⟩
    have hsplit : (((v :: vs).map (adcBits adc_stat nbadc)).flatten) =
        adcBits adc_stat nbadc v ++ ((vs.map (adcBits adc_stat nbadc)).flatten) := by
      rw [List.map_cons, List.flatten_cons]
    rw [hsplit, List.length_append] at hend
    obtain ⟨hokv, hv16⟩ := hok v (List.mem_cons_self _ _)
    have hendv : pos + (adcBits adc_stat nbadc v).length ≤ pf.endPos := by omega
    have hbitsv : ∀ j, j < (adcBits adc_stat nbadc v).length →
        pf.bitAt (pos + j) = (adcBits adc_stat nbadc v).getD j false := by
      intro j hj
      rw [hbits j (by rw [hsplit, List.length_append]; omega), hsplit,
        List.getD_append _ _ _ _ hj]
    have hread := readCell_spec adc_stat nbadc pf pos v hnbadc hstat hokv hv16 hendv hbitsv
    have hrest_bits : ∀ j, j < ((vs.map (adcBits adc_stat nbadc)).flatten).length →
        pf.bitAt (pos + (adcBits adc_stat nbadc v).length + j) =
          ((vs.map (adcBits adc_stat nbadc)).flatten).getD j false := by
      intro j hj
      have h2 := hbits ((adcBits adc_stat nbadc v).length + j)
        (by rw [hsplit, List.length_append]; omega)
      rw [hsplit, List.getD_append_right _ _ _ _ (by omega)] at h2
      rw [show pos + (adcBits adc_stat nbadc v).length + j
          = pos + ((adcBits adc_stat nbadc v).length + j) from by omega, h2,
        show (adcBits adc_stat nbadc v).length + j - (adcBits adc_stat nbadc v).length = j
          from by omega]
    rw [hsplit, List.length_append]
    simp only [readCellsLoop, hread]
    rw [cellAdds_cons] at hins hfresh hnodup ⊢
    by_cases hv : v = 0
    · simp only [if_pos hv]
      rw [if_pos hv] at hins hfresh hnodup
      have hrec := ih vs (pos + (adcBits adc_stat nbadc v).length) c0 (by simpa using hlen)
        (fun w hw => hok w (List.mem_cons_of_mem _ hw))
        (by omega) hrest_bits hins hfresh hnodup
      rw [hrec]
      refine congrArg some ?_
      rw [Prod.mk.injEq]
      exact ⟨by omega, rfl⟩
    · simp only [if_neg hv]
      rw [if_neg hv] at hins hfresh hnodup
      set q := ml.ConvertFromRegionPixel m
        (al.ConvertFromRegionPixel rid ⟨int16 rc.1, int16 rc.2⟩) with hq
      have hadd : c0.AddPixel q v = some ⟨c0.layout, c0.pixels ++ [(q, v)]⟩ :=
        addPixel_some c0 q v (hins (q, v) (List.mem_cons_self _ _))
          (hfresh (q, v) (List.mem_cons_self _ _))
      simp only [← hq, hadd]
      rw [List.map_cons, List.nodup_cons] at hnodup
      have hrec := ih vs (pos + (adcBits adc_stat nbadc v).length)
        ⟨c0.layout, c0.pixels ++ [(q, v)]⟩
        (by simpa using hlen)
        (fun w hw => hok w (List.mem_cons_of_mem _ hw))
        (by omega) hrest_bits
        (fun e he => hins e (List.mem_cons_of_mem _ he))
        (by
          intro e he
          rw [List.find?_append, hfresh e (List.mem_cons_of_mem _ he), Option.none_or]
          rw [List.find?_eq_none]
          intro x hx
          rw [List.mem_singleton] at hx
          subst hx
          simp only [decide_eq_true_eq]
          intro hc
          exact hnodup.1 (hc ▸ List.mem_map.mpr ⟨e, he, rfl⟩))
        hnodup.2
      rw [hrec]
      refine congrArg some ?_
      rw [Prod.mk.injEq, Chip.mk.injEq]
      refine ⟨by omega, rfl, ?_⟩
      rw [List.append_assoc, List.singleton_append]


/-- The pixels a list of read groups adds to the chip. -/
def blockAdds (al ml : MultiRegionLayout) (ru : RegionLayout)
    (gs : List (Nat × (Nat × List Nat))) : List (Pixel × Nat) :=
  (gs.map (fun e => cellAdds al ml e.1 e.2.1 (rasterCoords ru) e.2.2)).flatten

set_option maxHeartbeats 1600000 in
theorem blockReadLoop_spec (adc_stat : Option Stats) (nbaddr nbadc : Nat)
    (haddr : nbaddr ≤ 64) (hnbadc : nbadc ≤ 64)
    (hstat : ∀ st, adc_stat = some st → GoodStats st)
    (al ml : MultiRegionLayout) (ru : RegionLayout) (n_mcr : Nat) (pf : Package) :
    ∀ (gs : List (Nat × (Nat × List Nat))) (fuel pos : Nat) (c0 : Chip),
    gs.length < fuel →
    pos + ((gs.map (fun e =>
      blockGroupBits adc_stat nbaddr nbadc n_mcr e.1 e.2)).flatten).length = pf.endPos →
    (∀ j, j < ((gs.map (fun e =>
        blockGroupBits adc_stat nbaddr nbadc n_mcr e.1 e.2)).flatten).length →
      pf.bitAt (pos + j) = ((gs.map (fun e =>
        blockGroupBits adc_stat nbaddr nbadc n_mcr e.1 e.2)).flatten).getD j false) →
    (∀ e ∈ gs, e.1 < n_mcr ∧
      GetFullRegionId e.1 e.2.1 n_mcr < 2 ^ nbaddr ∧
      e.2.2.length = (rasterCoords ru).length ∧
      0 < (blockGroupBits adc_stat nbaddr nbadc n_mcr e.1 e.2).length ∧
      ∀ v ∈ e.2.2, CellOk adc_stat nbadc v ∧ v < 65536) →
    (∀ e ∈ blockAdds al ml ru gs,
      (RegionLayout.mk c0.layout.n_rows c0.layout.n_columns).IsPixelInside e.1 = true) →
    (∀ e ∈ blockAdds al ml ru gs, c0.pixels.find? (fun x => x.1 = e.1) = none) →
    ((blockAdds al ml ru gs).map Prod.fst).Nodup →
    blockReadLoop adc_stat nbaddr nbadc al ml ru n_mcr pf fuel pos c0 =
      some ⟨c0.layout, c0.pixels ++ blockAdds al ml ru gs⟩ := by
  intro gs
  induction gs with
  | nil =>
    intro fuel pos c0 hfuel hlen _ _ _ _ _
    obtain ⟨fuel, rfl⟩ : ∃ f, fuel = f + 1 := ⟨fuel - 1, by omega⟩
    rw [blockReadLoop, if_pos (by simpa using hlen)]
    rw [blockAdds]
    simp
  | cons e gs ih =>
    intro fuel pos c0 hfuel hlen hbits hgood hins hfresh hnodup
    obtain ⟨fuel, rfl⟩ : ∃ f, fuel = f + 1 := ⟨fuel - 1, by omega⟩
    obtain ⟨hm, hfull, hclen, hgpos, hcells⟩ := hgood e (List.mem_cons_self _ _)
    have hsplit : (((e :: gs).map (fun e =>
        blockGroupBits adc_stat nbaddr nbadc n_mcr e.1 e.2)).flatten) =
        blockGroupBits adc_stat nbaddr nbadc n_mcr e.1 e.2 ++
        ((gs.map (fun e =>
          blockGroupBits adc_stat nbaddr nbadc n_mcr e.1 e.2)).flatten) := by
      rw [List.map_cons, List.flatten_cons]
    have hgsplit : blockGroupBits adc_stat nbaddr nbadc n_mcr e.1 e.2 =
        msbBits (GetFullRegionId e.1 e.2.1 n_mcr) nbaddr ++
        ((e.2.2.map (adcBits adc_stat nbadc)).flatten) := rfl
    have hasplit : blockAdds al ml ru (e :: gs) =
        cellAdds al ml e.1 e.2.1 (rasterCoords ru) e.2.2 ++ blockAdds al ml ru gs := by
      rw [blockAdds, List.map_cons, List.flatten_cons]
      rfl
    rw [hsplit, List.length_append] at hlen
    rw [hasplit] at hins hfresh hnodup
    have hpos_ne : pos ≠ pf.endPos := by omega
    rw [blockReadLoop, if_neg hpos_ne]
    have hbits_hdr : ∀ j, j < nbaddr →
        pf.bitAt (pos + j) =
          (msbBits (GetFullRegionId e.1 e.2.1 n_mcr) nbaddr).getD j false := by
      intro j hj
      rw [hbits j (by
        rw [hsplit, List.length_append, hgsplit, List.length_append, msbBits_length]
        omega)]
      rw [hsplit, List.getD_append _ _ _ _ (by
        rw [hgsplit, List.length_append, msbBits_length]; omega)]
      rw [hgsplit, List.getD_append _ _ _ _ (by rw [msbBits_length]; omega)]
    have hglen : (blockGroupBits adc_stat nbaddr nbadc n_mcr e.1 e.2).length =
        nbaddr + ((e.2.2.map (adcBits adc_stat nbadc)).flatten).length := by
      rw [hgsplit, List.length_append, msbBits_length]
    have hread1 : pf.read pos nbaddr false =
        some (GetFullRegionId e.1 e.2.1 n_mcr, pos + nbaddr) :=
      read_msb_field pf pos _ nbaddr haddr (by omega) hfull hbits_hdr
    have hbits_cells : ∀ j, j < ((e.2.2.map (adcBits adc_stat nbadc)).flatten).length →
        pf.bitAt (pos + nbaddr + j) =
          ((e.2.2.map (adcBits adc_stat nbadc)).flatten).getD j false := by
      intro j hj
      have h2 := hbits (nbaddr + j) (by
        rw [hsplit, List.length_append]
        omega)
      rw [hsplit, List.getD_append _ _ _ _ (by omega)] at h2
      rw [hgsplit, List.getD_append_right _ _ _ _ (by rw [msbBits_length]; omega)] at h2
      rw [msbBits_length] at h2
      rw [show pos + nbaddr + j = pos + (nbaddr + j) from by omega, h2,
        show nbaddr + j - nbaddr = j from by omega]
    have hcl := readCellsLoop_spec adc_stat nbadc hnbadc hstat al ml e.1 e.2.1 pf
      (rasterCoords ru) e.2.2 (pos + nbaddr) c0 hclen.symm hcells
      (by omega) hbits_cells
      (fun f hf => hins f (List.mem_append_left _ hf))
      (fun f hf => hfresh f (List.mem_append_left _ hf))
      (by
        rw [List.map_append, List.nodup_append] at hnodup
        exact hnodup.1)
    rw [List.map_append, List.nodup_append] at hnodup
    simp only [hread1, splitFullRegionId_eq e.1 e.2.1 n_mcr hm, hcl]
    have hrec := ih fuel (pos + nbaddr + ((e.2.2.map (adcBits adc_stat nbadc)).flatten).length)
      ⟨c0.layout, c0.pixels ++ cellAdds al ml e.1 e.2.1 (rasterCoords ru) e.2.2⟩
      (by simpa using hfuel)
      (by omega)
      (by
        intro j hj
        have h2 := hbits ((blockGroupBits adc_stat nbaddr nbadc n_mcr e.1 e.2).length + j)
          (by rw [hsplit, List.length_append]; omega)
        rw [hsplit, List.getD_append_right _ _ _ _ (by omega)] at h2
        rw [show pos + nbaddr + ((e.2.2.map (adcBits adc_stat nbadc)).flatten).length + j
            = pos + ((blockGroupBits adc_stat nbaddr nbadc n_mcr e.1 e.2).length + j)
          from by rw [hglen]; omega, h2,
          show (blockGroupBits adc_stat nbaddr nbadc n_mcr e.1 e.2).length + j
              - (blockGroupBits adc_stat nbaddr nbadc n_mcr e.1 e.2).length = j
            from by omega])
      (fun f hf => hgood f (List.mem_cons_of_mem _ hf))
      (fun f hf => hins f (List.mem_append_right _ hf))
      (by
        intro f hf
        rw [List.find?_append, hfresh f (List.mem_append_right _ hf), Option.none_or]
        rw [List.find?_eq_none]
        intro x hx
        simp only [decide_eq_true_eq]
        intro hc
        exact hnodup.2.2 (List.mem_map.mpr ⟨x, hx, rfl⟩) (hc ▸ List.mem_map.mpr ⟨f, hf, rfl⟩))
      hnodup.2.1
    rw [hrec]
    refine congrArg some ?_
    rw [Chip.mk.injEq]
    exact ⟨rfl, by rw [List.append_assoc, hasplit]⟩


theorem find?_erase_ne (q : Pixel) :
    ∀ (l : List (Pixel × Nat)) (ent : Pixel × Nat), ent.1 ≠ q →
    (l.erase ent).find? (fun e => e.1 = q) = l.find? (fun e => e.1 = q) := by
  intro l
  induction l with
  | nil => intro ent _; rfl
  | cons x xs ih =>
    intro ent h
    rw [List.erase_cons]
    by_cases hx : x = ent
    · rw [if_pos (by simp [hx])]
      subst hx
      rw [List.find?_cons_of_neg _ (by simpa using h)]
    · rw [if_neg (by simpa using hx)]
      by_cases hpx : x.1 = q
      · rw [List.find?_cons_of_pos _ (by simpa using hpx),
          List.find?_cons_of_pos _ (by simpa using hpx)]
      · rw [List.find?_cons_of_neg _ (by simpa using hpx),
          List.find?_cons_of_neg _ (by simpa using hpx), ih ent h]

theorem getAdc_erase (l : List (Pixel × Nat)) (ent : Pixel × Nat) (q : Pixel)
    (h : ent.1 ≠ q) : getAdc (l.erase ent) q = getAdc l q := by
  rw [getAdc, getAdc, find?_erase_ne q l ent h]

theorem perm_cons_erase_entry :
    ∀ (l : List (Pixel × Nat)) (ent : Pixel × Nat), ent ∈ l →
    l.Perm (ent :: l.erase ent) := by
  intro l
  induction l with
  | nil => intro ent h; simp at h
  | cons x xs ih =>
    intro ent h
    rw [List.erase_cons]
    by_cases hx : x = ent
    · rw [if_pos (by simp [hx]), hx]
    · rw [if_neg (by simp [hx])]
      have hmem : ent ∈ xs := by
        rcases List.mem_cons.mp h with h1 | h1
        · exact absurd h1.symm hx
        · exact h1
      exact ((ih ent hmem).cons x).trans (List.Perm.swap ent x _)

theorem cellAdds_perm (al ml : MultiRegionLayout) (m rid : Nat) :
    ∀ (rcs : List (Nat × Nat)) (rpix : List (Pixel × Nat)),
    (rcs.map (fun rc => (⟨int16 rc.1, int16 rc.2⟩ : Pixel))).Nodup →
    (∀ e ∈ rpix, 1 ≤ e.2) →
    (rpix.map Prod.fst).Nodup →
    (∀ e ∈ rpix, e.1 ∈ rcs.map (fun rc => (⟨int16 rc.1, int16 rc.2⟩ : Pixel))) →
    (cellAdds al ml m rid rcs
        (rcs.map (fun rc => getAdc rpix ⟨int16 rc.1, int16 rc.2⟩))).Perm
      (rpix.map (fun e =>
        (ml.ConvertFromRegionPixel m (al.ConvertFromRegionPixel rid e.1), e.2))) := by
  intro rcs
  induction rcs with
  | nil =>
    intro rpix _ _ _ hmem
    obtain rfl : rpix = [] := by
      cases rpix with
      | nil => rfl
      | cons e es => exact absurd (hmem e (List.mem_cons_self _ _)) (by simp)
    simp [cellAdds]
  | cons rc rcs ih =>
    intro rpix hnodrc hpos hnodk hmem
    rw [List.map_cons, List.nodup_cons] at hnodrc
    simp only [List.map_cons]
    rw [cellAdds_cons]
    rcases hfind : rpix.find? (fun e => e.1 = (⟨int16 rc.1, int16 rc.2⟩ : Pixel)) with _ | ent
    · have hv : getAdc rpix ⟨int16 rc.1, int16 rc.2⟩ = 0 := by rw [getAdc, hfind]
      rw [hv, if_pos rfl]
      have hmem' : ∀ e ∈ rpix,
          e.1 ∈ rcs.map (fun rc => (⟨int16 rc.1, int16 rc.2⟩ : Pixel)) := by
        intro e he
        have h1 := hmem e he
        rw [List.map_cons, List.mem_cons] at h1
        rcases h1 with h1 | h1
        · exact absurd (by simp [h1] :
            (fun e => decide (e.1 = (⟨int16 rc.1, int16 rc.2⟩ : Pixel))) e = true)
            (List.find?_eq_none.mp hfind e he)
        · exact h1
      exact ih rpix hnodrc.2 hpos hnodk hmem'
    · have hent := List.mem_of_find?_eq_some hfind
      have hkey : ent.1 = (⟨int16 rc.1, int16 rc.2⟩ : Pixel) := by
        have h0 := List.find?_some hfind
        simpa using h0
      have hv : getAdc rpix ⟨int16 rc.1, int16 rc.2⟩ = ent.2 := by rw [getAdc, hfind]
      have hvne : ent.2 ≠ 0 := by have h0 := hpos ent hent; omega
      rw [hv, if_neg hvne]
      have hperm0 : rpix.Perm (ent :: rpix.erase ent) := perm_cons_erase_entry rpix ent hent
      have hkeyperm : (rpix.map Prod.fst).Perm (ent.1 :: (rpix.erase ent).map Prod.fst) := by
        have h0 := hperm0.map Prod.fst
        simpa using h0
      have hnodk' : (ent.1 :: (rpix.erase ent).map Prod.fst).Nodup :=
        hkeyperm.nodup_iff.mp hnodk
      rw [List.nodup_cons] at hnodk'
      have htaileq : rcs.map (fun rc2 => getAdc rpix ⟨int16 rc2.1, int16 rc2.2⟩)
          = rcs.map (fun rc2 => getAdc (rpix.erase ent) ⟨int16 rc2.1, int16 rc2.2⟩) := by
        refine List.map_congr_left ?_
        intro a ha
        refine (getAdc_erase rpix ent ⟨int16 a.1, int16 a.2⟩ ?_).symm
        rw [hkey]
        intro hcontra
        exact hnodrc.1 (hcontra ▸ List.mem_map.mpr ⟨a, ha, rfl⟩)
      have hmem' : ∀ e ∈ rpix.erase ent,
          e.1 ∈ rcs.map (fun rc => (⟨int16 rc.1, int16 rc.2⟩ : Pixel)) := by
        intro e he
        have h1 := hmem e (List.mem_of_mem_erase he)
        rw [List.map_cons, List.mem_cons] at h1
        rcases h1 with h1 | h1
        · exfalso
          apply hnodk'.1
          rw [← hkey] at h1
          exact h1 ▸ List.mem_map.mpr ⟨e, he, rfl⟩
        · exact h1
      have ihrec := ih (rpix.erase ent) hnodrc.2
        (fun e he => hpos e (List.mem_of_mem_erase he)) hnodk'.2 hmem'
      rw [htaileq]
      have h2 := (hperm0.map (fun e =>
        (ml.ConvertFromRegionPixel m (al.ConvertFromRegionPixel rid e.1), e.2))).symm
      rw [List.map_cons, hkey] at h2
      exact List.Perm.trans (List.Perm.cons _ ihrec) h2


theorem mem_rasterCoords (ru : RegionLayout) (r c : Nat) :
    (r, c) ∈ rasterCoords ru ↔ r < ru.n_rows ∧ c < ru.n_columns := by
  simp [rasterCoords, List.mem_flatten, List.mem_map, List.mem_range]

theorem cellAdcs_length (ru : RegionLayout) (rpix : List (Pixel × Nat)) :
    (cellAdcs ru rpix).length = (rasterCoords ru).length := by
  rw [cellAdcs, List.length_map]

theorem nodup_gridPairs (nc : Nat) :
    ∀ (rows : List Nat), rows.Nodup →
    ((rows.map (fun r => (List.range nc).map (fun c => (r, c)))).flatten).Nodup := by
  intro rows
  induction rows with
  | nil => intro _; simp
  | cons r rows ih =>
    intro hnod
    rw [List.nodup_cons] at hnod
    rw [List.map_cons, List.flatten_cons, List.nodup_append]
    refine ⟨?_, ih hnod.2, ?_⟩
    · refine List.Nodup.map_on ?_ (List.nodup_range _)
      intro x _ y _ hxy
      exact (Prod.mk.injEq _ _ _ _).mp hxy |>.2
    · intro a ha hb
      rw [List.mem_map] at ha
      obtain ⟨c0, _, rfl⟩ := ha
      rw [List.mem_flatten] at hb
      obtain ⟨l, hl, hmem⟩ := hb
      rw [List.mem_map] at hl
      obtain ⟨r2, hr2, rfl⟩ := hl
      rw [List.mem_map] at hmem
      obtain ⟨c2, _, heq⟩ := hmem
      have h1 := (Prod.mk.injEq _ _ _ _).mp heq
      exact hnod.1 (h1.1 ▸ hr2)

theorem rasterCoords_nodup (ru : RegionLayout) : (rasterCoords ru).Nodup :=
  nodup_gridPairs ru.n_columns (List.range ru.n_rows) (List.nodup_range _)

theorem rasterPixels_nodup (ru : RegionLayout)
    (hr : ru.n_rows ≤ 32768) (hc : ru.n_columns ≤ 32768) :
    ((rasterCoords ru).map (fun rc => (⟨int16 rc.1, int16 rc.2⟩ : Pixel))).Nodup := by
  refine List.Nodup.map_on ?_ (rasterCoords_nodup ru)
  intro x hx y hy hxy
  obtain ⟨x1, x2⟩ := x
  obtain ⟨y1, y2⟩ := y
  obtain ⟨hx1, hx2⟩ := (mem_rasterCoords ru x1 x2).mp hx
  obtain ⟨hy1, hy2⟩ := (mem_rasterCoords ru y1 y2).mp hy
  rw [Pixel.mk.injEq] at hxy
  rw [int16_of_lt x1 (by omega), int16_of_lt x2 (by omega),
    int16_of_lt y1 (by omega), int16_of_lt y2 (by omega)] at hxy
  rw [Prod.mk.injEq]
  omega

theorem flatMap_congr_mem {α β : Type} (l : List α) (f g : α → List β)
    (h : ∀ x ∈ l, f x = g x) : l.flatMap f = l.flatMap g := by
  induction l with
  | nil => rfl
  | cons x xs ih =>
    rw [List.flatMap_cons, List.flatMap_cons, h x (List.mem_cons_self _ _),
      ih (fun y hy => h y (List.mem_cons_of_mem _ hy))]

theorem nodup_filterMap_mem {α β : Type} (f : α → Option β) :
    ∀ (l : List α), l.Nodup →
    (∀ a ∈ l, ∀ a2 ∈ l, ∀ b, f a = some b → f a2 = some b → a = a2) →
    (l.filterMap f).Nodup := by
  intro l
  induction l with
  | nil => intro _ _; simp
  | cons a l ih =>
    intro hnod hinj
    rw [List.nodup_cons] at hnod
    rw [List.filterMap_cons]
    cases hfa : f a with
    | none =>
      exact ih hnod.2 (fun x hx y hy b h1 h2 =>
        hinj x (List.mem_cons_of_mem _ hx) y (List.mem_cons_of_mem _ hy) b h1 h2)
    | some b =>
      rw [List.nodup_cons]
      refine ⟨?_, ih hnod.2 (fun x hx y hy b2 h1 h2 =>
        hinj x (List.mem_cons_of_mem _ hx) y (List.mem_cons_of_mem _ hy) b2 h1 h2)⟩
      intro hmem
      rw [List.mem_filterMap] at hmem
      obtain ⟨a2, ha2, hfa2⟩ := hmem
      have heq := hinj a (List.mem_cons_self _ _) a2 (List.mem_cons_of_mem _ ha2) b hfa hfa2
      exact hnod.1 (heq ▸ ha2)

theorem partition_flatMap_perm {α : Type} (key : α → Nat) :
    ∀ (P : List α) (n : Nat), (∀ e ∈ P, key e < n) →
    ((List.range n).flatMap (fun rid =>
      P.filterMap (fun e => if key e = rid then some e else none))).Perm P := by
  intro P
  induction P with
  | nil =>
    intro n _
    simp
  | cons a P ih =>
    intro n hk
    have hka : key a < n := hk a (List.mem_cons_self _ _)
    obtain ⟨R1, R2, hsplit⟩ := List.append_of_mem (List.mem_range.mpr hka)
    have hnod : (List.range n).Nodup := List.nodup_range n
    rw [hsplit, List.nodup_append] at hnod
    have hk2 : key a ∉ R2 := by
      have h0 := hnod.2.1
      rw [List.nodup_cons] at h0
      exact h0.1
    have hk1 : key a ∉ R1 := fun hmem => hnod.2.2 hmem (List.mem_cons_self _ _)
    have hfib : ∀ rid, rid ≠ key a →
        (a :: P).filterMap (fun e => if key e = rid then some e else none)
          = P.filterMap (fun e => if key e = rid then some e else none) := by
      intro rid hne
      rw [List.filterMap_cons, if_neg (fun h : key a = rid => hne h.symm)]
    have hfib2 : (a :: P).filterMap (fun e => if key e = key a then some e else none)
        = a :: P.filterMap (fun e => if key e = key a then some e else none) := by
      rw [List.filterMap_cons, if_pos rfl]
    refine List.Perm.trans ?_ ((ih n (fun e he => hk e (List.mem_cons_of_mem _ he))).cons a)
    rw [hsplit]
    simp only [List.flatMap_append, List.flatMap_cons]
    rw [flatMap_congr_mem R1 _ _ (fun rid hrid => hfib rid (fun h => hk1 (h ▸ hrid))),
      flatMap_congr_mem R2 _ _ (fun rid hrid => hfib rid (fun h => hk2 (h ▸ hrid))),
      hfib2]
    exact List.perm_middle


theorem convertFrom_zero_id (L : MultiRegionLayout) (q : Pixel)
    (hq0r : 0 ≤ q.row) (hqr : q.row < 32768)
    (hq0c : 0 ≤ q.column) (hqc : q.column < 32768) :
    L.ConvertFromRegionPixel 0 q = q := by
  rw [MultiRegionLayout.ConvertFromRegionPixel]
  have h1 : toSize q.row = q.row.toNat := toSize_of_lt _ hq0r (by omega)
  have h2 : toSize q.column = q.column.toNat := toSize_of_lt _ hq0c (by omega)
  simp only [Nat.zero_mod, Nat.sub_zero, Nat.zero_div, Nat.zero_mul, Nat.zero_add]
  rw [h1, h2, int16_of_lt _ (by omega), int16_of_lt _ (by omega),
    Int.toNat_of_nonneg hq0r, Int.toNat_of_nonneg hq0c]

theorem regionFiber_eq (L : MultiRegionLayout) (rid : Nat) :
    ∀ (P : List (Pixel × Nat)),
    (∀ e ∈ P, L.ConvertFromRegionPixel (L.ConvertToRegionPixel e.1).1
        (L.ConvertToRegionPixel e.1).2 = e.1) →
    (Chip.regionPixels (Chip.mk L P) rid).map
        (fun q => (L.ConvertFromRegionPixel rid q.1, q.2))
      = P.filterMap (fun e => if (L.ConvertToRegionPixel e.1).1 = rid
          then some e else none) := by
  intro P
  induction P with
  | nil => intro _; rfl
  | cons e P ih =>
    intro hrt
    have hunf : Chip.regionPixels (Chip.mk L (e :: P)) rid
        = (e :: P).filterMap (fun x =>
            if (L.ConvertToRegionPixel x.1).1 = rid
            then some ((L.ConvertToRegionPixel x.1).2, x.2) else none) := rfl
    have hunfP : Chip.regionPixels (Chip.mk L P) rid
        = P.filterMap (fun x =>
            if (L.ConvertToRegionPixel x.1).1 = rid
            then some ((L.ConvertToRegionPixel x.1).2, x.2) else none) := rfl
    by_cases hkey : (L.ConvertToRegionPixel e.1).1 = rid
    · simp only [hunf, List.filterMap_cons, if_pos hkey, List.map_cons]
      have hh : (L.ConvertFromRegionPixel rid (L.ConvertToRegionPixel e.1).2, e.2) = e := by
        rw [← hkey, hrt e (List.mem_cons_self _ _)]
      rw [hh, ← hunfP, ih (fun x hx => hrt x (List.mem_cons_of_mem _ hx))]
    · simp only [hunf, List.filterMap_cons, if_neg hkey]
      rw [← hunfP, ih (fun x hx => hrt x (List.mem_cons_of_mem _ hx))]

theorem regionJoin_perm (L : MultiRegionLayout) (hwf : L.WF)
    (hnr : L.n_rows ≤ 32768) (hnc : L.n_columns ≤ 32768)
    (P : List (Pixel × Nat))
    (hin : ∀ e ∈ P, (RegionLayout.mk L.n_rows L.n_columns).IsPixelInside e.1 = true) :
    ((List.range L.GetNumberOfRegions).flatMap (fun rid =>
      ((Chip.mk L P).GetRegionPixels rid).map
        (fun q => (L.ConvertFromRegionPixel rid q.1, q.2)))).Perm P := by
  by_cases h1 : L.GetNumberOfRegions = 1
  · rw [h1, show List.range 1 = [0] from rfl, List.flatMap_cons, List.flatMap_nil,
      List.append_nil]
    have hg : (Chip.mk L P).GetRegionPixels 0 = P := by
      rw [Chip.GetRegionPixels, if_pos h1]
    rw [hg]
    have hmapid : P.map (fun q => (L.ConvertFromRegionPixel 0 q.1, q.2)) = P := by
      have hident : ∀ q ∈ P, (L.ConvertFromRegionPixel 0 q.1, q.2) = q := by
        intro q hq
        have hq2 := hin q hq
        simp only [RegionLayout.IsPixelInside, Bool.and_eq_true, decide_eq_true_eq] at hq2
        obtain ⟨⟨⟨hb1, hb2⟩, hb3⟩, hb4⟩ := hq2
        rw [convertFrom_zero_id L q.1 hb1 (by omega) hb3 (by omega)]
      rw [List.map_congr_left hident, List.map_id']
    rw [hmapid]
  · have hg : ∀ rid, (Chip.mk L P).GetRegionPixels rid
        = Chip.regionPixels (Chip.mk L P) rid := by
      intro rid
      rw [Chip.GetRegionPixels, if_neg h1]
    rw [flatMap_congr_mem _ _ (fun rid => P.filterMap (fun e =>
        if (L.ConvertToRegionPixel e.1).1 = rid then some e else none))
      (fun rid _ => by
        rw [hg rid,
          regionFiber_eq L rid P
            (fun e he => (convertTo_spec L hwf hnr hnc e.1 (hin e he)).2.2.2.2)])]
    exact partition_flatMap_perm (fun e => (L.ConvertToRegionPixel e.1).1) P _
      (fun e he => (convertTo_spec L hwf hnr hnc e.1 (hin e he)).1)


theorem mem_regionPixels_src (L : MultiRegionLayout) (P : List (Pixel × Nat)) (rid : Nat)
    (q : Pixel × Nat) (hq : q ∈ Chip.regionPixels (Chip.mk L P) rid) :
    ∃ e ∈ P, (L.ConvertToRegionPixel e.1).1 = rid
      ∧ q = ((L.ConvertToRegionPixel e.1).2, e.2) := by
  have hunf : Chip.regionPixels (Chip.mk L P) rid
      = P.filterMap (fun x => if (L.ConvertToRegionPixel x.1).1 = rid
          then some ((L.ConvertToRegionPixel x.1).2, x.2) else none) := rfl
  rw [hunf, List.mem_filterMap] at hq
  obtain ⟨e, he, hfe⟩ := hq
  by_cases hk : (L.ConvertToRegionPixel e.1).1 = rid
  · rw [if_pos hk] at hfe
    exact ⟨e, he, hk, (Option.some_inj.mp hfe).symm⟩
  · rw [if_neg hk] at hfe
    exact absurd hfe (by simp)

theorem regionPixels_keys_nodup (L : MultiRegionLayout) (hwf : L.WF)
    (hnr : L.n_rows ≤ 32768) (hnc : L.n_columns ≤ 32768)
    (P : List (Pixel × Nat))
    (hin : ∀ e ∈ P, (RegionLayout.mk L.n_rows L.n_columns).IsPixelInside e.1 = true)
    (hnod : (P.map Prod.fst).Nodup) (rid : Nat) :
    ((Chip.regionPixels (Chip.mk L P) rid).map Prod.fst).Nodup := by
  have hunf : Chip.regionPixels (Chip.mk L P) rid
      = P.filterMap (fun x => if (L.ConvertToRegionPixel x.1).1 = rid
          then some ((L.ConvertToRegionPixel x.1).2, x.2) else none) := rfl
  rw [hunf, List.map_filterMap]
  refine nodup_filterMap_mem _ P (List.Nodup.of_map _ hnod) ?_
  intro a ha a2 ha2 b h1 h2
  by_cases hk1 : (L.ConvertToRegionPixel a.1).1 = rid
  · by_cases hk2 : (L.ConvertToRegionPixel a2.1).1 = rid
    · rw [if_pos hk1] at h1
      rw [if_pos hk2] at h2
      simp only [Option.map_some'] at h1 h2
      have hb1 : (L.ConvertToRegionPixel a.1).2 = b := Option.some_inj.mp h1
      have hb2 : (L.ConvertToRegionPixel a2.1).2 = b := Option.some_inj.mp h2
      have hrt1 := (convertTo_spec L hwf hnr hnc a.1 (hin a ha)).2.2.2.2
      have hrt2 := (convertTo_spec L hwf hnr hnc a2.1 (hin a2 ha2)).2.2.2.2
      have hfst : a.1 = a2.1 := by
        rw [← hrt1, ← hrt2, hk1, hk2, hb1, hb2]
      exact List.inj_on_of_nodup_map hnod ha ha2 hfst
    · rw [if_neg hk2] at h2
      exact absurd h2 (by simp)
  · rw [if_neg hk1] at h1
    exact absurd h1 (by simp)

theorem getRegionPixels_props (L : MultiRegionLayout) (hwf : L.WF)
    (hnr : L.n_rows ≤ 32768) (hnc : L.n_columns ≤ 32768)
    (P : List (Pixel × Nat))
    (hin : ∀ e ∈ P, (RegionLayout.mk L.n_rows L.n_columns).IsPixelInside e.1 = true)
    (hnod : (P.map Prod.fst).Nodup) (rid : Nat) :
    (∀ q ∈ (Chip.mk L P).GetRegionPixels rid,
      (∃ e ∈ P, q.2 = e.2) ∧
      (RegionLayout.mk (Chip.mk L P).regionLayoutAsRegion.n_rows
        (Chip.mk L P).regionLayoutAsRegion.n_columns).IsPixelInside q.1 = true) ∧
    (((Chip.mk L P).GetRegionPixels rid).map Prod.fst).Nodup := by
  by_cases h1 : L.GetNumberOfRegions = 1
  · have hg : (Chip.mk L P).GetRegionPixels rid = P := by
      rw [Chip.GetRegionPixels, if_pos h1]
    have hrl : (Chip.mk L P).regionLayoutAsRegion = ⟨L.n_rows, L.n_columns⟩ := by
      rw [Chip.regionLayoutAsRegion, if_pos h1]
    rw [hg, hrl]
    exact ⟨fun q hq => ⟨⟨q, hq, rfl⟩, hin q hq⟩, hnod⟩
  · have hg : (Chip.mk L P).GetRegionPixels rid = Chip.regionPixels (Chip.mk L P) rid := by
      rw [Chip.GetRegionPixels, if_neg h1]
    have hrl : (Chip.mk L P).regionLayoutAsRegion = L.region_layout := by
      rw [Chip.regionLayoutAsRegion, if_neg h1]
    rw [hg, hrl]
    refine ⟨?_, regionPixels_keys_nodup L hwf hnr hnc P hin hnod rid⟩
    intro q hq
    obtain ⟨e, he, hk, hqe⟩ := mem_regionPixels_src L P rid q hq
    have hspec := convertTo_spec L hwf hnr hnc e.1 (hin e he)
    refine ⟨⟨e, he, by rw [hqe]⟩, ?_⟩
    rw [hqe]
    exact hspec.2.2.2.1


theorem cellAdds_zeros (al ml : MultiRegionLayout) (m rid : Nat) :
    ∀ (rcs : List (Nat × Nat)) (vs : List Nat), (∀ v ∈ vs, v = 0) →
    cellAdds al ml m rid rcs vs = [] := by
  intro rcs
  induction rcs with
  | nil => intro vs _; cases vs <;> rfl
  | cons rc rcs ih =>
    intro vs hz
    cases vs with
    | nil => rfl
    | cons v vs =>
      rw [cellAdds_cons, if_pos (hz v (List.mem_cons_self _ _))]
      exact ih vs (fun w hw => hz w (List.mem_cons_of_mem _ hw))

theorem getRegionPixels_empty_of_inactive (c : Chip) (rid : Nat)
    (h : c.IsRegionActive rid = false) : c.GetRegionPixels rid = [] := by
  by_cases h1 : c.layout.GetNumberOfRegions = 1
  · simp only [Chip.IsRegionActive, h1, if_pos] at h
    simp only [Chip.GetRegionPixels, h1, if_pos]
    simpa using h
  · simp only [Chip.IsRegionActive, h1, if_neg, if_false] at h
    simp only [Chip.GetRegionPixels, h1, if_neg, if_false]
    simpa using h

theorem flatMap_filterMap_if {β γ : Type} :
    ∀ (l : List Nat) (act : Nat → Bool) (G : Nat → β) (B : Nat × β → List γ),
    (∀ rid ∈ l, act rid = false → B (rid, G rid) = []) →
    ((l.filterMap (fun rid => if act rid then some (rid, G rid) else none)).flatMap B)
      = l.flatMap (fun rid => B (rid, G rid)) := by
  intro l
  induction l with
  | nil => intro _ _ _ _; rfl
  | cons r l ih =>
    intro act G B hempty
    rw [List.flatMap_cons, List.filterMap_cons]
    cases hact : act r with
    | true =>
      show B (r, G r) ++ (List.filterMap
        (fun rid => if act rid then some (rid, G rid) else none) l).flatMap B = _
      rw [ih act G B (fun x hx => hempty x (List.mem_cons_of_mem _ hx))]
    | false =>
      show (List.filterMap
        (fun rid => if act rid then some (rid, G rid) else none) l).flatMap B = _
      rw [hempty r (List.mem_cons_self _ _) hact,
        ih act G B (fun x hx => hempty x (List.mem_cons_of_mem _ hx)), List.nil_append]

theorem mem_rasterPixels_of_inside (ru : RegionLayout) (D : RegionLayout) (q : Pixel)
    (hr : D.n_rows ≤ ru.n_rows) (hc : D.n_columns ≤ ru.n_columns)
    (h32r : D.n_rows ≤ 32768) (h32c : D.n_columns ≤ 32768)
    (hin : D.IsPixelInside q = true) :
    q ∈ (rasterCoords ru).map (fun rc => (⟨int16 rc.1, int16 rc.2⟩ : Pixel)) := by
  simp only [RegionLayout.IsPixelInside, Bool.and_eq_true, decide_eq_true_eq] at hin
  obtain ⟨⟨⟨h1, h2⟩, h3⟩, h4⟩ := hin
  rw [List.mem_map]
  refine ⟨(q.row.toNat, q.column.toNat), ?_, ?_⟩
  · rw [mem_rasterCoords]
    omega
  · rw [int16_of_lt _ (by omega), int16_of_lt _ (by omega),
      Int.toNat_of_nonneg h1, Int.toNat_of_nonneg h3]

theorem macroAdds_perm (al ml : MultiRegionLayout) (ru : RegionLayout) (m : Nat)
    (hwf : al.WF) (hnr : al.n_rows ≤ 32768) (hnc : al.n_columns ≤ 32768)
    (hru : al.region_layout = ru)
    (hru32r : ru.n_rows ≤ 32768) (hru32c : ru.n_columns ≤ 32768)
    (mpix : List (Pixel × Nat))
    (hin : ∀ e ∈ mpix, (RegionLayout.mk al.n_rows al.n_columns).IsPixelInside e.1 = true)
    (hnod : (mpix.map Prod.fst).Nodup)
    (hadc : ∀ e ∈ mpix, 1 ≤ e.2) :
    ((macroGroups al ru mpix).flatMap
        (fun g => cellAdds al ml m g.1 (rasterCoords ru) g.2)).Perm
      (mpix.map (fun e => (ml.ConvertFromRegionPixel m e.1, e.2))) := by
  have hmg : macroGroups al ru mpix
      = (List.range al.GetNumberOfRegions).filterMap (fun rid =>
          if (Chip.mk al mpix).IsRegionActive rid
          then some (rid, cellAdcs ru ((Chip.mk al mpix).GetRegionPixels rid))
          else none) := rfl
  have hempty : ∀ rid ∈ List.range al.GetNumberOfRegions,
      (Chip.mk al mpix).IsRegionActive rid = false →
      cellAdds al ml m rid (rasterCoords ru)
        (cellAdcs ru ((Chip.mk al mpix).GetRegionPixels rid)) = [] := by
    intro rid _ hact
    rw [getRegionPixels_empty_of_inactive (Chip.mk al mpix) rid hact]
    refine cellAdds_zeros al ml m rid _ _ ?_
    intro v hv
    rw [cellAdcs, List.mem_map] at hv
    obtain ⟨rc, _, hrc⟩ := hv
    rw [← hrc]
    rfl
  rw [hmg, flatMap_filterMap_if (List.range al.GetNumberOfRegions)
    (fun rid => (Chip.mk al mpix).IsRegionActive rid)
    (fun rid => cellAdcs ru ((Chip.mk al mpix).GetRegionPixels rid))
    (fun g => cellAdds al ml m g.1 (rasterCoords ru) g.2) hempty]
  have hDle : (Chip.mk al mpix).regionLayoutAsRegion.n_rows ≤ ru.n_rows ∧
      (Chip.mk al mpix).regionLayoutAsRegion.n_columns ≤ ru.n_columns ∧
      (Chip.mk al mpix).regionLayoutAsRegion.n_rows ≤ 32768 ∧
      (Chip.mk al mpix).regionLayoutAsRegion.n_columns ≤ 32768 := by
    by_cases h1 : al.GetNumberOfRegions = 1
    · have hrl : (Chip.mk al mpix).regionLayoutAsRegion = ⟨al.n_rows, al.n_columns⟩ := by
        rw [Chip.regionLayoutAsRegion, if_pos h1]
      rw [hrl]
      have hone : al.n_region_rows = 1 ∧ al.n_region_columns = 1 := by
        rw [MultiRegionLayout.GetNumberOfRegions] at h1
        have ha := (wf_grid_pos al hwf).1
        have hb := (wf_grid_pos al hwf).2
        constructor
        · by_contra hne
          have h2 : 2 ≤ al.n_region_rows := by omega
          have h3 : 2 * 1 ≤ al.n_region_rows * al.n_region_columns :=
            Nat.mul_le_mul h2 hb
          omega
        · by_contra hne
          have h2 : 2 ≤ al.n_region_columns := by omega
          have h3 : 1 * 2 ≤ al.n_region_rows * al.n_region_columns :=
            Nat.mul_le_mul ha h2
          omega
      have hle1 : al.n_rows ≤ al.n_region_rows * al.region_layout.n_rows := by
        rw [hwf.grid_rows]
        exact ceilDiv_le_mul _ _ hwf.rl_rows_pos
      have hle2 : al.n_columns ≤ al.n_region_columns * al.region_layout.n_columns := by
        rw [hwf.grid_cols]
        exact ceilDiv_le_mul _ _ hwf.rl_cols_pos
      rw [hone.1, Nat.one_mul, hru] at hle1
      rw [hone.2, Nat.one_mul, hru] at hle2
      exact ⟨hle1, hle2, hnr, hnc⟩
    · have hrl : (Chip.mk al mpix).regionLayoutAsRegion = al.region_layout := by
        rw [Chip.regionLayoutAsRegion, if_neg h1]
      rw [hrl, hru]
      exact ⟨Nat.le_refl _, Nat.le_refl _, hru32r, hru32c⟩
  have hstep1 : ((List.range al.GetNumberOfRegions).flatMap (fun rid =>
      cellAdds al ml m rid (rasterCoords ru)
        (cellAdcs ru ((Chip.mk al mpix).GetRegionPixels rid)))).Perm
      ((List.range al.GetNumberOfRegions).flatMap (fun rid =>
        ((Chip.mk al mpix).GetRegionPixels rid).map (fun e =>
          (ml.ConvertFromRegionPixel m (al.ConvertFromRegionPixel rid e.1), e.2)))) := by
    refine List.Perm.flatMap_left _ ?_
    intro rid _
    obtain ⟨hprops, hknod⟩ := getRegionPixels_props al hwf hnr hnc mpix hin hnod rid
    have hcadcs : cellAdcs ru ((Chip.mk al mpix).GetRegionPixels rid)
        = (rasterCoords ru).map (fun rc =>
            getAdc ((Chip.mk al mpix).GetRegionPixels rid) ⟨int16 rc.1, int16 rc.2⟩) := rfl
    rw [hcadcs]
    refine cellAdds_perm al ml m rid (rasterCoords ru)
      ((Chip.mk al mpix).GetRegionPixels rid)
      (rasterPixels_nodup ru hru32r hru32c) ?_ hknod ?_
    · intro e he
      obtain ⟨⟨e0, he0, heq⟩, _⟩ := hprops e he
      rw [heq]
      exact hadc e0 he0
    · intro e he
      obtain ⟨_, hins⟩ := hprops e he
      exact mem_rasterPixels_of_inside ru _ e.1 hDle.1 hDle.2.1 hDle.2.2.1 hDle.2.2.2 hins
  refine hstep1.trans ?_
  have hfactor : ∀ rid ∈ List.range al.GetNumberOfRegions,
      ((Chip.mk al mpix).GetRegionPixels rid).map (fun e =>
        (ml.ConvertFromRegionPixel m (al.ConvertFromRegionPixel rid e.1), e.2))
      = (((Chip.mk al mpix).GetRegionPixels rid).map (fun q =>
          (al.ConvertFromRegionPixel rid q.1, q.2))).map (fun q =>
            (ml.ConvertFromRegionPixel m q.1, q.2)) := by
    intro rid _
    rw [List.map_map]
    rfl
  rw [flatMap_congr_mem _ _ _ hfactor,
    ← List.map_flatMap (fun q => (ml.ConvertFromRegionPixel m q.1, q.2))
      (fun rid => ((Chip.mk al mpix).GetRegionPixels rid).map (fun q =>
        (al.ConvertFromRegionPixel rid q.1, q.2)))]
  exact (regionJoin_perm al hwf hnr hnc mpix hin).map _


theorem macroGroups_nil (al : MultiRegionLayout) (ru : RegionLayout) :
    macroGroups al ru [] = [] := by
  have hact : ∀ rid, (Chip.mk al ([] : List (Pixel × Nat))).IsRegionActive rid = false := by
    intro rid
    by_cases h1 : al.GetNumberOfRegions = 1
    · simp [Chip.IsRegionActive, h1]
    · simp [Chip.IsRegionActive, h1, Chip.regionPixels]
  have hmg : macroGroups al ru []
      = (List.range al.GetNumberOfRegions).filterMap (fun rid =>
          if (Chip.mk al ([] : List (Pixel × Nat))).IsRegionActive rid
          then some (rid, cellAdcs ru
            ((Chip.mk al ([] : List (Pixel × Nat))).GetRegionPixels rid))
          else none) := rfl
  rw [hmg]
  have hnone : ∀ l : List Nat, l.filterMap (fun rid =>
      if (Chip.mk al ([] : List (Pixel × Nat))).IsRegionActive rid
      then some (rid, cellAdcs ru
        ((Chip.mk al ([] : List (Pixel × Nat))).GetRegionPixels rid))
      else none) = [] := by
    intro l
    induction l with
    | nil => rfl
    | cons x xs ih =>
      rw [List.filterMap_cons, hact x]
      exact ih
  exact hnone _

set_option maxHeartbeats 1600000 in
theorem blockAdds_queues_perm (c : Chip) (al : MultiRegionLayout) (ru : RegionLayout)
    (hwfc : c.layout.WF) (hnrc : c.layout.n_rows ≤ 32768)
    (hncc : c.layout.n_columns ≤ 32768)
    (hrt32r : c.layout.region_layout.n_rows ≤ 32768)
    (hrt32c : c.layout.region_layout.n_columns ≤ 32768)
    (hwfa : al.WF)
    (hanr : al.n_rows = c.regionLayoutAsRegion.n_rows)
    (hanc : al.n_columns = c.regionLayoutAsRegion.n_columns)
    (hru : al.region_layout = ru)
    (hru32r : ru.n_rows ≤ 32768) (hru32c : ru.n_columns ≤ 32768)
    (hin : ∀ e ∈ c.pixels,
      (RegionLayout.mk c.layout.n_rows c.layout.n_columns).IsPixelInside e.1 = true)
    (hnod : (c.pixels.map Prod.fst).Nodup)
    (hadc : ∀ e ∈ c.pixels, 1 ≤ e.2) :
    (blockAdds al c.layout ru
      (((List.range c.layout.GetNumberOfRegions).filterMap (fun m =>
        if c.IsRegionActive m then
          (if (macroGroups al ru (c.GetRegionPixels m)).isEmpty then none
           else some (m, macroGroups al ru (c.GetRegionPixels m)))
        else none)).flatMap (fun e => e.2.map (fun g => (e.1, g))))).Perm c.pixels := by
  have hal32r : al.n_rows ≤ 32768 := by
    rw [hanr, Chip.regionLayoutAsRegion]
    by_cases h1 : c.layout.GetNumberOfRegions = 1
    · rw [if_pos h1]; exact hnrc
    · rw [if_neg h1]; exact hrt32r
  have hal32c : al.n_columns ≤ 32768 := by
    rw [hanc, Chip.regionLayoutAsRegion]
    by_cases h1 : c.layout.GetNumberOfRegions = 1
    · rw [if_pos h1]; exact hncc
    · rw [if_neg h1]; exact hrt32c
  have hqeq : ((List.range c.layout.GetNumberOfRegions).filterMap (fun m =>
        if c.IsRegionActive m then
          (if (macroGroups al ru (c.GetRegionPixels m)).isEmpty then none
           else some (m, macroGroups al ru (c.GetRegionPixels m)))
        else none))
      = (List.range c.layout.GetNumberOfRegions).filterMap (fun m =>
          if (c.IsRegionActive m && !(macroGroups al ru (c.GetRegionPixels m)).isEmpty)
          then some (m, macroGroups al ru (c.GetRegionPixels m)) else none) := by
    refine List.filterMap_congr ?_
    intro m _
    cases hact : c.IsRegionActive m <;>
      cases hemp : (macroGroups al ru (c.GetRegionPixels m)).isEmpty <;>
      simp [hact, hemp]
  have hBA : blockAdds al c.layout ru
      ((((List.range c.layout.GetNumberOfRegions).filterMap (fun m =>
          if (c.IsRegionActive m && !(macroGroups al ru (c.GetRegionPixels m)).isEmpty)
          then some (m, macroGroups al ru (c.GetRegionPixels m)) else none))).flatMap
        (fun e => e.2.map (fun g => (e.1, g))))
      = ((((List.range c.layout.GetNumberOfRegions).filterMap (fun m =>
          if (c.IsRegionActive m && !(macroGroups al ru (c.GetRegionPixels m)).isEmpty)
          then some (m, macroGroups al ru (c.GetRegionPixels m)) else none))).flatMap
        (fun e => e.2.map (fun g => (e.1, g)))).flatMap
          (fun x => cellAdds al c.layout x.1 x.2.1 (rasterCoords ru) x.2.2) := rfl
  rw [hqeq, hBA, List.flatMap_assoc]
  have hinner : ∀ e : Nat × List (Nat × List Nat),
      (e.2.map (fun g => (e.1, g))).flatMap
        (fun x => cellAdds al c.layout x.1 x.2.1 (rasterCoords ru) x.2.2)
      = e.2.flatMap (fun g => cellAdds al c.layout e.1 g.1 (rasterCoords ru) g.2) := by
    intro e
    rw [List.flatMap_map]
  rw [flatMap_congr_mem _ _ _ (fun x _ => hinner x)]
  rw [flatMap_filterMap_if (List.range c.layout.GetNumberOfRegions)
    (fun m => c.IsRegionActive m && !(macroGroups al ru (c.GetRegionPixels m)).isEmpty)
    (fun m => macroGroups al ru (c.GetRegionPixels m))
    (fun e => e.2.flatMap (fun g => cellAdds al c.layout e.1 g.1 (rasterCoords ru) g.2))
    ?_]
  · have hstep : ∀ m ∈ List.range c.layout.GetNumberOfRegions,
        ((macroGroups al ru (c.GetRegionPixels m)).flatMap
          (fun g => cellAdds al c.layout m g.1 (rasterCoords ru) g.2)).Perm
        ((c.GetRegionPixels m).map
          (fun e => (c.layout.ConvertFromRegionPixel m e.1, e.2))) := by
      intro m _
      obtain ⟨hprops, hknod⟩ :=
        getRegionPixels_props c.layout hwfc hnrc hncc c.pixels hin hnod m
      refine macroAdds_perm al c.layout ru m hwfa hal32r hal32c hru hru32r hru32c
        (c.GetRegionPixels m) ?_ hknod ?_
      · intro e he
        have h2 := (hprops e he).2
        have hmk : RegionLayout.mk al.n_rows al.n_columns
            = RegionLayout.mk c.regionLayoutAsRegion.n_rows
                c.regionLayoutAsRegion.n_columns := by
          rw [hanr, hanc]
        rw [hmk]
        exact h2
      · intro e he
        obtain ⟨⟨e0, he0, heq⟩, _⟩ := hprops e he
        rw [heq]
        exact hadc e0 he0
    refine (List.Perm.flatMap_left _ hstep).trans ?_
    exact regionJoin_perm c.layout hwfc hnrc hncc c.pixels hin
  · intro m _ hact
    rw [Bool.and_eq_false_iff] at hact
    show (macroGroups al ru (c.GetRegionPixels m)).flatMap
      (fun g => cellAdds al c.layout m g.1 (rasterCoords ru) g.2) = []
    rcases hact with hact | hact
    · rw [getRegionPixels_empty_of_inactive c m hact, macroGroups_nil]
      rfl
    · simp only [Bool.not_eq_false'] at hact
      rw [List.isEmpty_iff.mp hact]
      rfl


theorem ofRegion_fields (nr nc : Nat) (rl : RegionLayout) (l : MultiRegionLayout)
    (hl : MultiRegionLayout.ofRegion nr nc rl = some l) :
    l.n_rows = nr ∧ l.n_columns = nc ∧ l.region_layout = rl := by
  rw [MultiRegionLayout.ofRegion] at hl
  by_cases h0 : nr = 0 ∨ nc = 0
  · rw [if_pos h0] at hl; exact absurd hl (by simp)
  rw [if_neg h0] at hl
  by_cases h1 : ceilDiv nr rl.n_rows = 0 ∨ ceilDiv nc rl.n_columns = 0
  · rw [if_pos h1] at hl; exact absurd hl (by simp)
  rw [if_neg h1] at hl
  have hfld := Option.some_inj.mp hl
  refine ⟨?_, ?_, ?_⟩ <;> rw [← hfld]

theorem ceilDiv_le_self (a b : Nat) (hb : 0 < b) : ceilDiv a b ≤ a := by
  rcases Nat.eq_zero_or_pos a with ha | ha
  · subst ha
    rw [ceilDiv]
    rw [Nat.zero_add, Nat.div_eq_of_lt (by omega)]
  · rw [ceilDiv]
    have hb1 : b - 1 + 1 = b := by omega
    have h5 : a * b = a * (b - 1) + a := by
      calc a * b = a * (b - 1 + 1) := by rw [hb1]
        _ = a * (b - 1) + a := by rw [Nat.mul_add, Nat.mul_one]
    have h4 : b - 1 ≤ a * (b - 1) := by
      have h0 := Nat.mul_le_mul_right (b - 1) ha
      simpa using h0
    have key : a + b - 1 ≤ a * b := by omega
    have h2 : (a + b - 1) / b ≤ a * b / b := Nat.div_le_div_right key
    rw [Nat.mul_div_cancel a hb] at h2
    exact h2

theorem flatten_map_length {α : Type} (nc : Nat) (f : Nat → Nat → α) :
    ∀ (rows : List Nat),
    ((rows.map (fun r => (List.range nc).map (f r))).flatten).length = rows.length * nc := by
  intro rows
  induction rows with
  | nil => simp
  | cons r rs ih =>
    rw [List.map_cons, List.flatten_cons, List.length_append, ih,
      List.length_map, List.length_range, List.length_cons, Nat.succ_mul,
      Nat.add_comm nc (rs.length * nc)]

theorem rasterCoords_length (ru : RegionLayout) :
    (rasterCoords ru).length = ru.n_rows * ru.n_columns := by
  have h := flatten_map_length ru.n_columns (fun r c => (r, c)) (List.range ru.n_rows)
  rw [List.length_range] at h
  exact h

theorem getAdc_cases (pix : List (Pixel × Nat)) (q : Pixel) :
    getAdc pix q = 0 ∨ ∃ ent ∈ pix, getAdc pix q = ent.2 := by
  rw [getAdc]
  cases hf : pix.find? (fun e => e.1 = q) with
  | none => exact Or.inl rfl
  | some ent => exact Or.inr ⟨ent, List.mem_of_find?_eq_some hf, rfl⟩

theorem cellAdcs_mem_ok (ru : RegionLayout) (rpix : List (Pixel × Nat)) (v : Nat)
    (hv : v ∈ cellAdcs ru rpix) : v = 0 ∨ ∃ ent ∈ rpix, v = ent.2 := by
  rw [cellAdcs, List.mem_map] at hv
  obtain ⟨rc, _, hrc⟩ := hv
  rcases getAdc_cases rpix ⟨int16 rc.1, int16 rc.2⟩ with h | ⟨ent, hent, h⟩
  · exact Or.inl (by rw [← hrc, h])
  · exact Or.inr ⟨ent, hent, by rw [← hrc, h]⟩

theorem adcBits_pos (adc_stat : Option Stats) (nbadc : Nat) (v : Nat)
    (hstat : ∀ st, adc_stat = some st → GoodStats st)
    (hnb : 0 < nbadc) (hok : CellOk adc_stat nbadc v) :
    0 < (adcBits adc_stat nbadc v).length := by
  match adc_stat with
  | none =>
    have h : adcBits none nbadc v = msbBits v nbadc := rfl
    rw [h, msbBits_length]
    exact hnb
  | some st =>
    rw [CellOk] at hok
    obtain ⟨hab, code, hcode⟩ := hok
    have hget : st.GetHuffmanCode (Int.ofNat v) = some code := by
      rw [Stats.GetHuffmanCode, if_pos hab,
        find_assoc_of_mem _ (hstat st rfl).keys_nodup (Int.ofNat v, code) hcode]
      rfl
    have hb : adcBits (some st) nbadc v = codeBits code := by rw [adcBits, hget]
    rw [hb, codeBits_length]
    exact ((hstat st rfl).bounds _ hcode).1

theorem isRegionActive_of_mem (c : Chip) (e : Pixel × Nat) (he : e ∈ c.pixels) :
    c.IsRegionActive (c.layout.ConvertToRegionPixel e.1).1 = true := by
  by_cases h1 : c.layout.GetNumberOfRegions = 1
  · simp only [Chip.IsRegionActive, h1, if_pos]
    simp only [List.isEmpty_iff, decide_eq_true_eq]
    exact List.ne_nil_of_mem he
  · simp only [Chip.IsRegionActive, h1, if_neg, if_false]
    simp only [List.isEmpty_iff, decide_eq_true_eq]
    have hmem : ((c.layout.ConvertToRegionPixel e.1).2, e.2)
        ∈ c.regionPixels (c.layout.ConvertToRegionPixel e.1).1 := by
      rw [Chip.regionPixels, List.mem_filterMap]
      exact ⟨e, he, by rw [if_pos rfl]⟩
    exact List.ne_nil_of_mem hmem


set_option maxHeartbeats 3200000 in
theorem block_roundtrip (adc_stat : Option Stats) (ru : RegionLayout) (nbadc : Nat)
    (c : Chip)
    (hstat : ∀ st, adc_stat = some st → GoodStats st)
    (hnbadc64 : nbadc ≤ 64) (hnbadc0 : 0 < nbadc)
    (hwf : c.layout.WF)
    (hnr : c.layout.n_rows ≤ 32768) (hnc : c.layout.n_columns ≤ 32768)
    (hrt32r : c.layout.region_layout.n_rows ≤ 32768)
    (hrt32c : c.layout.region_layout.n_columns ≤ 32768)
    (hreg1 : c.layout.GetNumberOfRegions = 1 →
      c.layout.region_layout = ⟨c.layout.n_rows, c.layout.n_columns⟩)
    (hrur : 0 < ru.n_rows) (hruc : 0 < ru.n_columns)
    (hru32r : ru.n_rows ≤ 32768) (hru32c : ru.n_columns ≤ 32768)
    (hin : ∀ e ∈ c.pixels,
      (RegionLayout.mk c.layout.n_rows c.layout.n_columns).IsPixelInside e.1 = true)
    (hnod : (c.pixels.map Prod.fst).Nodup)
    (hadcs : ∀ e ∈ c.pixels, 1 ≤ e.2 ∧ e.2 < 65536 ∧ CellOk adc_stat nbadc e.2)
    (hzero : CellOk adc_stat nbadc 0) :
    ∃ pkg chip2, BlockMake adc_stat ru nbadc c = some pkg ∧
      BlockRead adc_stat ru nbadc pkg c.layout = some chip2 ∧
      chip2.layout = c.layout ∧ chip2.pixels.Perm c.pixels := by
  have hDr : 0 < c.regionLayoutAsRegion.n_rows := by
    rw [Chip.regionLayoutAsRegion]
    by_cases h1 : c.layout.GetNumberOfRegions = 1
    · rw [if_pos h1]; exact hwf.nr_pos
    · rw [if_neg h1]; exact hwf.rl_rows_pos
  have hDc : 0 < c.regionLayoutAsRegion.n_columns := by
    rw [Chip.regionLayoutAsRegion]
    by_cases h1 : c.layout.GetNumberOfRegions = 1
    · rw [if_pos h1]; exact hwf.nc_pos
    · rw [if_neg h1]; exact hwf.rl_cols_pos
  obtain ⟨al, hal⟩ : ∃ al, MultiRegionLayout.ofRegion c.regionLayoutAsRegion.n_rows
      c.regionLayoutAsRegion.n_columns ru = some al := by
    rw [MultiRegionLayout.ofRegion]
    rw [if_neg (by omega)]
    rw [if_neg (by
      have hc1 := ceilDiv_pos c.regionLayoutAsRegion.n_rows ru.n_rows hDr hrur
      have hc2 := ceilDiv_pos c.regionLayoutAsRegion.n_columns ru.n_columns hDc hruc
      omega)]
    exact ⟨_, rfl⟩
  have hwfa : al.WF := ofRegion_wf _ _ ru al hrur hruc hal
  obtain ⟨hanr, hanc, haru⟩ := ofRegion_fields _ _ ru al hal
  have hal' : areaLayout c ru = some al := hal
  have hrlD : c.layout.region_layout = c.regionLayoutAsRegion := by
    rw [Chip.regionLayoutAsRegion]
    by_cases h1 : c.layout.GetNumberOfRegions = 1
    · rw [if_pos h1]; exact hreg1 h1
    · rw [if_neg h1]
  have hal2 : MultiRegionLayout.ofRegion c.layout.region_layout.n_rows
      c.layout.region_layout.n_columns ru = some al := by
    rw [hrlD]; exact hal
  by_cases hP : c.pixels = []
  · have hact : ∀ m, c.IsRegionActive m = false := by
      intro m
      by_cases h1 : c.layout.GetNumberOfRegions = 1
      · simp [Chip.IsRegionActive, h1, hP]
      · simp [Chip.IsRegionActive, h1, Chip.regionPixels, hP]
    have hq0 : ∀ l : List Nat, l.filterMap (fun m =>
        if c.IsRegionActive m then
          (if (macroGroups al ru (c.GetRegionPixels m)).isEmpty then none
           else some (m, macroGroups al ru (c.GetRegionPixels m)))
        else none) = [] := by
      intro l
      induction l with
      | nil => rfl
      | cons x xs ih =>
        rw [List.filterMap_cons, hact x]
        exact ih
    have hmake : BlockMake adc_stat ru nbadc c = some Package.empty := by
      simp only [BlockMake, hal']
      rw [hq0]
      rfl
    have hread : BlockRead adc_stat ru nbadc Package.empty c.layout
        = some ⟨c.layout, []⟩ := by
      simp only [BlockRead, hal2]
      rfl
    exact ⟨Package.empty, ⟨c.layout, []⟩, hmake, hread, rfl, by rw [hP]⟩
  · obtain ⟨e0, he0⟩ : ∃ e, e ∈ c.pixels := by
      cases hcp : c.pixels with
      | nil => exact absurd hcp hP
      | cons x xs =>
        exact ⟨x, List.mem_cons_self _ _⟩
    have hany : (List.range c.layout.GetNumberOfRegions).any
        (fun m => c.IsRegionActive m) = true := by
      rw [List.any_eq_true]
      refine ⟨(c.layout.ConvertToRegionPixel e0.1).1, ?_, isRegionActive_of_mem c e0 he0⟩
      rw [List.mem_range]
      exact (convertTo_spec c.layout hwf hnr hnc e0.1 (hin e0 he0)).1
    set Q := (List.range c.layout.GetNumberOfRegions).filterMap (fun m =>
      if c.IsRegionActive m then
        (if (macroGroups al ru (c.GetRegionPixels m)).isEmpty then none
         else some (m, macroGroups al ru (c.GetRegionPixels m)))
      else none) with hQ
    set F := ((Q.map (fun e => e.2.length)).sum + 1) with hF
    have hqmem : ∀ q ∈ Q, q.1 < c.layout.GetNumberOfRegions ∧
        q.2 = macroGroups al ru (c.GetRegionPixels q.1) ∧ q.2 ≠ [] := by
      intro q hq
      rw [hQ, List.mem_filterMap] at hq
      obtain ⟨m, hm, hfm⟩ := hq
      rw [List.mem_range] at hm
      by_cases hactm : c.IsRegionActive m
      · rw [if_pos hactm] at hfm
        by_cases hemp : (macroGroups al ru (c.GetRegionPixels m)).isEmpty
        · rw [if_pos hemp] at hfm
          exact absurd hfm (by simp)
        · rw [if_neg hemp] at hfm
          have hq2 := Option.some_inj.mp hfm
          rw [← hq2]
          refine ⟨hm, rfl, ?_⟩
          intro hnil
          have hnil2 : macroGroups al ru (c.GetRegionPixels m) = [] := hnil
          rw [hnil2] at hemp
          exact hemp rfl
      · rw [if_neg hactm] at hfm
        exact absurd hfm (by simp)
    have hgmem : ∀ m, ∀ g ∈ macroGroups al ru (c.GetRegionPixels m),
        g.1 < al.GetNumberOfRegions ∧
        g.2 = cellAdcs ru ((Chip.mk al (c.GetRegionPixels m)).GetRegionPixels g.1) := by
      intro m g hg
      have hmg : macroGroups al ru (c.GetRegionPixels m)
          = (List.range al.GetNumberOfRegions).filterMap (fun rid =>
              if (Chip.mk al (c.GetRegionPixels m)).IsRegionActive rid
              then some (rid, cellAdcs ru
                ((Chip.mk al (c.GetRegionPixels m)).GetRegionPixels rid))
              else none) := rfl
      rw [hmg, List.mem_filterMap] at hg
      obtain ⟨rid, hrid, hfr⟩ := hg
      rw [List.mem_range] at hrid
      by_cases hactr : (Chip.mk al (c.GetRegionPixels m)).IsRegionActive rid
      · rw [if_pos hactr] at hfr
        have hg2 := Option.some_inj.mp hfr
        rw [← hg2]
        exact ⟨hrid, rfl⟩
      · rw [if_neg hactr] at hfr
        exact absurd hfr (by simp)
    have hal32r : al.n_rows ≤ 32768 := by
      rw [hanr, Chip.regionLayoutAsRegion]
      by_cases h1 : c.layout.GetNumberOfRegions = 1
      · rw [if_pos h1]; exact hnr
      · rw [if_neg h1]; exact hrt32r
    have hal32c : al.n_columns ≤ 32768 := by
      rw [hanc, Chip.regionLayoutAsRegion]
      by_cases h1 : c.layout.GetNumberOfRegions = 1
      · rw [if_pos h1]; exact hnc
      · rw [if_neg h1]; exact hrt32c
    have hmpix : ∀ m,
        (∀ e ∈ c.GetRegionPixels m,
          (RegionLayout.mk al.n_rows al.n_columns).IsPixelInside e.1 = true) ∧
        ((c.GetRegionPixels m).map Prod.fst).Nodup ∧
        (∀ e ∈ c.GetRegionPixels m, ∃ e2 ∈ c.pixels, e.2 = e2.2) := by
      intro m
      obtain ⟨hprops, hknod⟩ :=
        getRegionPixels_props c.layout hwf hnr hnc c.pixels hin hnod m
      refine ⟨?_, hknod, fun e he => (hprops e he).1⟩
      intro e he
      have h2 := (hprops e he).2
      have hmk : RegionLayout.mk al.n_rows al.n_columns
          = RegionLayout.mk c.regionLayoutAsRegion.n_rows
              c.regionLayoutAsRegion.n_columns := by
        rw [hanr, hanc]
      rw [hmk]
      exact h2
    have hcellv : ∀ m rid v,
        v ∈ cellAdcs ru ((Chip.mk al (c.GetRegionPixels m)).GetRegionPixels rid) →
        CellOk adc_stat nbadc v ∧ v < 65536 := by
      intro m rid v hv
      rcases cellAdcs_mem_ok ru _ v hv with h0 | ⟨ent, hent, hventry⟩
      · rw [h0]; exact ⟨hzero, by omega⟩
      · obtain ⟨hinm, hnodm, hsrcm⟩ := hmpix m
        obtain ⟨hprops1, _⟩ :=
          getRegionPixels_props al hwfa hal32r hal32c (c.GetRegionPixels m) hinm hnodm rid
        obtain ⟨⟨e1, he1, heq1⟩, _⟩ := hprops1 ent hent
        obtain ⟨e2, he2, heq2⟩ := hsrcm e1 he1
        rw [hventry, heq1, heq2]
        exact ⟨(hadcs e2 he2).2.2, (hadcs e2 he2).2.1⟩
    have halmn : al.GetNumberOfRegions * c.layout.GetNumberOfRegions ≤ 2 ^ 64 := by
      have h1 : al.n_region_rows ≤ 32768 := by
        rw [hwfa.grid_rows]
        have h0 := ceilDiv_le_self al.n_rows al.region_layout.n_rows hwfa.rl_rows_pos
        omega
      have h2 : al.n_region_columns ≤ 32768 := by
        rw [hwfa.grid_cols]
        have h0 := ceilDiv_le_self al.n_columns al.region_layout.n_columns hwfa.rl_cols_pos
        omega
      have h3 : c.layout.n_region_rows ≤ 32768 := by
        rw [hwf.grid_rows]
        have h0 := ceilDiv_le_self c.layout.n_rows c.layout.region_layout.n_rows
          hwf.rl_rows_pos
        omega
      have h4 : c.layout.n_region_columns ≤ 32768 := by
        rw [hwf.grid_cols]
        have h0 := ceilDiv_le_self c.layout.n_columns c.layout.region_layout.n_columns
          hwf.rl_cols_pos
        omega
      have h5 : al.GetNumberOfRegions ≤ 32768 * 32768 := Nat.mul_le_mul h1 h2
      have h6 : c.layout.GetNumberOfRegions ≤ 32768 * 32768 := Nat.mul_le_mul h3 h4
      have h7 : al.GetNumberOfRegions * c.layout.GetNumberOfRegions
          ≤ 32768 * 32768 * (32768 * 32768) := Nat.mul_le_mul h5 h6
      exact Nat.le_trans h7 (by norm_num)
    have hfull_lt : ∀ m rid, m < c.layout.GetNumberOfRegions →
        rid < al.GetNumberOfRegions →
        GetFullRegionId m rid c.layout.GetNumberOfRegions
          < 2 ^ RegionLayout.BitsPerValue
              (al.GetNumberOfRegions * c.layout.GetNumberOfRegions) := by
      intro m rid hm hrid
      have h1 : GetFullRegionId m rid c.layout.GetNumberOfRegions
          < al.GetNumberOfRegions * c.layout.GetNumberOfRegions := by
        rw [GetFullRegionId]
        calc rid * c.layout.GetNumberOfRegions + m
            < rid * c.layout.GetNumberOfRegions + c.layout.GetNumberOfRegions := by omega
          _ = (rid + 1) * c.layout.GetNumberOfRegions := (Nat.succ_mul _ _).symm
          _ ≤ al.GetNumberOfRegions * c.layout.GetNumberOfRegions :=
              Nat.mul_le_mul_right _ (by omega)
      have h2 := le_two_pow_BitsPerValue _ halmn
      omega
    obtain ⟨pkg, hloop, happ⟩ := blockLoop_appends adc_stat
      (RegionLayout.BitsPerValue (al.GetNumberOfRegions * c.layout.GetNumberOfRegions))
      nbadc c.layout.GetNumberOfRegions (BitsPerValue_le_64 _) hnbadc64 hstat
      F Q Package.empty empty_wf
      (fun q hq => (hqmem q hq).2.2)
      (by omega)
      (by
        intro q hq g hg
        obtain ⟨hm, hq2, _⟩ := hqmem q hq
        rw [hq2] at hg
        obtain ⟨hrid, hg2⟩ := hgmem q.1 g hg
        refine ⟨hfull_lt q.1 g.1 hm hrid, ?_⟩
        intro v hv
        rw [hg2] at hv
        exact (hcellv q.1 g.1 v hv).1)
    have hnreg : (if (List.range c.layout.GetNumberOfRegions).any
          (fun m => c.IsRegionActive m) = true
        then al.GetNumberOfRegions else 0) = al.GetNumberOfRegions := by
      rw [if_pos hany]
    have hmake : BlockMake adc_stat ru nbadc c = some pkg := by
      simp only [BlockMake, hal']
      rw [← hQ, hnreg]
      exact hloop
    have hrrp := rrJoin_perm F Q (fun q hq => (hqmem q hq).2.2) (by omega)
    have hPstar : (blockAdds al c.layout ru (rrJoin F Q)).Perm c.pixels := by
      have hba : ∀ gs2 : List (Nat × (Nat × List Nat)), blockAdds al c.layout ru gs2
          = gs2.flatMap (fun x =>
              cellAdds al c.layout x.1 x.2.1 (rasterCoords ru) x.2.2) :=
        fun _ => rfl
      rw [hba]
      refine (hrrp.flatMap_right _).trans ?_
      have h2 : ((Q.map (fun e => e.2.map (fun g => (e.1, g)))).flatten).flatMap
            (fun x => cellAdds al c.layout x.1 x.2.1 (rasterCoords ru) x.2.2)
          = blockAdds al c.layout ru
              (Q.flatMap (fun e => e.2.map (fun g => (e.1, g)))) := rfl
      rw [h2, hQ]
      exact blockAdds_queues_perm c al ru hwf hnr hnc hrt32r hrt32c hwfa hanr hanc haru
        hru32r hru32c hin hnod (fun e he => (hadcs e he).1)
    have hgsfacts : ∀ x ∈ rrJoin F Q, x.1 < c.layout.GetNumberOfRegions ∧
        x.2 ∈ macroGroups al ru (c.GetRegionPixels x.1) := by
      intro x hx
      have hx2 := hrrp.mem_iff.mp hx
      rw [List.mem_flatten] at hx2
      obtain ⟨l, hl, hxl⟩ := hx2
      rw [List.mem_map] at hl
      obtain ⟨q, hq, rfl⟩ := hl
      rw [List.mem_map] at hxl
      obtain ⟨g, hg, rfl⟩ := hxl
      obtain ⟨hm, hq2, _⟩ := hqmem q hq
      exact ⟨hm, hq2 ▸ hg⟩
    have hgood : ∀ x ∈ rrJoin F Q, x.1 < c.layout.GetNumberOfRegions ∧
        GetFullRegionId x.1 x.2.1 c.layout.GetNumberOfRegions
          < 2 ^ RegionLayout.BitsPerValue
              (al.GetNumberOfRegions * c.layout.GetNumberOfRegions) ∧
        x.2.2.length = (rasterCoords ru).length ∧
        0 < (blockGroupBits adc_stat
          (RegionLayout.BitsPerValue
            (al.GetNumberOfRegions * c.layout.GetNumberOfRegions)) nbadc
          c.layout.GetNumberOfRegions x.1 x.2).length ∧
        ∀ v ∈ x.2.2, CellOk adc_stat nbadc v ∧ v < 65536 := by
      intro x hx
      obtain ⟨hm, hxg⟩ := hgsfacts x hx
      obtain ⟨hrid, hg2⟩ := hgmem x.1 x.2 hxg
      refine ⟨hm, hfull_lt x.1 x.2.1 hm hrid, ?_, ?_, ?_⟩
      · rw [hg2, cellAdcs_length]
      · have hbg : (blockGroupBits adc_stat
            (RegionLayout.BitsPerValue
              (al.GetNumberOfRegions * c.layout.GetNumberOfRegions)) nbadc
            c.layout.GetNumberOfRegions x.1 x.2).length
            = RegionLayout.BitsPerValue
                (al.GetNumberOfRegions * c.layout.GetNumberOfRegions)
              + ((x.2.2.map (adcBits adc_stat nbadc)).flatten).length := by
          rw [blockGroupBits, List.length_append, msbBits_length]
        have hcnt : 0 < x.2.2.length := by
          rw [hg2, cellAdcs_length, rasterCoords_length]
          exact Nat.mul_pos hrur hruc
        have hflat : x.2.2.length
            ≤ ((x.2.2.map (adcBits adc_stat nbadc)).flatten).length := by
          have h0 := flatten_length_ge (x.2.2.map (adcBits adc_stat nbadc)) ?_
          · rwa [List.length_map] at h0
          · intro l hl
            rw [List.mem_map] at hl
            obtain ⟨v, hv, rfl⟩ := hl
            exact adcBits_pos adc_stat nbadc v hstat hnbadc0
              ((hcellv x.1 x.2.1 v (hg2 ▸ hv)).1)
        rw [hbg]
        omega
      · intro v hv
        exact hcellv x.1 x.2.1 v (hg2 ▸ hv)
    have hgb_pos : ∀ l ∈ (rrJoin F Q).map (fun x => blockGroupBits adc_stat
        (RegionLayout.BitsPerValue
          (al.GetNumberOfRegions * c.layout.GetNumberOfRegions)) nbadc
        c.layout.GetNumberOfRegions x.1 x.2), 0 < l.length := by
      intro l hl
      rw [List.mem_map] at hl
      obtain ⟨x, hx, rfl⟩ := hl
      exact (hgood x hx).2.2.2.1
    have hemp0 : Package.empty.endPos = 0 := rfl
    have hend2 : pkg.endPos = (((rrJoin F Q).map (fun x => blockGroupBits adc_stat
        (RegionLayout.BitsPerValue
          (al.GetNumberOfRegions * c.layout.GetNumberOfRegions)) nbadc
        c.layout.GetNumberOfRegions x.1 x.2)).flatten).length := by
      have h0 := happ.end_eq
      rw [hemp0] at h0
      omega
    have hlen2 : (rrJoin F Q).length < pkg.endPos + 1 := by
      have h0 := flatten_length_ge _ hgb_pos
      rw [List.length_map] at h0
      omega
    have hread0 := blockReadLoop_spec adc_stat
      (RegionLayout.BitsPerValue (al.GetNumberOfRegions * c.layout.GetNumberOfRegions))
      nbadc (BitsPerValue_le_64 _) hnbadc64 hstat al c.layout ru
      c.layout.GetNumberOfRegions pkg (rrJoin F Q) (pkg.endPos + 1) 0
      ⟨c.layout, []⟩ hlen2 (by omega)
      (fun j hj => happ.new j hj)
      hgood
      (fun e he => hin e (hPstar.mem_iff.mp he))
      (fun e he => rfl)
      ((hPstar.map Prod.fst).nodup_iff.mpr hnod)
    have hread : BlockRead adc_stat ru nbadc pkg c.layout
        = some ⟨c.layout, [] ++ blockAdds al c.layout ru (rrJoin F Q)⟩ := by
      simp only [BlockRead, hal2]
      exact hread0
    refine ⟨pkg, ⟨c.layout, [] ++ blockAdds al c.layout ru (rrJoin F Q)⟩,
      hmake, hread, rfl, ?_⟩
    show ([] ++ blockAdds al c.layout ru (rrJoin F Q)).Perm c.pixels
    rw [List.nil_append]
    exact hPstar


/-! ### The delta format (`DeltaPackageMaker.h`, `CombinedDelta` mode with
the `HuffmanDecoder` codec, as instantiated by `ChipDataEncoder`).

`GetOrderedPixels(Ordering::ByRow)` is `std::sort` with the row-major
comparator over the region map contents, modelled as a merge sort with the
matching total order.  The `size_t` arithmetic of `EncodePixel` /
`DecodePixel` enters through `toSize` and the coordinate narrowing through
`int16`; the `size_t → int` letter conversion is modelled value-preserving
(the ids stay far below `2^31` for constructible layouts). -/

def BitsPerNpixels : Nat := 10

def SpecialLetter : Int := -1

def byRowLe (a b : Pixel × Nat) : Bool :=
  decide (a.1.row < b.1.row ∨ (a.1.row = b.1.row ∧ a.1.column ≤ b.1.column))

def GetOrderedPixels (pix : List (Pixel × Nat)) : List (Pixel × Nat) :=
  pix.mergeSort byRowLe

/-- `DeltaPackageMaker::EncodePixel` in `CombinedDelta` mode: wrapped
row/column deltas, combined into a pixel id of the macro-region tile,
Huffman-encoded against the combined-delta dictionary; a letter outside
the alphabet escapes through `SpecialLetter` followed by the raw pixel id
(`GetPixelId` throws first when either pixel is outside the tile). -/
def EncodePixelD (drc : Stats) (rl : RegionLayout) (pixel prev : Pixel) (p : Package) :
    Option Package :=
  let dr := (toSize pixel.row + rl.n_rows - toSize prev.row) % rl.n_rows
  let dc := (toSize pixel.column + rl.n_columns - toSize prev.column) % rl.n_columns
  match rl.GetPixelId ⟨int16 dr, int16 dc⟩, rl.GetPixelId pixel with
  | some did, some pid =>
    if Int.ofNat did ∈ drc.alphabet then EncodeLetter drc (Int.ofNat did) p
    else
      match EncodeLetter drc SpecialLetter p with
      | none => none
      | some p1 => p1.write pid rl.BitsPerId
  | _, _ => none

/-- One round of the emit loop of `DeltaPackageMaker::Make`: each region
iterator with a current pixel encodes its delta and its adc letter and
advances (the consumed pixel becomes `previous()`). -/
def deltaPass (adc_stat drc : Stats) (rl : RegionLayout) :
    List (Pixel × List (Pixel × Nat)) → Package →
    Option (List (Pixel × List (Pixel × Nat)) × Package)
  | [], p => some ([], p)
  | (prev, []) :: rest, p =>
    match deltaPass adc_stat drc rl rest p with
    | none => none
    | some (rest2, p2) => some ((prev, []) :: rest2, p2)
  | (prev, (q, adc) :: tail) :: rest, p =>
    match EncodePixelD drc rl q prev p with
    | none => none
    | some p1 =>
      match EncodeLetter adc_stat (Int.ofNat adc) p1 with
      | none => none
      | some p2 =>
        match deltaPass adc_stat drc rl rest p2 with
        | none => none
        | some (rest2, p3) => some ((q, tail) :: rest2, p3)

/-- The `for(n < max_size)` loop of `Make`; a readout cycle closes every
second pass and the last one (`fuel = 0` after the pass is exactly
`n + 1 = max_size`). -/
def deltaLoop (adc_stat drc : Stats) (rl : RegionLayout) :
    Nat → Nat → List (Pixel × List (Pixel × Nat)) → Package → Option Package
  | 0, _, _, p => some p
  | fuel + 1, n, qs, p =>
    match deltaPass adc_stat drc rl qs p with
    | none => none
    | some (qs2, p1) =>
      deltaLoop adc_stat drc rl fuel (n + 1) qs2
        (if (n + 1) % 2 = 0 ∨ fuel = 0 then p1.nextReadoutCicle else p1)

/-- The trailer of `Make`: each region iterator's total pixel count in
`BitsPerNpixels` bits. -/
def writeSizes : List (Pixel × List (Pixel × Nat)) → Package → Option Package
  | [], p => some p
  | e :: rest, p =>
    match p.write e.2.length BitsPerNpixels with
    | none => none
    | some p1 => writeSizes rest p1

/-- `DeltaPackageMaker::Make` (`CombinedDelta`): per macro region the
row-major ordered pixels (empty for an inactive region), emitted in
interleaved passes, then the pixel-count trailer when there is more than
one macro region. -/
def DeltaMake (adc_stat drc : Stats) (c : Chip) : Option Package :=
  let rl := c.layout.region_layout
  let queues := (List.range c.layout.GetNumberOfRegions).map (fun m =>
    ((⟨0, 0⟩ : Pixel),
     if c.IsRegionActive m then GetOrderedPixels (c.GetRegionPixels m) else []))
  let max_size := (queues.map (fun e => e.2.length)).foldr Nat.max 0
  match deltaLoop adc_stat drc rl max_size 0 queues Package.empty with
  | none => none
  | some p =>
    if 1 < c.layout.GetNumberOfRegions then
      match writeSizes queues p with
      | none => none
      | some p2 => some p2.nextReadoutCicle
    else some p

/-- `DeltaPackageMaker::DecodePixel` (`CombinedDelta`): decode the
combined letter; `SpecialLetter` escapes to a raw pixel id decoded by
`GetPixel`; otherwise the letter is the delta pixel id and the previous
pixel advances by the wrapped delta. -/
def DecodePixelD (drc : Stats) (rl : RegionLayout) (prev : Pixel) (p : Package) (pos : Nat) :
    Option (Pixel × Nat) :=
  match DecodeLetter drc p pos with
  | none => none
  | some (letter, pos1) =>
    if letter = SpecialLetter then
      match p.read pos1 rl.BitsPerId false with
      | none => none
      | some (pid, pos2) =>
        match rl.GetPixel pid with
        | none => none
        | some pixel => some (pixel, pos2)
    else
      match rl.GetPixel (toSize letter) with
      | none => none
      | some delta =>
        some (⟨int16 (toSize (prev.row + delta.row) % rl.n_rows),
              int16 (toSize (prev.column + delta.column) % rl.n_columns)⟩, pos1)

/-- `Adc adc = Decoder::DecodeLetter(...)`: the decoded letter narrowed to
the 16-bit adc type. -/
def readAdcLetter (st : Stats) (p : Package) (pos : Nat) : Option (Nat × Nat) :=
  match DecodeLetter st p pos with
  | none => none
  | some (letter, pos2) => some (uint16 letter, pos2)

/-- One round of the read loop of `DeltaPackageMaker::Read` over the macro
regions `k = 0, 1, ...`: regions whose pixel count is exhausted are
skipped, the rest decode a pixel and an adc, add the converted pixel and
update their previous pixel. -/
def deltaReadPass (adc_stat drc : Stats) (rl : RegionLayout) (ml : MultiRegionLayout)
    (p : Package) (n : Nat) :
    List (Nat × Pixel) → Nat → Nat → Chip → Option (List (Nat × Pixel) × Nat × Chip)
  | [], _, pos, chip => some ([], pos, chip)
  | (np, prev) :: rest, k, pos, chip =>
    if np ≤ n then
      match deltaReadPass adc_stat drc rl ml p n rest (k + 1) pos chip with
      | none => none
      | some (rest2, pos2, chip2) => some ((np, prev) :: rest2, pos2, chip2)
    else
      match DecodePixelD drc rl prev p pos with
      | none => none
      | some (rpix, pos1) =>
        match readAdcLetter adc_stat p pos1 with
        | none => none
        | some (adc, pos2) =>
          match chip.AddPixel (ml.ConvertFromRegionPixel k rpix) adc with
          | none => none
          | some chip1 =>
            match deltaReadPass adc_stat drc rl ml p n rest (k + 1) pos2 chip1 with
            | none => none
            | some (rest2, pos3, chip2) => some ((np, rpix) :: rest2, pos3, chip2)

/-- The `for(n < max_n_pixels && iter != end)` loop of `Read`; every pass
decodes at least one bit, so the fuel covers the source's loop bound. -/
def deltaReadLoop (adc_stat drc : Stats) (rl : RegionLayout) (ml : MultiRegionLayout)
    (p : Package) (max_n : Nat) :
    Nat → Nat → List (Nat × Pixel) → Nat → Chip → Option Chip
  | 0, _, _, _, _ => none
  | fuel + 1, n, st, pos, chip =>
    if n < max_n ∧ pos ≠ p.endPos then
      match deltaReadPass adc_stat drc rl ml p n st 0 pos chip with
      | none => none
      | some (st2, pos2, chip2) =>
        deltaReadLoop adc_stat drc rl ml p max_n fuel (n + 1) st2 pos2 chip2
    else some chip

/-- Reading the pixel-count trailer. -/
def readSizes (p : Package) : Nat → Nat → Option (List Nat)
  | 0, _ => some []
  | k + 1, pos =>
    match p.read pos BitsPerNpixels false with
    | none => none
    | some (v, pos1) =>
      match readSizes p k pos1 with
      | none => none
      | some rest => some (v :: rest)

/-- `DeltaPackageMaker::Read`: with more than one macro region the pixel
counts come from the trailer (`iterator -= BitsPerNpixels * n`, whose
`size_t` underflow makes every subsequent read throw, modelled by the
explicit bound check); with one region `n_pixels[0]` is `SIZE_MAX`; a
layout without regions makes `n_pixels.at(0)` throw. -/
def DeltaRead (adc_stat drc : Stats) (p : Package) (ml : MultiRegionLayout) : Option Chip :=
  let rl := ml.region_layout
  if 1 < ml.GetNumberOfRegions then
    if p.endPos < BitsPerNpixels * ml.GetNumberOfRegions then none
    else
      match readSizes p ml.GetNumberOfRegions
          (p.endPos - BitsPerNpixels * ml.GetNumberOfRegions) with
      | none => none
      | some sizes =>
        deltaReadLoop adc_stat drc rl ml p (sizes.foldr Nat.max 0)
          (sizes.foldr Nat.max 0 + 1) 0
          (sizes.map (fun sz => (sz, (⟨0, 0⟩ : Pixel)))) 0 ⟨ml, []⟩
  else if ml.GetNumberOfRegions = 0 then none
  else
    deltaReadLoop adc_stat drc rl ml p (2 ^ 64 - 1) (p.endPos + 1) 0
      [(2 ^ 64 - 1, (⟨0, 0⟩ : Pixel))] 0 ⟨ml, []⟩


theorem delta_mod_inverse (a b n : Nat) (ha : a < n) (hb : b < n) :
    (a + (b + n - a) % n) % n = b := by
  by_cases hle : a ≤ b
  · have h1 : b + n - a = (b - a) + n := by omega
    rw [h1, Nat.add_mod_right, Nat.mod_eq_of_lt (show b - a < n from by omega),
      show a + (b - a) = b from by omega, Nat.mod_eq_of_lt hb]
  · rw [Nat.mod_eq_of_lt (show b + n - a < n from by omega),
      show a + (b + n - a) = b + n from by omega, Nat.add_mod_right,
      Nat.mod_eq_of_lt hb]

theorem getPixelId_coords (rl : RegionLayout) (dr dc : Nat)
    (hdr : dr < rl.n_rows) (hdc : dc < rl.n_columns) :
    rl.GetPixelId ⟨(dr : Int), (dc : Int)⟩ = some (dr * rl.n_columns + dc) := by
  have hin : rl.IsPixelInside ⟨(dr : Int), (dc : Int)⟩ = true := by
    simp only [RegionLayout.IsPixelInside, Bool.and_eq_true, decide_eq_true_eq]
    refine ⟨⟨⟨Int.natCast_nonneg dr, by exact_mod_cast hdr⟩,
      Int.natCast_nonneg dc⟩, by exact_mod_cast hdc⟩
  rw [RegionLayout.GetPixelId, if_pos hin]
  rw [Option.some_inj]
  show ((dr : Int)).toNat * rl.n_columns + ((dc : Int)).toNat = dr * rl.n_columns + dc
  rw [Int.toNat_natCast, Int.toNat_natCast]

theorem getPixel_of_coords (rl : RegionLayout) (dr dc : Nat)
    (hdr : dr < rl.n_rows) (hdc : dc < rl.n_columns)
    (h32r : rl.n_rows ≤ 32768) (h32c : rl.n_columns ≤ 32768) :
    rl.GetPixel (dr * rl.n_columns + dc) = some ⟨(dr : Int), (dc : Int)⟩ := by
  have hc : 0 < rl.n_columns := by omega
  have hmod : (dr * rl.n_columns + dc) % rl.n_columns = dc := by
    rw [Nat.mul_comm dr rl.n_columns, Nat.mul_add_mod, Nat.mod_eq_of_lt hdc]
  have hdiv : (dr * rl.n_columns + dc - (dr * rl.n_columns + dc) % rl.n_columns)
      / rl.n_columns = dr := by
    rw [hmod, show dr * rl.n_columns + dc - dc = dr * rl.n_columns from by omega,
      Nat.mul_div_cancel dr hc]
  have hin : rl.IsPixelInside ⟨int16 dr, int16 dc⟩ = true := by
    rw [int16_of_lt dr (by omega), int16_of_lt dc (by omega)]
    simp only [RegionLayout.IsPixelInside, Bool.and_eq_true, decide_eq_true_eq]
    refine ⟨⟨⟨Int.natCast_nonneg dr, by exact_mod_cast hdr⟩,
      Int.natCast_nonneg dc⟩, by exact_mod_cast hdc⟩
  rw [RegionLayout.GetPixel, hdiv, hmod, if_pos hin,
    int16_of_lt dr (by omega), int16_of_lt dc (by omega)]

def deltaLetterId (rl : RegionLayout) (pixel prev : Pixel) : Nat :=
  ((toSize pixel.row + rl.n_rows - toSize prev.row) % rl.n_rows) * rl.n_columns +
  (toSize pixel.column + rl.n_columns - toSize prev.column) % rl.n_columns

/-- The bits `EncodePixel` contributes on the in-alphabet path. -/
def deltaPixBits (drc : Stats) (rl : RegionLayout) (pixel prev : Pixel) : List Bool :=
  match drc.GetHuffmanCode (Int.ofNat (deltaLetterId rl pixel prev)) with
  | some code => codeBits code
  | none => []

/-- What makes a delta letter encodable: an alphabet and table entry. -/
def LetterOk (st : Stats) (letter : Int) : Prop :=
  letter ∈ st.alphabet ∧ ∃ code, (letter, code) ∈ st.huffman_table

theorem encodePixelD_appends (drc : Stats) (hdrc : GoodStats drc) (rl : RegionLayout)
    (h32r : rl.n_rows ≤ 32768) (h32c : rl.n_columns ≤ 32768)
    (hr0 : 0 < rl.n_rows) (hc0 : 0 < rl.n_columns)
    (pixel prev : Pixel)
    (hpin : rl.IsPixelInside pixel = true)
    (hok : LetterOk drc (Int.ofNat (deltaLetterId rl pixel prev)))
    (p : Package) (hwf : p.WF) :
    ∃ p', EncodePixelD drc rl pixel prev p = some p' ∧
      Appends p (deltaPixBits drc rl pixel prev) p' := by
  obtain ⟨hab, code, hcode⟩ := hok
  set dr := (toSize pixel.row + rl.n_rows - toSize prev.row) % rl.n_rows with hdr
  set dc := (toSize pixel.column + rl.n_columns - toSize prev.column) % rl.n_columns
    with hdc
  have hdrlt : dr < rl.n_rows := Nat.mod_lt _ hr0
  have hdclt : dc < rl.n_columns := Nat.mod_lt _ hc0
  have hdid : rl.GetPixelId ⟨int16 dr, int16 dc⟩ = some (dr * rl.n_columns + dc) := by
    rw [int16_of_lt dr (by omega), int16_of_lt dc (by omega)]
    exact getPixelId_coords rl dr dc hdrlt hdclt
  have hpid : rl.GetPixelId pixel
      = some (pixel.row.toNat * rl.n_columns + pixel.column.toNat) := by
    rw [RegionLayout.GetPixelId, if_pos hpin]
  have hdid_eq : dr * rl.n_columns + dc = deltaLetterId rl pixel prev := rfl
  obtain ⟨p', heq, happ, _⟩ := encodeLetter_appends drc hdrc
    (Int.ofNat (deltaLetterId rl pixel prev)) code hcode hab p hwf
  refine ⟨p', ?_, ?_⟩
  · rw [EncodePixelD]
    simp only [hdid, hpid, hdid_eq, if_pos hab]
    exact heq
  · have hbits : deltaPixBits drc rl pixel prev = codeBits code := by
      rw [deltaPixBits, Stats.GetHuffmanCode, if_pos hab,
        find_assoc_of_mem _ hdrc.keys_nodup _ hcode]
      rfl
    rw [hbits]
    exact happ


theorem decodePixelD_spec (drc : Stats) (hdrc : GoodStats drc) (rl : RegionLayout)
    (h32r : rl.n_rows ≤ 32768) (h32c : rl.n_columns ≤ 32768)
    (hr0 : 0 < rl.n_rows) (hc0 : 0 < rl.n_columns)
    (pixel prev : Pixel)
    (hpin : rl.IsPixelInside pixel = true)
    (hprevin : rl.IsPixelInside prev = true)
    (hok : LetterOk drc (Int.ofNat (deltaLetterId rl pixel prev)))
    (pf : Package) (pos : Nat)
    (hend : pos + (deltaPixBits drc rl pixel prev).length ≤ pf.endPos)
    (hbits : ∀ j, j < (deltaPixBits drc rl pixel prev).length →
      pf.bitAt (pos + j) = (deltaPixBits drc rl pixel prev).getD j false) :
    DecodePixelD drc rl prev pf pos
      = some (pixel, pos + (deltaPixBits drc rl pixel prev).length) := by
  obtain ⟨hab, code, hcode⟩ := hok
  have hbeq : deltaPixBits drc rl pixel prev = codeBits code := by
    rw [deltaPixBits, Stats.GetHuffmanCode, if_pos hab,
      find_assoc_of_mem _ hdrc.keys_nodup _ hcode]
    rfl
  rw [hbeq, codeBits_length] at hend
  have hdec := decodeLetter_spec drc hdrc (Int.ofNat (deltaLetterId rl pixel prev))
    code hcode pf pos hend
    (by
      intro j hj
      have h0 := hbits j (by rw [hbeq, codeBits_length]; exact hj)
      rw [hbeq, codeBits_getD _ _ hj] at h0
      exact h0)
  simp only [RegionLayout.IsPixelInside, Bool.and_eq_true, decide_eq_true_eq]
    at hpin hprevin
  obtain ⟨⟨⟨hb1, hb2⟩, hb3⟩, hb4⟩ := hpin
  obtain ⟨⟨⟨ha1, ha2⟩, ha3⟩, ha4⟩ := hprevin
  have htsp : toSize pixel.row = pixel.row.toNat := toSize_of_lt _ hb1 (by omega)
  have htspc : toSize pixel.column = pixel.column.toNat := toSize_of_lt _ hb3 (by omega)
  have htsa : toSize prev.row = prev.row.toNat := toSize_of_lt _ ha1 (by omega)
  have htsac : toSize prev.column = prev.column.toNat := toSize_of_lt _ ha3 (by omega)
  set a := prev.row.toNat with hadef
  set ac := prev.column.toNat with hacdef
  set b := pixel.row.toNat with hbdef
  set bc := pixel.column.toNat with hbcdef
  have haub : a < rl.n_rows := by omega
  have hacub : ac < rl.n_columns := by omega
  have hbub : b < rl.n_rows := by omega
  have hbcub : bc < rl.n_columns := by omega
  have hdid : deltaLetterId rl pixel prev
      = ((b + rl.n_rows - a) % rl.n_rows) * rl.n_columns
        + (bc + rl.n_columns - ac) % rl.n_columns := by
    rw [deltaLetterId, htsp, htspc, htsa, htsac]
  set dr := (b + rl.n_rows - a) % rl.n_rows with hdrdef
  set dc := (bc + rl.n_columns - ac) % rl.n_columns with hdcdef
  have hdrlt : dr < rl.n_rows := Nat.mod_lt _ hr0
  have hdclt : dc < rl.n_columns := Nat.mod_lt _ hc0
  have hne : Int.ofNat (deltaLetterId rl pixel prev) ≠ SpecialLetter := by
    rw [SpecialLetter]
    intro hcontra
    have h0 : (0 : Int) ≤ Int.ofNat (deltaLetterId rl pixel prev) :=
      Int.natCast_nonneg _
    omega
  have hts_letter : toSize (Int.ofNat (deltaLetterId rl pixel prev))
      = deltaLetterId rl pixel prev := by
    refine toSize_natCast _ ?_
    rw [hdid]
    have h1 : dr * rl.n_columns + dc < rl.n_rows * rl.n_columns := by
      calc dr * rl.n_columns + dc < dr * rl.n_columns + rl.n_columns := by omega
        _ = (dr + 1) * rl.n_columns := (Nat.succ_mul _ _).symm
        _ ≤ rl.n_rows * rl.n_columns := Nat.mul_le_mul_right _ (by omega)
    have h2 : rl.n_rows * rl.n_columns ≤ 32768 * 32768 := Nat.mul_le_mul h32r h32c
    omega
  have hgp : rl.GetPixel (toSize (Int.ofNat (deltaLetterId rl pixel prev)))
      = some ⟨(dr : Int), (dc : Int)⟩ := by
    rw [hts_letter, hdid]
    exact getPixel_of_coords rl dr dc hdrlt hdclt h32r h32c
  have hrow : toSize (prev.row + (dr : Int)) % rl.n_rows = b := by
    rw [toSize_of_lt _ (by omega) (by
        have h0 : prev.row + (dr : Int) < 32768 + 32768 := by omega
        omega),
      Int.toNat_add ha1 (Int.natCast_nonneg dr), Int.toNat_natCast]
    rw [← hadef]
    exact delta_mod_inverse a b rl.n_rows haub hbub
  have hcol : toSize (prev.column + (dc : Int)) % rl.n_columns = bc := by
    rw [toSize_of_lt _ (by omega) (by
        have h0 : prev.column + (dc : Int) < 32768 + 32768 := by omega
        omega),
      Int.toNat_add ha3 (Int.natCast_nonneg dc), Int.toNat_natCast]
    rw [← hacdef]
    exact delta_mod_inverse ac bc rl.n_columns hacub hbcub
  simp only [DecodePixelD, hdec, if_neg hne, hgp]
  rw [hrow, hcol, int16_of_lt b (by omega), int16_of_lt bc (by omega)]
  rw [hbdef, hbcdef, Int.toNat_of_nonneg hb1, Int.toNat_of_nonneg hb3]
  rw [hbeq, codeBits_length]


theorem readAdcLetter_spec (st : Stats) (hst : GoodStats st) (pf : Package) (pos v : Nat)
    (hok : LetterOk st (Int.ofNat v)) (hv16 : v < 65536)
    (hend : pos + (adcBits (some st) 0 v).length ≤ pf.endPos)
    (hbits : ∀ j, j < (adcBits (some st) 0 v).length →
      pf.bitAt (pos + j) = (adcBits (some st) 0 v).getD j false) :
    readAdcLetter st pf pos = some (v, pos + (adcBits (some st) 0 v).length) := by
  have h0 : readAdcLetter st pf pos = readCell (some st) 0 pf pos := rfl
  rw [h0]
  exact readCell_spec (some st) 0 pf pos v (by omega)
    (fun s hs => (Option.some_inj.mp hs) ▸ hst) hok hv16 hend hbits

/-- `RegionIterator::previous()` after `n` consumed pixels. -/
def prevAt (l : List (Pixel × Nat)) (n : Nat) : Pixel :=
  match (l.take n).getLast? with
  | some e => e.1
  | none => ⟨0, 0⟩

/-- The bits one region contributes to pass `n` of the delta emit loop. -/
def deltaGroupBits (adc_stat drc : Stats) (rl : RegionLayout)
    (l : List (Pixel × Nat)) (n : Nat) : List Bool :=
  match l[n]? with
  | none => []
  | some e => deltaPixBits drc rl e.1 (prevAt l n) ++ adcBits (some adc_stat) 0 e.2

/-- The bits of one whole pass. -/
def passBits (adc_stat drc : Stats) (rl : RegionLayout)
    (L : List (List (Pixel × Nat))) (n : Nat) : List Bool :=
  (L.map (fun l => deltaGroupBits adc_stat drc rl l n)).flatten

theorem prevAt_zero (l : List (Pixel × Nat)) : prevAt l 0 = ⟨0, 0⟩ := rfl

theorem prevAt_succ_lt (l : List (Pixel × Nat)) (n : Nat) (e : Pixel × Nat)
    (hget : l[n]? = some e) : prevAt l (n + 1) = e.1 := by
  have hn : n < l.length := by
    by_contra h
    rw [List.getElem?_eq_none (by omega)] at hget
    exact absurd hget (by simp)
  have h1 : (l.take (n + 1)).getLast? = some e := by
    rw [List.getLast?_eq_getElem?, List.length_take]
    have h2 : min (n + 1) l.length = n + 1 := by omega
    rw [h2]
    have h3 : (l.take (n + 1))[n]? = l[n]? := List.getElem?_take_of_lt (by omega)
    rw [show n + 1 - 1 = n from by omega, h3, hget]
  rw [prevAt, h1]

theorem prevAt_succ_ge (l : List (Pixel × Nat)) (n : Nat) (h : l.length ≤ n) :
    prevAt l (n + 1) = prevAt l n := by
  rw [prevAt, prevAt, List.take_of_length_le h, List.take_of_length_le (by omega)]

theorem prevAt_inside (rl : RegionLayout) (hr0 : 0 < rl.n_rows) (hc0 : 0 < rl.n_columns)
    (l : List (Pixel × Nat)) (n : Nat)
    (hin : ∀ e ∈ l, rl.IsPixelInside e.1 = true) :
    rl.IsPixelInside (prevAt l n) = true := by
  rw [prevAt]
  cases hlast : (l.take n).getLast? with
  | none =>
    simp only [RegionLayout.IsPixelInside, Bool.and_eq_true, decide_eq_true_eq]
    exact ⟨⟨⟨Int.le_refl 0, by exact_mod_cast hr0⟩, Int.le_refl 0⟩, by exact_mod_cast hc0⟩
  | some e =>
    have hmem : e ∈ l.take n := List.mem_of_mem_getLast? hlast
    exact hin e (List.mem_of_mem_take hmem)

theorem Appends.readout_ite {p q : Package} {B : List Bool} (c : Prop) [Decidable c]
    (h : Appends p B q) : Appends p B (if c then q.nextReadoutCicle else q) := by
  by_cases hc : c
  · rw [if_pos hc]; exact h.readout
  · rw [if_neg hc]; exact h

set_option maxHeartbeats 1600000 in
theorem deltaPass_appends (adc_stat drc : Stats)
    (hadc : GoodStats adc_stat) (hdrc : GoodStats drc) (rl : RegionLayout)
    (h32r : rl.n_rows ≤ 32768) (h32c : rl.n_columns ≤ 32768)
    (hr0 : 0 < rl.n_rows) (hc0 : 0 < rl.n_columns) (n : Nat) :
    ∀ (L : List (List (Pixel × Nat))) (p : Package), p.WF →
    (∀ l ∈ L, ∀ e ∈ l, rl.IsPixelInside e.1 = true ∧
      LetterOk adc_stat (Int.ofNat e.2)) →
    (∀ l ∈ L, ∀ j : Nat, ∀ e : Pixel × Nat, l[j]? = some e →
      LetterOk drc (Int.ofNat (deltaLetterId rl e.1 (prevAt l j)))) →
    ∃ p', deltaPass adc_stat drc rl (L.map (fun l => (prevAt l n, l.drop n))) p
        = some (L.map (fun l => (prevAt l (n + 1), l.drop (n + 1))), p') ∧
      Appends p (passBits adc_stat drc rl L n) p' := by
  intro L
  induction L with
  | nil =>
    intro p hwf _ _
    exact ⟨p, rfl, by simpa [passBits] using Appends.refl_of_wf p hwf⟩
  | cons l L ih =>
    intro p hwf hcond hdelta
    have hpb : passBits adc_stat drc rl (l :: L) n
        = deltaGroupBits adc_stat drc rl l n ++ passBits adc_stat drc rl L n := by
      rw [passBits, List.map_cons, List.flatten_cons]
      rfl
    cases hdrop : l.drop n with
    | nil =>
      have hge : l.length ≤ n := by
        have h0 := List.drop_eq_nil_iff.mp hdrop
        omega
      have hnone : l[n]? = none := List.getElem?_eq_none (by omega)
      have hgb : deltaGroupBits adc_stat drc rl l n = [] := by
        rw [deltaGroupBits, hnone]
      obtain ⟨p', heq, happ⟩ := ih p hwf
        (fun l2 hl2 => hcond l2 (List.mem_cons_of_mem _ hl2))
        (fun l2 hl2 => hdelta l2 (List.mem_cons_of_mem _ hl2))
      refine ⟨p', ?_, ?_⟩
      · simp only [List.map_cons, hdrop]
        show (match deltaPass adc_stat drc rl
            (L.map (fun l => (prevAt l n, l.drop n))) p with
          | none => none
          | some (rest2, p2) => some ((prevAt l n, ([] : List (Pixel × Nat))) :: rest2, p2))
          = _
        rw [heq, Option.some_inj, Prod.mk.injEq]
        refine ⟨?_, rfl⟩
        rw [prevAt_succ_ge l n hge,
          List.drop_eq_nil_iff.mpr (show l.length ≤ n + 1 from by omega)]
      · rw [hpb, hgb, List.nil_append]
        exact happ
    | cons e tail =>
      obtain ⟨q, adc⟩ := e
      have hn : n < l.length := by
        by_contra h
        rw [List.drop_eq_nil_iff.mpr (by omega)] at hdrop
        exact absurd hdrop (by simp)
      have hgete : l[n]? = some (q, adc) := by
        have h0 := List.getElem?_drop l n 0
        rw [hdrop, Nat.add_zero, List.getElem?_cons_zero] at h0
        exact h0.symm
      have hmeme : (q, adc) ∈ l := by
        refine List.mem_of_mem_drop (show (q, adc) ∈ l.drop n from ?_)
        rw [hdrop]
        exact List.mem_cons_self _ _
      obtain ⟨hqin, hqadc⟩ := hcond l (List.mem_cons_self _ _) (q, adc) hmeme
      have hqdelta := hdelta l (List.mem_cons_self _ _) n (q, adc) hgete
      obtain ⟨p1, heq1, happ1⟩ := encodePixelD_appends drc hdrc rl h32r h32c hr0 hc0
        q (prevAt l n) hqin hqdelta p hwf
      obtain ⟨habA, codeA, hcodeA⟩ := hqadc
      obtain ⟨p2, heq2, happ2, _⟩ := encodeLetter_appends adc_stat hadc
        (Int.ofNat adc) codeA hcodeA habA p1 happ1.wf
      have hadcbits : adcBits (some adc_stat) 0 adc = codeBits codeA := by
        have h0 : adcBits (some adc_stat) 0 adc
            = (match adc_stat.GetHuffmanCode (Int.ofNat adc) with
               | some code => codeBits code
               | none => []) := rfl
        rw [h0, Stats.GetHuffmanCode, if_pos habA,
          find_assoc_of_mem _ hadc.keys_nodup _ hcodeA]
        rfl
      rw [← hadcbits] at happ2
      obtain ⟨p', heq3, happ3⟩ := ih p2 happ2.wf
        (fun l2 hl2 => hcond l2 (List.mem_cons_of_mem _ hl2))
        (fun l2 hl2 => hdelta l2 (List.mem_cons_of_mem _ hl2))
      have hgb : deltaGroupBits adc_stat drc rl l n
          = deltaPixBits drc rl q (prevAt l n) ++ adcBits (some adc_stat) 0 adc := by
        rw [deltaGroupBits, hgete]
      refine ⟨p', ?_, ?_⟩
      · simp only [List.map_cons, hdrop]
        show (match EncodePixelD drc rl q (prevAt l n) p with
          | none => none
          | some p1 =>
            match EncodeLetter adc_stat (Int.ofNat adc) p1 with
            | none => none
            | some p2 =>
              match deltaPass adc_stat drc rl
                  (L.map (fun l => (prevAt l n, l.drop n))) p2 with
              | none => none
              | some (rest2, p3) => some ((q, tail) :: rest2, p3)) = _
        simp only [heq1, heq2, heq3]
        rw [Option.some_inj, Prod.mk.injEq]
        refine ⟨?_, rfl⟩
        rw [prevAt_succ_lt l n (q, adc) hgete, ← List.tail_drop, hdrop]
        rfl
      · rw [hpb, hgb]
        exact (happ1.trans happ2).trans happ3

set_option maxHeartbeats 1600000 in
theorem deltaLoop_appends (adc_stat drc : Stats)
    (hadc : GoodStats adc_stat) (hdrc : GoodStats drc) (rl : RegionLayout)
    (h32r : rl.n_rows ≤ 32768) (h32c : rl.n_columns ≤ 32768)
    (hr0 : 0 < rl.n_rows) (hc0 : 0 < rl.n_columns)
    (L : List (List (Pixel × Nat)))
    (hcond : ∀ l ∈ L, ∀ e ∈ l, rl.IsPixelInside e.1 = true ∧
      LetterOk adc_stat (Int.ofNat e.2))
    (hdelta : ∀ l ∈ L, ∀ j : Nat, ∀ e : Pixel × Nat, l[j]? = some e →
      LetterOk drc (Int.ofNat (deltaLetterId rl e.1 (prevAt l j)))) :
    ∀ (k n : Nat) (p : Package), p.WF →
    ∃ p', deltaLoop adc_stat drc rl k n (L.map (fun l => (prevAt l n, l.drop n))) p
        = some p' ∧
      Appends p (((List.range' n k).map (passBits adc_stat drc rl L)).flatten) p' := by
  intro k
  induction k with
  | zero =>
    intro n p hwf
    exact ⟨p, rfl, by simpa using Appends.refl_of_wf p hwf⟩
  | succ k ih =>
    intro n p hwf
    obtain ⟨p1, heq1, happ1⟩ := deltaPass_appends adc_stat drc hadc hdrc rl
      h32r h32c hr0 hc0 n L p hwf hcond hdelta
    have happ1b := happ1.readout_ite ((n + 1) % 2 = 0 ∨ k = 0)
    obtain ⟨p', heq2, happ2⟩ := ih (n + 1)
      (if (n + 1) % 2 = 0 ∨ k = 0 then p1.nextReadoutCicle else p1) happ1b.wf
    refine ⟨p', ?_, ?_⟩
    · show (match deltaPass adc_stat drc rl
          (L.map (fun l => (prevAt l n, l.drop n))) p with
        | none => none
        | some (qs2, p1) =>
          deltaLoop adc_stat drc rl k (n + 1) qs2
            (if (n + 1) % 2 = 0 ∨ k = 0 then p1.nextReadoutCicle else p1)) = _
      simp only [heq1]
      exact heq2
    · have hr : List.range' n (k + 1) = n :: List.range' (n + 1) k := rfl
      rw [hr, List.map_cons, List.flatten_cons]
      exact happ1b.trans happ2


/-! ### The trailer of `Make` and the read side of the delta format -/

theorem writeSizes_appends :
    ∀ (qs : List (Pixel × List (Pixel × Nat))) (p : Package), p.WF →
    (∀ e ∈ qs, e.2.length < 2 ^ BitsPerNpixels) →
    ∃ p', writeSizes qs p = some p' ∧
      Appends p ((qs.map (fun e => msbBits e.2.length BitsPerNpixels)).flatten) p' := by
  intro qs
  induction qs with
  | nil =>
    intro p hwf _
    exact ⟨p, rfl, by simpa using Appends.refl_of_wf p hwf⟩
  | cons e qs ih =>
    intro p hwf hsz
    obtain ⟨p1, heq1, happ1, _⟩ := write_appends p e.2.length BitsPerNpixels hwf
      (by rw [BitsPerNpixels]; omega) (hsz e (List.mem_cons_self _ _))
    obtain ⟨p', heq2, happ2⟩ := ih p1 happ1.wf
      (fun f hf => hsz f (List.mem_cons_of_mem _ hf))
    refine ⟨p', ?_, ?_⟩
    · show (match p.write e.2.length BitsPerNpixels with
        | none => none
        | some p1 => writeSizes qs p1) = some p'
      rw [heq1]
      exact heq2
    · rw [List.map_cons, List.flatten_cons]
      exact happ1.trans happ2

theorem sizesBits_length (sz : List Nat) :
    ((sz.map (fun v => msbBits v BitsPerNpixels)).flatten).length
      = BitsPerNpixels * sz.length := by
  induction sz with
  | nil => rfl
  | cons v rest ih =>
    rw [List.map_cons, List.flatten_cons, List.length_append, msbBits_length, ih,
      List.length_cons, Nat.mul_succ]
    omega

theorem readSizes_spec (pf : Package) :
    ∀ (sz : List Nat) (pos : Nat),
    (∀ v ∈ sz, v < 2 ^ BitsPerNpixels) →
    pos + BitsPerNpixels * sz.length ≤ pf.endPos →
    (∀ j, j < ((sz.map (fun v => msbBits v BitsPerNpixels)).flatten).length →
      pf.bitAt (pos + j)
        = ((sz.map (fun v => msbBits v BitsPerNpixels)).flatten).getD j false) →
    readSizes pf sz.length pos = some sz := by
  intro sz
  induction sz with
  | nil => intro pos _ _ _; rfl
  | cons v rest ih =>
    intro pos hv hend hbits
    rw [List.length_cons, Nat.mul_succ] at hend
    have hsplit : ((v :: rest).map (fun v => msbBits v BitsPerNpixels)).flatten
        = msbBits v BitsPerNpixels
          ++ ((rest.map (fun v => msbBits v BitsPerNpixels)).flatten) := by
      rw [List.map_cons, List.flatten_cons]
    have hlenr := sizesBits_length rest
    have hread : pf.read pos BitsPerNpixels false
        = some (v, pos + BitsPerNpixels) := by
      refine read_msb_field pf pos v BitsPerNpixels (by rw [BitsPerNpixels]; omega)
        (by omega) (hv v (List.mem_cons_self _ _)) ?_
      intro j hj
      have h2 := hbits j (by
        rw [hsplit, List.length_append, msbBits_length]; omega)
      rw [hsplit, List.getD_append _ _ _ _ (by rw [msbBits_length]; omega)] at h2
      exact h2
    have hrec := ih (pos + BitsPerNpixels)
      (fun w hw => hv w (List.mem_cons_of_mem _ hw))
      (by omega)
      (by
        intro j hj
        have h2 := hbits (BitsPerNpixels + j) (by
          rw [hsplit, List.length_append, msbBits_length]; omega)
        rw [hsplit, List.getD_append_right _ _ _ _ (by rw [msbBits_length]; omega),
          msbBits_length] at h2
        rw [show pos + BitsPerNpixels + j = pos + (BitsPerNpixels + j) from by omega,
          h2, show BitsPerNpixels + j - BitsPerNpixels = j from by omega])
    show (match pf.read pos BitsPerNpixels false with
      | none => none
      | some (v, pos1) =>
        match readSizes pf rest.length pos1 with
        | none => none
        | some r => some (v :: r)) = some (v :: rest)
    simp only [hread, hrec]

/-- The pixel entry region `k` adds during read pass `n` (nothing when its
queue is already exhausted). -/
def optAdd (ml : MultiRegionLayout) (k : Nat) (l : List (Pixel × Nat)) (n : Nat) :
    List (Pixel × Nat) :=
  match l[n]? with
  | none => []
  | some e => [(ml.ConvertFromRegionPixel k e.1, e.2)]

/-- The pixels one read pass adds over the regions `k0, k0 + 1, …`. -/
def passAdds (ml : MultiRegionLayout) (n : Nat) : Nat → List (List (Pixel × Nat)) →
    List (Pixel × Nat)
  | _, [] => []
  | k0, l :: rest => optAdd ml k0 l n ++ passAdds ml n (k0 + 1) rest

/-- The region queues in region-major order, converted to global
coordinates: what the whole read loop adds, up to transposition. -/
def regionAdds (ml : MultiRegionLayout) : Nat → List (List (Pixel × Nat)) →
    List (Pixel × Nat)
  | _, [] => []
  | k0, l :: rest =>
    l.map (fun e => (ml.ConvertFromRegionPixel k0 e.1, e.2))
      ++ regionAdds ml (k0 + 1) rest

theorem flatten_map_append_perm {α β : Type} (f g : α → List β) :
    ∀ ms : List α,
    ((ms.map (fun m => f m ++ g m)).flatten).Perm
      ((ms.map f).flatten ++ (ms.map g).flatten) := by
  intro ms
  induction ms with
  | nil => exact List.Perm.refl _
  | cons m ms ih =>
    rw [List.map_cons, List.flatten_cons, List.map_cons, List.flatten_cons,
      List.map_cons, List.flatten_cons]
    refine (ih.append_left (f m ++ g m)).trans ?_
    rw [List.append_assoc, List.append_assoc]
    exact (List.perm_append_comm_assoc (g m) ((ms.map f).flatten)
      ((ms.map g).flatten)).append_left (f m)

theorem optAdd_flatten (ml : MultiRegionLayout) (k : Nat) (l : List (Pixel × Nat)) :
    ∀ t : Nat, ((List.range t).map (fun m => optAdd ml k l m)).flatten
      = (l.take t).map (fun e => (ml.ConvertFromRegionPixel k e.1, e.2)) := by
  intro t
  induction t with
  | zero => rfl
  | succ t ih =>
    rw [List.range_succ, List.map_append, List.flatten_append, ih, List.take_succ,
      List.map_append, List.map_cons, List.map_nil, List.flatten_cons,
      List.flatten_nil, List.append_nil]
    cases hget : l[t]? with
    | none => rw [optAdd, hget]; rfl
    | some e => rw [optAdd, hget]; rfl

theorem passAdds_transpose (ml : MultiRegionLayout) (T : Nat) :
    ∀ (L : List (List (Pixel × Nat))) (k0 : Nat),
    (∀ l ∈ L, l.length ≤ T) →
    (((List.range T).map (fun m => passAdds ml m k0 L)).flatten).Perm
      (regionAdds ml k0 L) := by
  intro L
  induction L with
  | nil =>
    intro k0 _
    have h0 : ∀ m, passAdds ml m k0 ([] : List (List (Pixel × Nat))) = [] :=
      fun _ => rfl
    have h1 : ∀ ms : List Nat,
        ((ms.map (fun m => passAdds ml m k0 ([] : List (List (Pixel × Nat))))).flatten)
          = [] := by
      intro ms
      induction ms with
      | nil => rfl
      | cons x xs ih2 =>
        rw [List.map_cons, List.flatten_cons, h0, List.nil_append]
        exact ih2
    rw [h1]
    exact List.Perm.refl _
  | cons l L ih =>
    intro k0 hlen
    have hcong : (List.range T).map (fun m => passAdds ml m k0 (l :: L))
        = (List.range T).map (fun m =>
            optAdd ml k0 l m ++ passAdds ml m (k0 + 1) L) :=
      List.map_congr_left (fun m _ => rfl)
    rw [hcong]
    refine (flatten_map_append_perm (fun m => optAdd ml k0 l m)
      (fun m => passAdds ml m (k0 + 1) L) (List.range T)).trans ?_
    rw [optAdd_flatten ml k0 l T,
      List.take_of_length_le (hlen l (List.mem_cons_self _ _))]
    show (l.map (fun e => (ml.ConvertFromRegionPixel k0 e.1, e.2))
      ++ ((List.range T).map (fun m => passAdds ml m (k0 + 1) L)).flatten).Perm
      (regionAdds ml k0 (l :: L))
    have hreg : regionAdds ml k0 (l :: L)
        = l.map (fun e => (ml.ConvertFromRegionPixel k0 e.1, e.2))
          ++ regionAdds ml (k0 + 1) L := rfl
    rw [hreg]
    exact (ih (k0 + 1) (fun x hx => hlen x (List.mem_cons_of_mem _ hx))).append_left _

theorem regionAdds_map_range (ml : MultiRegionLayout) (f : Nat → List (Pixel × Nat)) :
    ∀ (cnt k0 : Nat),
    regionAdds ml k0 ((List.range' k0 cnt).map f)
      = (List.range' k0 cnt).flatMap (fun m =>
          (f m).map (fun e => (ml.ConvertFromRegionPixel m e.1, e.2))) := by
  intro cnt
  induction cnt with
  | zero => intro k0; rfl
  | succ cnt ih =>
    intro k0
    have hr : List.range' k0 (cnt + 1) = k0 :: List.range' (k0 + 1) cnt := rfl
    rw [hr, List.map_cons, List.flatMap_cons]
    show (f k0).map (fun e => (ml.ConvertFromRegionPixel k0 e.1, e.2))
        ++ regionAdds ml (k0 + 1) ((List.range' (k0 + 1) cnt).map f)
      = (f k0).map (fun e => (ml.ConvertFromRegionPixel k0 e.1, e.2))
        ++ (List.range' (k0 + 1) cnt).flatMap (fun m =>
            (f m).map (fun e => (ml.ConvertFromRegionPixel m e.1, e.2)))
    rw [ih (k0 + 1)]

theorem flatMap_perm_of_forall {α β : Type} :
    ∀ (l : List α) (f g : α → List β),
    (∀ x ∈ l, (f x).Perm (g x)) → (l.flatMap f).Perm (l.flatMap g) := by
  intro l
  induction l with
  | nil => intro f g _; exact List.Perm.refl _
  | cons x l ih =>
    intro f g h
    rw [List.flatMap_cons, List.flatMap_cons]
    exact (h x (List.mem_cons_self _ _)).append
      (ih f g (fun y hy => h y (List.mem_cons_of_mem _ hy)))

theorem foldr_max_le : ∀ (l : List Nat), ∀ x ∈ l, x ≤ l.foldr Nat.max 0 := by
  intro l
  induction l with
  | nil => intro x hx; exact absurd hx (by simp)
  | cons a l ih =>
    intro x hx
    rw [List.foldr_cons]
    rcases List.mem_cons.mp hx with h1 | h2
    · rw [h1]; exact Nat.le_max_left _ _
    · exact Nat.le_trans (ih x h2) (Nat.le_max_right _ _)

theorem foldr_max_lt : ∀ (l : List Nat) (m : Nat),
    m < l.foldr Nat.max 0 → ∃ x ∈ l, m < x := by
  intro l
  induction l with
  | nil => intro m hm; rw [List.foldr_nil] at hm; omega
  | cons a l ih =>
    intro m hm
    rw [List.foldr_cons] at hm
    rcases lt_max_iff.mp hm with h1 | h2
    · exact ⟨a, List.mem_cons_self _ _, h1⟩
    · obtain ⟨x, hx, hxm⟩ := ih m h2
      exact ⟨x, List.mem_cons_of_mem _ hx, hxm⟩

theorem deltaLetterId_lt (rl : RegionLayout) (hr0 : 0 < rl.n_rows)
    (hc0 : 0 < rl.n_columns) (pixel prev : Pixel) :
    deltaLetterId rl pixel prev < rl.n_rows * rl.n_columns := by
  rw [deltaLetterId]
  have h1 : (toSize pixel.row + rl.n_rows - toSize prev.row) % rl.n_rows
      < rl.n_rows := Nat.mod_lt _ hr0
  have h2 : (toSize pixel.column + rl.n_columns - toSize prev.column) % rl.n_columns
      < rl.n_columns := Nat.mod_lt _ hc0
  calc (toSize pixel.row + rl.n_rows - toSize prev.row) % rl.n_rows * rl.n_columns
        + (toSize pixel.column + rl.n_columns - toSize prev.column) % rl.n_columns
      < (toSize pixel.row + rl.n_rows - toSize prev.row) % rl.n_rows * rl.n_columns
        + rl.n_columns := by omega
    _ = ((toSize pixel.row + rl.n_rows - toSize prev.row) % rl.n_rows + 1)
        * rl.n_columns := (Nat.succ_mul _ _).symm
    _ ≤ rl.n_rows * rl.n_columns := Nat.mul_le_mul_right _ (by omega)

theorem deltaPixBits_pos (drc : Stats) (hdrc : GoodStats drc) (rl : RegionLayout)
    (pixel prev : Pixel)
    (hok : LetterOk drc (Int.ofNat (deltaLetterId rl pixel prev))) :
    0 < (deltaPixBits drc rl pixel prev).length := by
  obtain ⟨hab, code, hcode⟩ := hok
  rw [deltaPixBits, Stats.GetHuffmanCode, if_pos hab,
    find_assoc_of_mem _ hdrc.keys_nodup _ hcode]
  show 0 < (codeBits code).length
  rw [codeBits_length]
  exact (hdrc.bounds _ hcode).1

set_option maxHeartbeats 1600000 in
theorem deltaReadPass_spec (adc_stat drc : Stats)
    (hadc : GoodStats adc_stat) (hdrc : GoodStats drc) (rl : RegionLayout)
    (h32r : rl.n_rows ≤ 32768) (h32c : rl.n_columns ≤ 32768)
    (hr0 : 0 < rl.n_rows) (hc0 : 0 < rl.n_columns)
    (ml : MultiRegionLayout) (pf : Package) (n : Nat) :
    ∀ (S : List (Nat × List (Pixel × Nat))) (k0 pos : Nat) (c0 : Chip),
    (∀ s ∈ S, (s.1 ≤ n ↔ s.2.length ≤ n)) →
    (∀ s ∈ S, ∀ e ∈ s.2, rl.IsPixelInside e.1 = true ∧
      LetterOk adc_stat (Int.ofNat e.2) ∧ e.2 < 65536) →
    (∀ s ∈ S, ∀ j : Nat, ∀ e : Pixel × Nat, s.2[j]? = some e →
      LetterOk drc (Int.ofNat (deltaLetterId rl e.1 (prevAt s.2 j)))) →
    pos + (passBits adc_stat drc rl (S.map Prod.snd) n).length ≤ pf.endPos →
    (∀ j, j < (passBits adc_stat drc rl (S.map Prod.snd) n).length →
      pf.bitAt (pos + j)
        = (passBits adc_stat drc rl (S.map Prod.snd) n).getD j false) →
    (∀ e ∈ passAdds ml n k0 (S.map Prod.snd),
      (RegionLayout.mk c0.layout.n_rows c0.layout.n_columns).IsPixelInside e.1
        = true) →
    (∀ e ∈ passAdds ml n k0 (S.map Prod.snd),
      c0.pixels.find? (fun x => x.1 = e.1) = none) →
    ((passAdds ml n k0 (S.map Prod.snd)).map Prod.fst).Nodup →
    deltaReadPass adc_stat drc rl ml pf n
        (S.map (fun s => (s.1, prevAt s.2 n))) k0 pos c0
      = some (S.map (fun s => (s.1, prevAt s.2 (n + 1))),
          pos + (passBits adc_stat drc rl (S.map Prod.snd) n).length,
          ⟨c0.layout, c0.pixels ++ passAdds ml n k0 (S.map Prod.snd)⟩) := by
  intro S
  induction S with
  | nil =>
    intro k0 pos c0 _ _ _ _ _ _ _ _
    simp only [List.map_nil]
    show some ([], pos, c0)
      = some ([], pos + (passBits adc_stat drc rl [] n).length,
          ⟨c0.layout, c0.pixels ++ passAdds ml n k0 []⟩)
    rw [show passBits adc_stat drc rl [] n = [] from rfl,
      show passAdds ml n k0 ([] : List (List (Pixel × Nat))) = [] from rfl,
      List.length_nil, Nat.add_zero, List.append_nil]
  | cons s S ih =>
    obtain ⟨np, l⟩ := s
    intro k0 pos c0 halign hcond hdelta hend hbits hins hfresh hnodup
    simp only [List.map_cons] at hend hbits hins hfresh hnodup ⊢
    have hsplit : passBits adc_stat drc rl (l :: S.map Prod.snd) n
        = deltaGroupBits adc_stat drc rl l n
          ++ passBits adc_stat drc rl (S.map Prod.snd) n := by
      rw [passBits, List.map_cons, List.flatten_cons]
      rfl
    have hasplit : passAdds ml n k0 (l :: S.map Prod.snd)
        = optAdd ml k0 l n ++ passAdds ml n (k0 + 1) (S.map Prod.snd) := rfl
    rw [hsplit, List.length_append] at hend
    rw [hasplit] at hins hfresh hnodup
    simp only [deltaReadPass]
    by_cases hskip : np ≤ n
    · have hgen : l.length ≤ n := (halign (np, l) (List.mem_cons_self _ _)).mp hskip
      have hnone : l[n]? = none := List.getElem?_eq_none (by omega)
      have hgb : deltaGroupBits adc_stat drc rl l n = [] := by
        rw [deltaGroupBits, hnone]
      have hoa : optAdd ml k0 l n = [] := by
        rw [optAdd, hnone]
      rw [hgb, List.length_nil] at hend
      rw [hoa, List.nil_append] at hins hfresh hnodup
      have hrec := ih (k0 + 1) pos c0
        (fun t ht => halign t (List.mem_cons_of_mem _ ht))
        (fun t ht => hcond t (List.mem_cons_of_mem _ ht))
        (fun t ht => hdelta t (List.mem_cons_of_mem _ ht))
        (by omega)
        (by
          intro j hj
          have h2 := hbits j (by rw [hsplit, hgb, List.nil_append]; exact hj)
          rw [hsplit, hgb, List.nil_append] at h2
          exact h2)
        hins hfresh hnodup
      rw [if_pos hskip]
      simp only [hrec]
      refine congrArg some ?_
      rw [hsplit, hasplit, hgb, hoa, prevAt_succ_ge l n hgen]
      simp only [List.nil_append, List.length_nil, Nat.zero_add]
    · have hlt : n < l.length := by
        by_contra hc
        exact hskip ((halign (np, l) (List.mem_cons_self _ _)).mpr
          (show l.length ≤ n from by omega))
      obtain ⟨e, hget⟩ : ∃ e, l[n]? = some e :=
        ⟨l[n], List.getElem?_eq_getElem hlt⟩
      have hmem : e ∈ l := List.getElem?_mem hget
      obtain ⟨hein, headc, he16⟩ := hcond (np, l) (List.mem_cons_self _ _) e hmem
      have hdelta0 := hdelta (np, l) (List.mem_cons_self _ _) n e hget
      have hgb : deltaGroupBits adc_stat drc rl l n
          = deltaPixBits drc rl e.1 (prevAt l n)
            ++ adcBits (some adc_stat) 0 e.2 := by
        rw [deltaGroupBits, hget]
      have hoa : optAdd ml k0 l n = [(ml.ConvertFromRegionPixel k0 e.1, e.2)] := by
        rw [optAdd, hget]
      rw [hgb, List.length_append] at hend
      rw [hoa, List.singleton_append] at hins hfresh hnodup
      have hprevin : rl.IsPixelInside (prevAt l n) = true :=
        prevAt_inside rl hr0 hc0 l n
          (fun x hx => (hcond (np, l) (List.mem_cons_self _ _) x hx).1)
      have hdec := decodePixelD_spec drc hdrc rl h32r h32c hr0 hc0 e.1 (prevAt l n)
        hein hprevin hdelta0 pf pos (by omega)
        (by
          intro j hj
          have h2 := hbits j (by
            rw [hsplit, List.length_append, hgb, List.length_append]; omega)
          rw [hsplit, List.getD_append _ _ _ _ (by
              rw [hgb, List.length_append]; omega),
            hgb, List.getD_append _ _ _ _ hj] at h2
          exact h2)
      have hadcread := readAdcLetter_spec adc_stat hadc pf
        (pos + (deltaPixBits drc rl e.1 (prevAt l n)).length) e.2 headc he16
        (by omega)
        (by
          intro j hj
          have h2 := hbits ((deltaPixBits drc rl e.1 (prevAt l n)).length + j) (by
            rw [hsplit, List.length_append, hgb, List.length_append]; omega)
          rw [hsplit, List.getD_append _ _ _ _ (by
              rw [hgb, List.length_append]; omega),
            hgb, List.getD_append_right _ _ _ _ (by omega)] at h2
          rw [show pos + (deltaPixBits drc rl e.1 (prevAt l n)).length + j
              = pos + ((deltaPixBits drc rl e.1 (prevAt l n)).length + j)
            from by omega, h2,
            show (deltaPixBits drc rl e.1 (prevAt l n)).length + j
              - (deltaPixBits drc rl e.1 (prevAt l n)).length = j from by omega])
      have hadd : c0.AddPixel (ml.ConvertFromRegionPixel k0 e.1) e.2
          = some ⟨c0.layout,
              c0.pixels ++ [(ml.ConvertFromRegionPixel k0 e.1, e.2)]⟩ :=
        addPixel_some c0 _ e.2
          (hins _ (List.mem_cons_self _ _))
          (hfresh _ (List.mem_cons_self _ _))
      rw [List.map_cons, List.nodup_cons] at hnodup
      have hrec := ih (k0 + 1)
        (pos + (deltaPixBits drc rl e.1 (prevAt l n)).length
          + (adcBits (some adc_stat) 0 e.2).length)
        ⟨c0.layout, c0.pixels ++ [(ml.ConvertFromRegionPixel k0 e.1, e.2)]⟩
        (fun t ht => halign t (List.mem_cons_of_mem _ ht))
        (fun t ht => hcond t (List.mem_cons_of_mem _ ht))
        (fun t ht => hdelta t (List.mem_cons_of_mem _ ht))
        (by omega)
        (by
          intro j hj
          have h2 := hbits ((deltaPixBits drc rl e.1 (prevAt l n)).length
              + (adcBits (some adc_stat) 0 e.2).length + j) (by
            rw [hsplit, List.length_append, hgb, List.length_append]; omega)
          rw [hsplit, List.getD_append_right _ _ _ _ (by
              rw [hgb, List.length_append]; omega)] at h2
          rw [show pos + (deltaPixBits drc rl e.1 (prevAt l n)).length
              + (adcBits (some adc_stat) 0 e.2).length + j
              = pos + ((deltaPixBits drc rl e.1 (prevAt l n)).length
                + (adcBits (some adc_stat) 0 e.2).length + j) from by omega, h2]
          rw [hgb, List.length_append,
            show (deltaPixBits drc rl e.1 (prevAt l n)).length
              + (adcBits (some adc_stat) 0 e.2).length + j
              - ((deltaPixBits drc rl e.1 (prevAt l n)).length
                + (adcBits (some adc_stat) 0 e.2).length) = j from by omega])
        (fun t ht => hins t (List.mem_cons_of_mem _ ht))
        (by
          intro t ht
          show (c0.pixels
            ++ [(ml.ConvertFromRegionPixel k0 e.1, e.2)]).find? (fun x => x.1 = t.1)
            = none
          rw [List.find?_append, hfresh t (List.mem_cons_of_mem _ ht), Option.none_or,
            List.find?_eq_none]
          intro x hx
          rw [List.mem_singleton] at hx
          subst hx
          simp only [decide_eq_true_eq]
          intro hc
          exact hnodup.1 (hc ▸ List.mem_map.mpr ⟨t, ht, rfl⟩))
        hnodup.2
      rw [if_neg hskip]
      simp only [hdec, hadcread, hadd, hrec]
      refine congrArg some ?_
      rw [prevAt_succ_lt l n e hget, hsplit, hasplit, hgb, hoa, Prod.mk.injEq,
        Prod.mk.injEq]
      refine ⟨rfl, ?_, ?_⟩
      · simp only [List.length_append]
        omega
      · rw [Chip.mk.injEq]
        exact ⟨rfl, by rw [List.append_assoc]⟩

set_option maxHeartbeats 1600000 in
theorem deltaReadLoop_spec (adc_stat drc : Stats)
    (hadc : GoodStats adc_stat) (hdrc : GoodStats drc) (rl : RegionLayout)
    (h32r : rl.n_rows ≤ 32768) (h32c : rl.n_columns ≤ 32768)
    (hr0 : 0 < rl.n_rows) (hc0 : 0 < rl.n_columns)
    (ml : MultiRegionLayout) (pf : Package) (max_n : Nat)
    (S : List (Nat × List (Pixel × Nat)))
    (hcond : ∀ s ∈ S, ∀ e ∈ s.2, rl.IsPixelInside e.1 = true ∧
      LetterOk adc_stat (Int.ofNat e.2) ∧ e.2 < 65536)
    (hdelta : ∀ s ∈ S, ∀ j : Nat, ∀ e : Pixel × Nat, s.2[j]? = some e →
      LetterOk drc (Int.ofNat (deltaLetterId rl e.1 (prevAt s.2 j)))) :
    ∀ (T fuel n pos : Nat) (c0 : Chip), T < fuel →
    (∀ s ∈ S, s.2.length ≤ n + T) →
    (∀ m, m < T → n + m < max_n ∧ ∃ l ∈ S.map Prod.snd, n + m < l.length) →
    (∀ s ∈ S, ∀ m, n ≤ m → m < n + T → (s.1 ≤ m ↔ s.2.length ≤ m)) →
    (¬ n + T < max_n ∨
      pos + (((List.range' n T).map
        (passBits adc_stat drc rl (S.map Prod.snd))).flatten).length = pf.endPos) →
    pos + (((List.range' n T).map
      (passBits adc_stat drc rl (S.map Prod.snd))).flatten).length ≤ pf.endPos →
    (∀ j, j < (((List.range' n T).map
        (passBits adc_stat drc rl (S.map Prod.snd))).flatten).length →
      pf.bitAt (pos + j) = (((List.range' n T).map
        (passBits adc_stat drc rl (S.map Prod.snd))).flatten).getD j false) →
    (∀ e ∈ ((List.range' n T).map
        (fun m => passAdds ml m 0 (S.map Prod.snd))).flatten,
      (RegionLayout.mk c0.layout.n_rows c0.layout.n_columns).IsPixelInside e.1
        = true) →
    (∀ e ∈ ((List.range' n T).map
        (fun m => passAdds ml m 0 (S.map Prod.snd))).flatten,
      c0.pixels.find? (fun x => x.1 = e.1) = none) →
    ((((List.range' n T).map
        (fun m => passAdds ml m 0 (S.map Prod.snd))).flatten).map Prod.fst).Nodup →
    deltaReadLoop adc_stat drc rl ml pf max_n fuel n
        (S.map (fun s => (s.1, prevAt s.2 n))) pos c0
      = some ⟨c0.layout, c0.pixels ++ ((List.range' n T).map
          (fun m => passAdds ml m 0 (S.map Prod.snd))).flatten⟩ := by
  intro T
  induction T with
  | zero =>
    intro fuel n pos c0 hfuel _ _ _ hterm _ _ _ _ _
    obtain ⟨f, rfl⟩ : ∃ f, fuel = f + 1 := ⟨fuel - 1, by omega⟩
    have hc : ¬ (n < max_n ∧ pos ≠ pf.endPos) := by
      rcases hterm with h | h
      · intro hand; exact h (by omega)
      · intro hand; exact hand.2 (by simpa using h)
    simp only [deltaReadLoop]
    rw [if_neg hc]
    refine congrArg some ?_
    rw [show ((List.range' n 0).map
        (fun m => passAdds ml m 0 (S.map Prod.snd))).flatten
        = [] from rfl, List.append_nil]
  | succ T ih =>
    intro fuel n pos c0 hfuel hexh hrun halign hterm hend hbits hins hfresh hnodup
    obtain ⟨f, rfl⟩ : ∃ f, fuel = f + 1 := ⟨fuel - 1, by omega⟩
    have hr : List.range' n (T + 1) = n :: List.range' (n + 1) T := rfl
    have hBsplit : ((List.range' n (T + 1)).map
        (passBits adc_stat drc rl (S.map Prod.snd))).flatten
        = passBits adc_stat drc rl (S.map Prod.snd) n
          ++ ((List.range' (n + 1) T).map
            (passBits adc_stat drc rl (S.map Prod.snd))).flatten := by
      rw [hr, List.map_cons, List.flatten_cons]
    have hAsplit : ((List.range' n (T + 1)).map
        (fun m => passAdds ml m 0 (S.map Prod.snd))).flatten
        = passAdds ml n 0 (S.map Prod.snd)
          ++ ((List.range' (n + 1) T).map
            (fun m => passAdds ml m 0 (S.map Prod.snd))).flatten := by
      rw [hr, List.map_cons, List.flatten_cons]
    rw [hBsplit, List.length_append] at hend
    rw [hBsplit, List.length_append] at hterm
    rw [hAsplit] at hins hfresh hnodup
    obtain ⟨hnmax0, l0, hl0mem, hl0len0⟩ := hrun 0 (by omega)
    have hnmax : n < max_n := by omega
    have hl0len : n < l0.length := by omega
    obtain ⟨s0, hs0mem, hs0eq⟩ := List.mem_map.mp hl0mem
    have hpb_pos : 0 < (passBits adc_stat drc rl (S.map Prod.snd) n).length := by
      have hlt0 : n < l0.length := hl0len
      obtain ⟨e, hget⟩ : ∃ e, l0[n]? = some e :=
        ⟨l0[n], List.getElem?_eq_getElem hlt0⟩
      have hok : LetterOk drc (Int.ofNat (deltaLetterId rl e.1 (prevAt l0 n))) := by
        have h0 := hdelta s0 hs0mem n e (by rw [hs0eq]; exact hget)
        rw [hs0eq] at h0
        exact h0
      have hgb0 : 0 < (deltaGroupBits adc_stat drc rl l0 n).length := by
        rw [deltaGroupBits, hget, List.length_append]
        have h1 := deltaPixBits_pos drc hdrc rl e.1 (prevAt l0 n) hok
        omega
      have hlenle : (deltaGroupBits adc_stat drc rl l0 n).length
          ≤ (passBits adc_stat drc rl (S.map Prod.snd) n).length := by
        rw [passBits, List.length_flatten]
        refine List.le_sum_of_mem ?_
        exact List.mem_map_of_mem _ (List.mem_map_of_mem _ hl0mem)
      omega
    simp only [deltaReadLoop]
    rw [if_pos ⟨hnmax, by omega⟩]
    rw [List.map_append, List.nodup_append] at hnodup
    have hpass := deltaReadPass_spec adc_stat drc hadc hdrc rl h32r h32c hr0 hc0
      ml pf n S 0 pos c0
      (fun s hs => halign s hs n (Nat.le_refl n) (by omega))
      hcond hdelta
      (by omega)
      (by
        intro j hj
        have h2 := hbits j (by rw [hBsplit, List.length_append]; omega)
        rw [hBsplit, List.getD_append _ _ _ _ hj] at h2
        exact h2)
      (fun e he => hins e (List.mem_append_left _ he))
      (fun e he => hfresh e (List.mem_append_left _ he))
      hnodup.1
    simp only [hpass]
    have hrec := ih f (n + 1)
      (pos + (passBits adc_stat drc rl (S.map Prod.snd) n).length)
      ⟨c0.layout, c0.pixels ++ passAdds ml n 0 (S.map Prod.snd)⟩
      (by omega)
      (fun s hs => by have := hexh s hs; omega)
      (by
        intro m hm
        obtain ⟨h1, l1, hl1, hl1len⟩ := hrun (m + 1) (by omega)
        exact ⟨by omega, l1, hl1, by omega⟩)
      (fun s hs m hm1 hm2 => halign s hs m (by omega) (by omega))
      (by
        rcases hterm with h | h
        · exact Or.inl (by omega)
        · exact Or.inr (by omega))
      (by omega)
      (by
        intro j hj
        have h2 := hbits ((passBits adc_stat drc rl (S.map Prod.snd) n).length + j)
          (by rw [hBsplit, List.length_append]; omega)
        rw [hBsplit, List.getD_append_right _ _ _ _ (by omega)] at h2
        rw [show pos + (passBits adc_stat drc rl (S.map Prod.snd) n).length + j
            = pos + ((passBits adc_stat drc rl (S.map Prod.snd) n).length + j)
          from by omega, h2,
          show (passBits adc_stat drc rl (S.map Prod.snd) n).length + j
            - (passBits adc_stat drc rl (S.map Prod.snd) n).length = j
          from by omega])
      (fun e he => hins e (List.mem_append_right _ he))
      (by
        intro e he
        show (c0.pixels ++ passAdds ml n 0 (S.map Prod.snd)).find?
          (fun x => x.1 = e.1) = none
        rw [List.find?_append, hfresh e (List.mem_append_right _ he),
          Option.none_or, List.find?_eq_none]
        intro x hx
        simp only [decide_eq_true_eq]
        intro hc
        have h1 : e.1 ∈ (passAdds ml n 0 (S.map Prod.snd)).map Prod.fst := by
          rw [← hc]
          exact List.mem_map.mpr ⟨x, hx, rfl⟩
        exact hnodup.2.2 h1 (List.mem_map.mpr ⟨e, he, rfl⟩))
      hnodup.2.1
    rw [hrec]
    refine congrArg some ?_
    rw [Chip.mk.injEq]
    exact ⟨rfl, by rw [List.append_assoc, hAsplit]⟩

theorem passBits_pos (adc_stat drc : Stats) (hdrc : GoodStats drc) (rl : RegionLayout)
    (L : List (List (Pixel × Nat))) (m : Nat)
    (hdelta : ∀ l ∈ L, ∀ j : Nat, ∀ e : Pixel × Nat, l[j]? = some e →
      LetterOk drc (Int.ofNat (deltaLetterId rl e.1 (prevAt l j))))
    (hlive : ∃ l ∈ L, m < l.length) :
    0 < (passBits adc_stat drc rl L m).length := by
  obtain ⟨l0, hl0, hml⟩ := hlive
  obtain ⟨e, hget⟩ : ∃ e, l0[m]? = some e := ⟨l0[m], List.getElem?_eq_getElem hml⟩
  have hok := hdelta l0 hl0 m e hget
  have hgb0 : 0 < (deltaGroupBits adc_stat drc rl l0 m).length := by
    rw [deltaGroupBits, hget, List.length_append]
    have h1 := deltaPixBits_pos drc hdrc rl e.1 (prevAt l0 m) hok
    omega
  have hlenle : (deltaGroupBits adc_stat drc rl l0 m).length
      ≤ (passBits adc_stat drc rl L m).length := by
    rw [passBits, List.length_flatten]
    exact List.le_sum_of_mem (List.mem_map_of_mem _ (List.mem_map_of_mem _ hl0))
  omega

set_option maxHeartbeats 3200000 in
theorem delta_roundtrip (adc_stat drc : Stats) (c : Chip)
    (hadc : GoodStats adc_stat) (hdrc : GoodStats drc)
    (hwf : c.layout.WF)
    (hnr : c.layout.n_rows ≤ 32768) (hnc : c.layout.n_columns ≤ 32768)
    (hrt32r : c.layout.region_layout.n_rows ≤ 32768)
    (hrt32c : c.layout.region_layout.n_columns ≤ 32768)
    (hreg1 : c.layout.GetNumberOfRegions = 1 →
      c.layout.region_layout = ⟨c.layout.n_rows, c.layout.n_columns⟩)
    (hin : ∀ e ∈ c.pixels,
      (RegionLayout.mk c.layout.n_rows c.layout.n_columns).IsPixelInside e.1 = true)
    (hnod : (c.pixels.map Prod.fst).Nodup)
    (hadcs : ∀ e ∈ c.pixels, LetterOk adc_stat (Int.ofNat e.2) ∧ e.2 < 65536)
    (hcov : ∀ i, i < c.layout.region_layout.n_rows
      * c.layout.region_layout.n_columns → LetterOk drc (Int.ofNat i))
    (hsz : ∀ m, m < c.layout.GetNumberOfRegions →
      (c.GetRegionPixels m).length < 2 ^ BitsPerNpixels) :
    ∃ pkg chip2, DeltaMake adc_stat drc c = some pkg ∧
      DeltaRead adc_stat drc pkg c.layout = some chip2 ∧
      chip2.layout = c.layout ∧ chip2.pixels.Perm c.pixels := by
  have hr0 : 0 < c.layout.region_layout.n_rows := hwf.rl_rows_pos
  have hc0 : 0 < c.layout.region_layout.n_columns := hwf.rl_cols_pos
  have hn1 : 0 < c.layout.GetNumberOfRegions := by
    have h1 := ceilDiv_pos c.layout.n_rows c.layout.region_layout.n_rows
      hwf.nr_pos hwf.rl_rows_pos
    have h2 := ceilDiv_pos c.layout.n_columns c.layout.region_layout.n_columns
      hwf.nc_pos hwf.rl_cols_pos
    rw [MultiRegionLayout.GetNumberOfRegions, hwf.grid_rows, hwf.grid_cols]
    exact Nat.mul_pos h1 h2
  have hrlD : c.layout.region_layout = c.regionLayoutAsRegion := by
    rw [Chip.regionLayoutAsRegion]
    by_cases h1 : c.layout.GetNumberOfRegions = 1
    · rw [if_pos h1]; exact hreg1 h1
    · rw [if_neg h1]
  set Q : List (Pixel × List (Pixel × Nat)) :=
    (List.range c.layout.GetNumberOfRegions).map (fun m =>
      ((⟨0, 0⟩ : Pixel),
       if c.IsRegionActive m then GetOrderedPixels (c.GetRegionPixels m) else []))
    with hQ
  set L : List (List (Pixel × Nat)) :=
    (List.range c.layout.GetNumberOfRegions).map (fun m =>
      if c.IsRegionActive m then GetOrderedPixels (c.GetRegionPixels m) else [])
    with hL
  have hQL : Q = L.map (fun l => (prevAt l 0, l.drop 0)) := by
    rw [hQ, hL, List.map_map]
    refine List.map_congr_left ?_
    intro m _
    show ((⟨0, 0⟩ : Pixel),
        if c.IsRegionActive m then GetOrderedPixels (c.GetRegionPixels m) else [])
      = (prevAt (if c.IsRegionActive m
          then GetOrderedPixels (c.GetRegionPixels m) else []) 0,
        List.drop 0 (if c.IsRegionActive m
          then GetOrderedPixels (c.GetRegionPixels m) else []))
    rw [prevAt_zero, List.drop_zero]
  have hLmem : ∀ l ∈ L, ∃ m, m < c.layout.GetNumberOfRegions ∧
      l = (if c.IsRegionActive m
        then GetOrderedPixels (c.GetRegionPixels m) else []) := by
    intro l hl
    rw [hL] at hl
    obtain ⟨m, hm, rfl⟩ := List.mem_map.mp hl
    exact ⟨m, List.mem_range.mp hm, rfl⟩
  have hGRP : ∀ m : Nat,
      (∀ q ∈ c.GetRegionPixels m,
        (∃ e ∈ c.pixels, q.2 = e.2) ∧
        c.layout.region_layout.IsPixelInside q.1 = true) ∧
      ((c.GetRegionPixels m).map Prod.fst).Nodup := by
    intro m
    obtain ⟨h1, h2⟩ := getRegionPixels_props c.layout hwf hnr hnc c.pixels hin hnod m
    refine ⟨?_, h2⟩
    intro q hq
    obtain ⟨hsrc, hins0⟩ := h1 q hq
    refine ⟨hsrc, ?_⟩
    rw [hrlD]
    exact hins0
  have hLcond : ∀ l ∈ L, ∀ e ∈ l,
      c.layout.region_layout.IsPixelInside e.1 = true ∧
      LetterOk adc_stat (Int.ofNat e.2) ∧ e.2 < 65536 := by
    intro l hl e he
    obtain ⟨m, hm, rfl⟩ := hLmem l hl
    by_cases hact : c.IsRegionActive m
    · rw [if_pos hact] at he
      have hperm : (GetOrderedPixels (c.GetRegionPixels m)).Perm
          (c.GetRegionPixels m) := List.mergeSort_perm _ _
      have he2 := hperm.mem_iff.mp he
      obtain ⟨⟨e2, he2src, he2adc⟩, hins0⟩ := (hGRP m).1 e he2
      obtain ⟨hok, h16⟩ := hadcs e2 he2src
      rw [he2adc]
      exact ⟨hins0, hok, h16⟩
    · rw [if_neg hact] at he
      exact absurd he (by simp)
  have hLdelta : ∀ l ∈ L, ∀ j : Nat, ∀ e : Pixel × Nat, l[j]? = some e →
      LetterOk drc (Int.ofNat
        (deltaLetterId c.layout.region_layout e.1 (prevAt l j))) := by
    intro l _ j e _
    exact hcov _ (deltaLetterId_lt _ hr0 hc0 _ _)
  have hLlen : ∀ l ∈ L, l.length < 2 ^ BitsPerNpixels := by
    intro l hl
    obtain ⟨m, hm, rfl⟩ := hLmem l hl
    by_cases hact : c.IsRegionActive m
    · rw [if_pos hact]
      have hperm : (GetOrderedPixels (c.GetRegionPixels m)).Perm
          (c.GetRegionPixels m) := List.mergeSort_perm _ _
      rw [hperm.length_eq]
      exact hsz m hm
    · rw [if_neg hact]
      decide
  set mx : Nat := (Q.map (fun e => e.2.length)).foldr Nat.max 0 with hmx
  have hmxL : Q.map (fun e => e.2.length) = L.map List.length := by
    rw [hQL, List.map_map]
    refine List.map_congr_left ?_
    intro l _
    show (l.drop 0).length = l.length
    rw [List.drop_zero]
  have hmax_le : ∀ l ∈ L, l.length ≤ mx := by
    intro l hl
    rw [hmx, hmxL]
    exact foldr_max_le _ _ (List.mem_map_of_mem _ hl)
  have hmax_live : ∀ m, m < mx → ∃ l ∈ L, m < l.length := by
    intro m hm
    rw [hmx, hmxL] at hm
    obtain ⟨x, hx, hxm⟩ := foldr_max_lt _ m hm
    obtain ⟨l, hl, rfl⟩ := List.mem_map.mp hx
    exact ⟨l, hl, hxm⟩
  obtain ⟨p, hloop, happB⟩ := deltaLoop_appends adc_stat drc hadc hdrc
    c.layout.region_layout hrt32r hrt32c hr0 hc0 L
    (fun l hl e he => ⟨(hLcond l hl e he).1, (hLcond l hl e he).2.1⟩)
    hLdelta mx 0 Package.empty empty_wf
  rw [← hQL] at hloop
  set B : List Bool :=
    ((List.range' 0 mx).map
      (passBits adc_stat drc c.layout.region_layout L)).flatten with hBdef
  have hpend : p.endPos = B.length := by
    have h0 := happB.end_eq
    rw [show Package.empty.endPos = 0 from rfl, Nat.zero_add] at h0
    exact h0
  set A : List (Pixel × Nat) :=
    ((List.range' 0 mx).map
      (fun m => passAdds c.layout m 0 L)).flatten with hAdef
  have hrr : List.range c.layout.GetNumberOfRegions
      = List.range' 0 c.layout.GetNumberOfRegions := List.range_eq_range' _
  have hA_perm : A.Perm c.pixels := by
    rw [hAdef, show List.range' 0 mx = List.range mx
      from (List.range_eq_range' mx).symm]
    refine (passAdds_transpose c.layout mx L 0 hmax_le).trans ?_
    rw [hL, hrr]
    rw [regionAdds_map_range c.layout
      (fun m => if c.IsRegionActive m
        then GetOrderedPixels (c.GetRegionPixels m) else [])
      c.layout.GetNumberOfRegions 0]
    rw [← hrr]
    refine (flatMap_perm_of_forall _ _
      (fun m => (c.GetRegionPixels m).map
        (fun e => (c.layout.ConvertFromRegionPixel m e.1, e.2))) ?_).trans ?_
    · intro m _
      show ((if c.IsRegionActive m then GetOrderedPixels (c.GetRegionPixels m)
          else []).map
          (fun e => (c.layout.ConvertFromRegionPixel m e.1, e.2))).Perm
        ((c.GetRegionPixels m).map
          (fun e => (c.layout.ConvertFromRegionPixel m e.1, e.2)))
      by_cases hact : c.IsRegionActive m
      · rw [if_pos hact]
        exact (List.mergeSort_perm _ _).map _
      · rw [if_neg hact,
          getRegionPixels_empty_of_inactive c m (Bool.eq_false_iff.mpr hact)]
    · exact regionJoin_perm c.layout hwf hnr hnc c.pixels hin
  have hA_keys : (A.map Prod.fst).Nodup := (hA_perm.map Prod.fst).nodup_iff.mpr hnod
  have hA_in : ∀ e ∈ A,
      (RegionLayout.mk c.layout.n_rows c.layout.n_columns).IsPixelInside e.1
        = true :=
    fun e he => hin e (hA_perm.mem_iff.mp he)
  have hBge : mx ≤ B.length := by
    rw [hBdef]
    have hpos : ∀ x ∈ (List.range' 0 mx).map
        (passBits adc_stat drc c.layout.region_layout L), 0 < x.length := by
      intro x hx
      rw [List.mem_map] at hx
      obtain ⟨m, hm, rfl⟩ := hx
      rw [List.mem_range'] at hm
      obtain ⟨i, hi, rfl⟩ := hm
      refine passBits_pos adc_stat drc hdrc c.layout.region_layout L (0 + 1 * i)
        hLdelta ?_
      exact hmax_live (0 + 1 * i) (by omega)
    have h0 := flatten_length_ge _ hpos
    rw [List.length_map] at h0
    have h1 : (List.range' 0 mx).length = mx := by simp
    omega
  have h1024 : (2 : Nat) ^ BitsPerNpixels = 1024 := by decide
  have hbig : (1024 : Nat) < 2 ^ 64 - 1 := by norm_num
  by_cases hmulti : 1 < c.layout.GetNumberOfRegions
  · obtain ⟨p2, hws, happT⟩ := writeSizes_appends Q p happB.wf
      (by
        intro e he
        rw [hQL] at he
        obtain ⟨l, hl, rfl⟩ := List.mem_map.mp he
        show (l.drop 0).length < 2 ^ BitsPerNpixels
        rw [List.drop_zero]
        exact hLlen l hl)
    set Tr : List Bool :=
      (Q.map (fun e => msbBits e.2.length BitsPerNpixels)).flatten with hTrdef
    have hTrL : Tr = ((L.map List.length).map
        (fun v => msbBits v BitsPerNpixels)).flatten := by
      rw [hTrdef, ← hmxL]
      conv_rhs => rw [List.map_map]
      rfl
    have hTrlen : Tr.length
        = BitsPerNpixels * c.layout.GetNumberOfRegions := by
      rw [hTrL, sizesBits_length, List.length_map, hL, List.length_map,
        List.length_range]
    set pf : Package := p2.nextReadoutCicle with hpf
    have hpfe : pf.endPos = B.length + Tr.length := by
      show p2.endPos = B.length + Tr.length
      rw [happT.end_eq, hpend]
    have hmake : DeltaMake adc_stat drc c = some pf := by
      show (match deltaLoop adc_stat drc c.layout.region_layout mx 0 Q
          Package.empty with
        | none => none
        | some p =>
          if 1 < c.layout.GetNumberOfRegions then
            match writeSizes Q p with
            | none => none
            | some p2 => some p2.nextReadoutCicle
          else some p) = some pf
      rw [hloop]
      show (if 1 < c.layout.GetNumberOfRegions then
          match writeSizes Q p with
          | none => none
          | some p2 => some p2.nextReadoutCicle
        else some p) = some pf
      rw [if_pos hmulti, hws]
    set S : List (Nat × List (Pixel × Nat)) := L.map (fun l => (l.length, l))
      with hS
    have hSL : S.map Prod.snd = L := by
      rw [hS, List.map_map]
      exact List.map_id' L
    have hstS : (L.map List.length).map (fun sz => (sz, (⟨0, 0⟩ : Pixel)))
        = S.map (fun s => (s.1, prevAt s.2 0)) := by
      rw [hS]
      conv_lhs => rw [List.map_map]
      conv_rhs => rw [List.map_map]
      refine List.map_congr_left ?_
      intro l _
      exact rfl
    have hcondS : ∀ s ∈ S, ∀ e ∈ s.2,
        c.layout.region_layout.IsPixelInside e.1 = true ∧
        LetterOk adc_stat (Int.ofNat e.2) ∧ e.2 < 65536 := by
      intro s hs
      rw [hS] at hs
      obtain ⟨l, hl, rfl⟩ := List.mem_map.mp hs
      exact hLcond l hl
    have hdeltaS : ∀ s ∈ S, ∀ j : Nat, ∀ e : Pixel × Nat, s.2[j]? = some e →
        LetterOk drc (Int.ofNat
          (deltaLetterId c.layout.region_layout e.1 (prevAt s.2 j))) := by
      intro s hs
      rw [hS] at hs
      obtain ⟨l, hl, rfl⟩ := List.mem_map.mp hs
      exact hLdelta l hl
    have hfold : (L.map List.length).foldr Nat.max 0 = mx := by
      rw [hmx, ← hmxL]
    have hloopR := deltaReadLoop_spec adc_stat drc hadc hdrc
      c.layout.region_layout hrt32r hrt32c hr0 hc0 c.layout pf mx S
      hcondS hdeltaS mx (mx + 1) 0 0 ⟨c.layout, []⟩
      (by omega)
      (by
        intro s hs
        rw [hS] at hs
        obtain ⟨l, hl, rfl⟩ := List.mem_map.mp hs
        show l.length ≤ 0 + mx
        have := hmax_le l hl
        omega)
      (by
        intro m hm
        obtain ⟨l, hl, hml⟩ := hmax_live m hm
        exact ⟨by omega, l, by rw [hSL]; exact hl, by omega⟩)
      (by
        intro s hs m _ _
        rw [hS] at hs
        obtain ⟨l, hl, rfl⟩ := List.mem_map.mp hs
        exact Iff.rfl)
      (Or.inl (by omega))
      (by
        rw [hSL, ← hBdef]
        rw [hpfe]
        omega)
      (by
        intro j hj
        rw [hSL, ← hBdef] at hj ⊢
        have h4 : p2.bitAt (0 + j) = p.bitAt (0 + j) :=
          happT.pres (0 + j) (by rw [hpend]; omega)
        have h5 : p.bitAt (0 + j) = B.getD j false := happB.new j hj
        show p2.bitAt (0 + j) = B.getD j false
        rw [h4, h5])
      (by
        intro e he
        rw [hSL, ← hAdef] at he
        exact hA_in e he)
      (fun e he => rfl)
      (by
        rw [hSL, ← hAdef]
        exact hA_keys)
    rw [hSL, ← hAdef, ← hstS] at hloopR
    have hreadS : readSizes pf c.layout.GetNumberOfRegions
        (pf.endPos - BitsPerNpixels * c.layout.GetNumberOfRegions)
        = some (L.map List.length) := by
      have hcnt : (L.map List.length).length = c.layout.GetNumberOfRegions := by
        rw [List.length_map, hL, List.length_map, List.length_range]
      have hpos0 : pf.endPos - BitsPerNpixels * c.layout.GetNumberOfRegions
          = B.length := by
        rw [hpfe, hTrlen]
        omega
      rw [hpos0, ← hcnt]
      refine readSizes_spec pf (L.map List.length) B.length ?_ ?_ ?_
      · intro v hv
        obtain ⟨l, hl, rfl⟩ := List.mem_map.mp hv
        exact hLlen l hl
      · rw [hcnt, hpfe, hTrlen]
      · intro j hj
        rw [← hTrL] at hj ⊢
        have h6 := happT.new j hj
        rw [hpend] at h6
        show p2.bitAt (B.length + j) = Tr.getD j false
        exact h6
    have hread : DeltaRead adc_stat drc pf c.layout
        = some ⟨c.layout, [] ++ A⟩ := by
      show (if 1 < c.layout.GetNumberOfRegions then
          if pf.endPos < BitsPerNpixels * c.layout.GetNumberOfRegions then none
          else
            match readSizes pf c.layout.GetNumberOfRegions
                (pf.endPos - BitsPerNpixels * c.layout.GetNumberOfRegions) with
            | none => none
            | some sizes =>
              deltaReadLoop adc_stat drc c.layout.region_layout c.layout pf
                (sizes.foldr Nat.max 0) (sizes.foldr Nat.max 0 + 1) 0
                (sizes.map (fun sz => (sz, (⟨0, 0⟩ : Pixel)))) 0 ⟨c.layout, []⟩
        else if c.layout.GetNumberOfRegions = 0 then none
        else deltaReadLoop adc_stat drc c.layout.region_layout c.layout pf
          (2 ^ 64 - 1) (pf.endPos + 1) 0 [(2 ^ 64 - 1, (⟨0, 0⟩ : Pixel))] 0
          ⟨c.layout, []⟩) = some ⟨c.layout, [] ++ A⟩
      rw [if_pos hmulti, if_neg (by rw [hpfe, hTrlen]; omega), hreadS]
      show deltaReadLoop adc_stat drc c.layout.region_layout c.layout pf
          ((L.map List.length).foldr Nat.max 0)
          ((L.map List.length).foldr Nat.max 0 + 1) 0
          ((L.map List.length).map (fun sz => (sz, (⟨0, 0⟩ : Pixel)))) 0
          ⟨c.layout, []⟩ = some ⟨c.layout, [] ++ A⟩
      rw [hfold]
      exact hloopR
    refine ⟨pf, ⟨c.layout, [] ++ A⟩, hmake, hread, rfl, ?_⟩
    show ([] ++ A).Perm c.pixels
    rw [List.nil_append]
    exact hA_perm
  · have hone : c.layout.GetNumberOfRegions = 1 := by omega
    have hmake : DeltaMake adc_stat drc c = some p := by
      show (match deltaLoop adc_stat drc c.layout.region_layout mx 0 Q
          Package.empty with
        | none => none
        | some p =>
          if 1 < c.layout.GetNumberOfRegions then
            match writeSizes Q p with
            | none => none
            | some p2 => some p2.nextReadoutCicle
          else some p) = some p
      rw [hloop]
      show (if 1 < c.layout.GetNumberOfRegions then
          match writeSizes Q p with
          | none => none
          | some p2 => some p2.nextReadoutCicle
        else some p) = some p
      rw [if_neg hmulti]
    obtain ⟨l0, hLeq⟩ : ∃ l0, L = [l0] := by
      rw [hL, hone]
      exact ⟨_, rfl⟩
    have hmx1 : mx = l0.length := by
      rw [hmx, hmxL, hLeq]
      show Nat.max l0.length 0 = l0.length
      exact Nat.max_eq_left (Nat.zero_le _)
    have hl0mem : l0 ∈ L := by
      rw [hLeq]
      exact List.mem_cons_self _ _
    have hl0small : l0.length < 2 ^ BitsPerNpixels := hLlen l0 hl0mem
    have hmap1 : ([((2 : Nat) ^ 64 - 1, l0)].map Prod.snd) = L := by
      rw [hLeq]
      rfl
    have hloopR1 := deltaReadLoop_spec adc_stat drc hadc hdrc
      c.layout.region_layout hrt32r hrt32c hr0 hc0 c.layout p (2 ^ 64 - 1)
      [((2 : Nat) ^ 64 - 1, l0)]
      (by
        intro s hs
        rw [List.mem_singleton] at hs
        subst hs
        intro e he
        exact hLcond l0 hl0mem e he)
      (by
        intro s hs
        rw [List.mem_singleton] at hs
        subst hs
        intro j e hget
        exact hLdelta l0 hl0mem j e hget)
      mx (p.endPos + 1) 0 0 ⟨c.layout, []⟩
      (by rw [hpend]; omega)
      (by
        intro s hs
        rw [List.mem_singleton] at hs
        subst hs
        show l0.length ≤ 0 + mx
        omega)
      (by
        intro m hm
        refine ⟨by omega, l0, ?_, ?_⟩
        · rw [hmap1]
          exact hl0mem
        · omega)
      (by
        intro s hs m hm0 hmT
        rw [List.mem_singleton] at hs
        subst hs
        show (2 : Nat) ^ 64 - 1 ≤ m ↔ l0.length ≤ m
        constructor
        · intro h1
          exfalso
          omega
        · intro h2
          exfalso
          omega)
      (Or.inr (by
        rw [hmap1, ← hBdef, hpend]
        omega))
      (by
        rw [hmap1, ← hBdef, hpend]
        omega)
      (by
        intro j hj
        rw [hmap1, ← hBdef] at hj ⊢
        exact happB.new j hj)
      (by
        intro e he
        rw [hmap1, ← hAdef] at he
        exact hA_in e he)
      (fun e he => rfl)
      (by
        rw [hmap1, ← hAdef]
        exact hA_keys)
    rw [hmap1, ← hAdef] at hloopR1
    have hst1 : ([((2 : Nat) ^ 64 - 1, l0)].map (fun s => (s.1, prevAt s.2 0)))
        = [((2 : Nat) ^ 64 - 1, (⟨0, 0⟩ : Pixel))] := rfl
    rw [hst1] at hloopR1
    have hread : DeltaRead adc_stat drc p c.layout
        = some ⟨c.layout, [] ++ A⟩ := by
      show (if 1 < c.layout.GetNumberOfRegions then
          if p.endPos < BitsPerNpixels * c.layout.GetNumberOfRegions then none
          else
            match readSizes p c.layout.GetNumberOfRegions
                (p.endPos - BitsPerNpixels * c.layout.GetNumberOfRegions) with
            | none => none
            | some sizes =>
              deltaReadLoop adc_stat drc c.layout.region_layout c.layout p
                (sizes.foldr Nat.max 0) (sizes.foldr Nat.max 0 + 1) 0
                (sizes.map (fun sz => (sz, (⟨0, 0⟩ : Pixel)))) 0 ⟨c.layout, []⟩
        else if c.layout.GetNumberOfRegions = 0 then none
        else deltaReadLoop adc_stat drc c.layout.region_layout c.layout p
          (2 ^ 64 - 1) (p.endPos + 1) 0 [(2 ^ 64 - 1, (⟨0, 0⟩ : Pixel))] 0
          ⟨c.layout, []⟩) = some ⟨c.layout, [] ++ A⟩
      rw [if_neg hmulti, if_neg (by omega)]
      exact hloopR1
    refine ⟨p, ⟨c.layout, [] ++ A⟩, hmake, hread, rfl, ?_⟩
    show ([] ++ A).Perm c.pixels
    rw [List.nil_append]
    exact hA_perm

/-! ### `ChipDataEncoder` (`ChipDataEncoder.h` / `ChipDataEncoder.cc`)

The dispatcher over the four encoder formats.  The `Delta` maker is the
`CombinedDelta` / `Ordering::ByRow` instantiation embedded above.  The
constructor draws three dictionaries from the `AlphabetStatisticsCollection`:
`at(Adc)` for the compressed block adcs, `at(ActiveAdc)` and
`at(DeltaRowColumn)` for the delta format.  `Encode` re-splits a chip whose
layout differs from the configured one through the `Chip` splitting copy
constructor; that branch is outside the round-trip claim (which assumes the
layouts agree) and the embedding does not model it. -/

inductive EncoderFormat where
  | SinglePixel : EncoderFormat
  | Region : EncoderFormat
  | RegionWithCompressedAdc : EncoderFormat
  | Delta : EncoderFormat
deriving DecidableEq, Repr

/-- The dictionaries of the `AlphabetStatisticsCollection` the encoder
reads: `at(AlphabetType::Adc)`, `at(AlphabetType::ActiveAdc)` and
`at(AlphabetType::DeltaRowColumn)`. -/
structure StatsSource where
  all_adc : Stats
  active_adc : Stats
  delta_row_column : Stats
deriving DecidableEq

/-- `ChipDataEncoder::Encode`, for a chip whose layout equals the
configured `chip_layout` (the re-split branch is not modelled);
`n_bits_per_adc = RegionLayout::BitsPerValue(max_adc)` as in the
constructor. -/
def ChipDataEncoder.Encode (format : EncoderFormat)
    (chip_layout : MultiRegionLayout) (ru : RegionLayout) (max_adc : Nat)
    (src : StatsSource) (c : Chip) : Option Package :=
  if c.layout = chip_layout then
    match format with
    | EncoderFormat.SinglePixel =>
        DefaultMake (RegionLayout.BitsPerValue max_adc) c
    | EncoderFormat.Region =>
        BlockMake none ru (RegionLayout.BitsPerValue max_adc) c
    | EncoderFormat.RegionWithCompressedAdc =>
        BlockMake (some src.all_adc) ru (RegionLayout.BitsPerValue max_adc) c
    | EncoderFormat.Delta =>
        DeltaMake src.active_adc src.delta_row_column c
  else none

/-- `ChipDataEncoder::Decode`: `package_maker->Read(package, chip_layout)`. -/
def ChipDataEncoder.Decode (format : EncoderFormat)
    (chip_layout : MultiRegionLayout) (ru : RegionLayout) (max_adc : Nat)
    (src : StatsSource) (p : Package) : Option Chip :=
  match format with
  | EncoderFormat.SinglePixel =>
      DefaultRead (RegionLayout.BitsPerValue max_adc) p chip_layout
  | EncoderFormat.Region =>
      BlockRead none ru (RegionLayout.BitsPerValue max_adc) p chip_layout
  | EncoderFormat.RegionWithCompressedAdc =>
      BlockRead (some src.all_adc) ru (RegionLayout.BitsPerValue max_adc) p
        chip_layout
  | EncoderFormat.Delta =>
      DeltaRead src.active_adc src.delta_row_column p chip_layout

/-- C1: For every chip whose multi-region layout matches the configured
`chip_layout`, whose pixel keys are distinct and in range, whose adc values
lie in `[1, max_adc]` and fit the `BitsPerValue(max_adc)`-bit raw field and
the 16-bit `Adc` type, with a positive adc field width, consistent single-
region tiling, readout-unit and chip dimensions within the 15-bit coordinate
range, dictionaries that are well-formed Huffman tables covering the chip's
letters (including the zero adc for the compressed-block format and every
combined delta id for the delta format), and fewer than `2^10` pixels per
macro region for the delta trailer, `Decode` after `Encode` reproduces the
chip's pixel-to-adc multiset for each of the four encoder formats. -/
theorem encoder_roundtrip (format : EncoderFormat)
    (chip_layout : MultiRegionLayout) (ru : RegionLayout) (max_adc : Nat)
    (src : StatsSource) (c : Chip)
    (hlay : c.layout = chip_layout)
    (hwf : c.layout.WF)
    (hnr : c.layout.n_rows ≤ 32768) (hnc : c.layout.n_columns ≤ 32768)
    (hrt32r : c.layout.region_layout.n_rows ≤ 32768)
    (hrt32c : c.layout.region_layout.n_columns ≤ 32768)
    (hreg1 : c.layout.GetNumberOfRegions = 1 →
      c.layout.region_layout = ⟨c.layout.n_rows, c.layout.n_columns⟩)
    (hrur : 0 < ru.n_rows) (hruc : 0 < ru.n_columns)
    (hru32r : ru.n_rows ≤ 32768) (hru32c : ru.n_columns ≤ 32768)
    (hin : ∀ e ∈ c.pixels,
      (RegionLayout.mk c.layout.n_rows c.layout.n_columns).IsPixelInside e.1
        = true)
    (hnod : (c.pixels.map Prod.fst).Nodup)
    (hadc_max : ∀ e ∈ c.pixels, 1 ≤ e.2 ∧ e.2 ≤ max_adc)
    (hmax16 : max_adc < 65536)
    (hfit : ∀ e ∈ c.pixels, e.2 < 2 ^ RegionLayout.BitsPerValue max_adc)
    (hbpv0 : 0 < RegionLayout.BitsPerValue max_adc)
    (hgadc : GoodStats src.all_adc) (hgactive : GoodStats src.active_adc)
    (hgdrc : GoodStats src.delta_row_column)
    (hcov_all : ∀ e ∈ c.pixels, LetterOk src.all_adc (Int.ofNat e.2))
    (hcov_zero : LetterOk src.all_adc 0)
    (hcov_active : ∀ e ∈ c.pixels, LetterOk src.active_adc (Int.ofNat e.2))
    (hcov_drc : ∀ i, i < c.layout.region_layout.n_rows
      * c.layout.region_layout.n_columns →
      LetterOk src.delta_row_column (Int.ofNat i))
    (hszd : ∀ m, m < c.layout.GetNumberOfRegions →
      (c.GetRegionPixels m).length < 2 ^ BitsPerNpixels) :
    ∃ pkg chip2,
      ChipDataEncoder.Encode format chip_layout ru max_adc src c = some pkg ∧
      ChipDataEncoder.Decode format chip_layout ru max_adc src pkg
        = some chip2 ∧
      chip2.layout = c.layout ∧ chip2.pixels.Perm c.pixels := by
  subst hlay
  cases format with
  | SinglePixel =>
    obtain ⟨pf, hmk, hrd⟩ := default_roundtrip c (RegionLayout.BitsPerValue max_adc)
      hwf hnr hnc (BitsPerValue_le_64 _)
      (fun e he => ⟨hin e he, (hadc_max e he).1, hfit e he⟩) hnod
    refine ⟨pf, ⟨c.layout, c.pixels⟩, ?_, ?_, rfl, List.Perm.refl _⟩
    · rw [ChipDataEncoder.Encode, if_pos rfl]
      exact hmk
    · rw [ChipDataEncoder.Decode]
      exact hrd
  | Region =>
    obtain ⟨pkg, chip2, hmk, hrd, hl2, hp2⟩ := block_roundtrip none ru
      (RegionLayout.BitsPerValue max_adc) c
      (fun st h => Option.noConfusion h)
      (BitsPerValue_le_64 _) hbpv0 hwf hnr hnc hrt32r hrt32c hreg1
      hrur hruc hru32r hru32c hin hnod
      (fun e he => ⟨(hadc_max e he).1,
        by have h1 := (hadc_max e he).2; omega,
        hfit e he⟩)
      (Nat.two_pow_pos _)
    refine ⟨pkg, chip2, ?_, ?_, hl2, hp2⟩
    · rw [ChipDataEncoder.Encode, if_pos rfl]
      exact hmk
    · rw [ChipDataEncoder.Decode]
      exact hrd
  | RegionWithCompressedAdc =>
    obtain ⟨pkg, chip2, hmk, hrd, hl2, hp2⟩ := block_roundtrip
      (some src.all_adc) ru (RegionLayout.BitsPerValue max_adc) c
      (fun st h => (Option.some_inj.mp h) ▸ hgadc)
      (BitsPerValue_le_64 _) hbpv0 hwf hnr hnc hrt32r hrt32c hreg1
      hrur hruc hru32r hru32c hin hnod
      (fun e he => ⟨(hadc_max e he).1,
        by have h1 := (hadc_max e he).2; omega,
        hcov_all e he⟩)
      hcov_zero
    refine ⟨pkg, chip2, ?_, ?_, hl2, hp2⟩
    · rw [ChipDataEncoder.Encode, if_pos rfl]
      exact hmk
    · rw [ChipDataEncoder.Decode]
      exact hrd
  | Delta =>
    obtain ⟨pkg, chip2, hmk, hrd, hl2, hp2⟩ := delta_roundtrip
      src.active_adc src.delta_row_column c hgactive hgdrc
      hwf hnr hnc hrt32r hrt32c hreg1 hin hnod
      (fun e he => ⟨hcov_active e he,
        by have h1 := (hadc_max e he).2; omega⟩)
      hcov_drc hszd
    refine ⟨pkg, chip2, ?_, ?_, hl2, hp2⟩
    · rw [ChipDataEncoder.Encode, if_pos rfl]
      exact hmk
    · rw [ChipDataEncoder.Decode]
      exact hrd

/-- A layout of a single 2×2 region, a 2×2 chip with two pixels, and the
three dictionaries of the witness run. -/
def wAdcStats : Stats := ⟨[0, 1, 2], [(0, ⟨0, 1⟩), (1, ⟨1, 2⟩), (2, ⟨3, 2⟩)]⟩

def wActiveStats : Stats := ⟨[1, 2], [(1, ⟨0, 1⟩), (2, ⟨1, 1⟩)]⟩

def wDrcStats : Stats :=
  ⟨[0, 1, 2, 3], [(0, ⟨0, 2⟩), (1, ⟨1, 2⟩), (2, ⟨2, 2⟩), (3, ⟨3, 2⟩)]⟩

def wLay : MultiRegionLayout := ⟨2, 2, ⟨2, 2⟩, 1, 1, 2, 2⟩

def wRu : RegionLayout := ⟨1, 1⟩

def wSrc : StatsSource := ⟨wAdcStats, wActiveStats, wDrcStats⟩

def wChip : Chip := ⟨wLay, [(⟨0, 0⟩, 1), (⟨1, 1⟩, 2)]⟩

theorem wAdcStats_good : GoodStats wAdcStats := by
  refine ⟨by decide, by decide, ?_, by decide, by decide⟩
  intro a ha
  fin_cases ha
  · exact ⟨⟨0, 1⟩, by decide⟩
  · exact ⟨⟨1, 2⟩, by decide⟩
  · exact ⟨⟨3, 2⟩, by decide⟩

theorem wActiveStats_good : GoodStats wActiveStats := by
  refine ⟨by decide, by decide, ?_, by decide, by decide⟩
  intro a ha
  fin_cases ha
  · exact ⟨⟨0, 1⟩, by decide⟩
  · exact ⟨⟨1, 1⟩, by decide⟩

theorem wDrcStats_good : GoodStats wDrcStats := by
  refine ⟨by decide, by decide, ?_, by decide, by decide⟩
  intro a ha
  fin_cases ha
  · exact ⟨⟨0, 2⟩, by decide⟩
  · exact ⟨⟨1, 2⟩, by decide⟩
  · exact ⟨⟨2, 2⟩, by decide⟩
  · exact ⟨⟨3, 2⟩, by decide⟩

/-- Witness for C1: the round-trip theorem applied to a concrete chip,
readout unit and dictionary set, with every hypothesis discharged on the
concrete data. -/
theorem encoder_roundtrip_witness :
    ∃ pkg chip2,
      ChipDataEncoder.Encode EncoderFormat.Delta wLay wRu 3 wSrc wChip
        = some pkg ∧
      ChipDataEncoder.Decode EncoderFormat.Delta wLay wRu 3 wSrc pkg
        = some chip2 ∧
      chip2.layout = wChip.layout ∧ chip2.pixels.Perm wChip.pixels :=
  encoder_roundtrip EncoderFormat.Delta wLay wRu 3 wSrc wChip
    rfl
    ⟨by decide, by decide, by decide, by decide, by decide, by decide,
     by decide, by decide⟩
    (by decide) (by decide) (by decide) (by decide)
    (by decide)
    (by decide) (by decide) (by decide) (by decide)
    (by decide)
    (by decide)
    (by decide)
    (by decide)
    (by decide)
    (by decide)
    wAdcStats_good wActiveStats_good wDrcStats_good
    (by
      intro e he
      fin_cases he
      · exact ⟨by decide, ⟨⟨1, 2⟩, by decide⟩⟩
      · exact ⟨by decide, ⟨⟨3, 2⟩, by decide⟩⟩)
    ⟨by decide, ⟨⟨0, 1⟩, by decide⟩⟩
    (by
      intro e he
      fin_cases he
      · exact ⟨by decide, ⟨⟨0, 1⟩, by decide⟩⟩
      · exact ⟨by decide, ⟨⟨1, 1⟩, by decide⟩⟩)
    (by
      intro i hi
      have hi4 : i < 4 := by
        have h0 : wChip.layout.region_layout.n_rows
            * wChip.layout.region_layout.n_columns = 4 := by decide
        omega
      interval_cases i
      · exact ⟨by decide, ⟨⟨0, 2⟩, by decide⟩⟩
      · exact ⟨by decide, ⟨⟨1, 2⟩, by decide⟩⟩
      · exact ⟨by decide, ⟨⟨2, 2⟩, by decide⟩⟩
      · exact ⟨by decide, ⟨⟨3, 2⟩, by decide⟩⟩)
    (by decide)

/-- A 1×1 chip whose single pixel carries `adc = max_adc = 2`: every
hypothesis of the claim as stated holds (matching layout, adcs in
`[1, max_adc]`), yet `Encode` with the `SinglePixel` format fails, because
`BitsPerValue(2) = ⌈log2 2⌉ = 1` and `Package::write(2, 1)` throws — the
raw adc field cannot hold `max_adc` itself whenever `max_adc` is a power of
two.  The claim therefore needs the adc values to fit the
`BitsPerValue(max_adc)`-bit field. -/
def cLay : MultiRegionLayout := ⟨1, 1, ⟨1, 1⟩, 1, 1, 1, 1⟩

def cChip : Chip := ⟨cLay, [(⟨0, 0⟩, 2)]⟩

theorem encoder_roundtrip_cex :
    cChip.layout = cLay ∧
    (∀ e ∈ cChip.pixels, 1 ≤ e.2 ∧ e.2 ≤ 2) ∧
    ChipDataEncoder.Encode EncoderFormat.SinglePixel cLay ⟨1, 1⟩ 2
      ⟨⟨[], []⟩, ⟨[], []⟩, ⟨[], []⟩⟩ cChip = none := by
  decide

end PixelStudies
